import Mathlib

/-!
Verification of `CommandLineParser.h`.

A shallow embedding of `CommandLineParser.h` (class `CommandLineParser`) and a
verification of its registration, parsing and query behaviour.

* `std::string` is `String`; `std::less<std::string>` compares the character
  sequences lexicographically (`String.data` with the order of `List Char`).
* `std::map<std::string, Option>` is the list of its entries in ascending key
  order.  An iterator is the key it points to (`none` is `end()`); incrementing
  it moves to the least greater key of the map as it is at that moment, so
  entries inserted while a loop runs are visited when their key lies ahead.
* `exit(n)` and a propagating exception end `Parse`; the way `Parse` stops is
  recorded in `ParseResult.control`, with what was written to `std::cout` and
  `std::cerr` and the state of the object at that moment.
* Loops whose trip count is not given by a list carry a fuel argument; running
  out of fuel is `none`.  `Parse` supplies the fuel itself, and `Parse_spec`
  shows that it suffices for every registry whose keys are in order.
* The definitions after `ParseArgs` (`visitAll`, `Frame`, `Reaches`, ...) are
  not part of the program: they state what the loops do.
-/

/-- The nested `struct Option` of the class (renamed: `Option` is taken). -/
structure CliOption where
  description : String := ""
  aliases : List String := []
  is_set : Bool := false
  value : String := ""
  mutually_exclusive : Bool := false
  mutually_exclusive_options : List String := []
deriving DecidableEq

/-- The type `std::map<std::string, Option>`: entries in ascending key order. -/
abbrev OptionMap := List (String × CliOption)

/-- The exception `std::out_of_range` thrown by `std::map::at`. -/
inductive LookupError where
  | out_of_range
deriving DecidableEq

/-- Equality of results of type `Except` is decidable. -/
instance exceptDecidableEq {ε α : Type} [DecidableEq ε] [DecidableEq α] :
    DecidableEq (Except ε α) := fun a b =>
  match a, b with
  | .ok x, .ok y =>
    if h : x = y then isTrue (by rw [h]) else isFalse (fun e => h (Except.ok.inj e))
  | .error x, .error y =>
    if h : x = y then isTrue (by rw [h]) else isFalse (fun e => h (Except.error.inj e))
  | .ok _, .error _ => isFalse (fun e => Except.noConfusion e)
  | .error _, .ok _ => isFalse (fun e => Except.noConfusion e)

/-- The comparison `std::less<std::string>`. -/
def keyLess (a b : String) : Prop := a.data < b.data

instance keyLessDecidable (a b : String) : Decidable (keyLess a b) :=
  inferInstanceAs (Decidable (a.data < b.data))

/-- The member `std::map::find`: the entry stored under `k`, if any. -/
def OptionMap.find : OptionMap → String → Option CliOption
  | [], _ => none
  | (k', o) :: rest, k => if k' = k then some o else OptionMap.find rest k

/-- The member `std::map::at`: the entry stored under `k`, or `std::out_of_range`. -/
def OptionMap.at_ (m : OptionMap) (k : String) : Except LookupError CliOption :=
  match OptionMap.find m k with
  | some o => .ok o
  | none => .error .out_of_range

/-- Insertion of a new entry at its place in the key order. -/
def OptionMap.insert (k : String) (o : CliOption) : OptionMap → OptionMap
  | [] => [(k, o)]
  | (k', o') :: rest =>
    if keyLess k k' then (k, o) :: (k', o') :: rest
    else (k', o') :: OptionMap.insert k o rest

/-- The map after evaluating `options_[k]`: a default-constructed entry is
inserted when the key is absent. -/
def OptionMap.subscript (m : OptionMap) (k : String) : OptionMap :=
  match OptionMap.find m k with
  | some _ => m
  | none => OptionMap.insert k {} m

/-- The entry a reference to key `k` denotes (`k` is present wherever the
embedding reads through a reference). -/
def OptionMap.get (m : OptionMap) (k : String) : CliOption :=
  (OptionMap.find m k).getD {}

/-- A write through a reference to the entry stored under `k`. -/
def OptionMap.modify (k : String) (f : CliOption → CliOption) : OptionMap → OptionMap
  | [] => []
  | (k', o) :: rest =>
    if k' = k then (k', f o) :: rest else (k', o) :: OptionMap.modify k f rest

/-- The statement form `options_[k].field = ...`: subscript, then write. -/
def OptionMap.assign (m : OptionMap) (k : String) (f : CliOption → CliOption) : OptionMap :=
  OptionMap.modify k f (OptionMap.subscript m k)

/-- The iterator `options_.begin()`. -/
def OptionMap.begin (m : OptionMap) : Option String :=
  m.head?.map Prod.fst

/-- The iterator increment: the first entry whose key is greater than `k`. -/
def OptionMap.next : OptionMap → String → Option String
  | [], _ => none
  | (k', _) :: rest, k => if keyLess k k' then some k' else OptionMap.next rest k

/-- The data members of `class CommandLineParser`. -/
structure CommandLineParser where
  options_ : OptionMap := []
  required_options_ : List String := []
  programname_ : String := "[program]"
deriving DecidableEq

/-- How a call of `Parse` stops. -/
inductive Control where
  | returned
  | exited (status : Nat)
  | thrown (e : LookupError)
deriving DecidableEq

/-- What a call of `Parse` leaves behind. -/
structure ParseResult where
  self : CommandLineParser
  cout : String
  cerr : String
  control : Control
deriving DecidableEq

/-- The local variables of the scan in `Parse`, with the object. -/
structure Scan where
  self : CommandLineParser
  i : Nat
  option_found : Bool
deriving DecidableEq

/-- The line end written by `std::endl`. -/
def endl : String := "\n"

/-- The first character `s[0]` of a C string: the terminator when `s` is empty. -/
def front (s : String) : Char := s.data.headD (Char.ofNat 0)

/-- The default constructor. -/
def CommandLineParser.new : CommandLineParser :=
  { programname_ := "[program]" }

/-- The constructor taking the program name. -/
def CommandLineParser.named (prgname : String) : CommandLineParser :=
  { programname_ := prgname }

/-- The member `AddOption` (lines 62-80). -/
def CommandLineParser.AddOption (self : CommandLineParser) (option_name option_description : String)
    (aliases : List String) (required : Bool) (mutually_exclusives : List String) :
    CommandLineParser :=
  let m1 := OptionMap.assign self.options_ option_name
    (fun o => { o with description := option_description })
  let m2 := OptionMap.assign m1 option_name
    (fun o => { o with aliases := o.aliases ++ [option_name] })
  let m3 := aliases.foldl
    (fun m alias_ => OptionMap.assign m option_name
      (fun o => { o with aliases := o.aliases ++ [alias_] })) m2
  let m4 := mutually_exclusives.foldl
    (fun m mutuallyexclusive =>
      OptionMap.assign
        (OptionMap.assign m option_name (fun o => { o with mutually_exclusive := true }))
        option_name
        (fun o => { o with
          mutually_exclusive_options := o.mutually_exclusive_options ++ [mutuallyexclusive] }))
    m3
  { self with
    options_ := m4
    required_options_ :=
      if required then self.required_options_ ++ [option_name] else self.required_options_ }

/-- The member `PrintUsage` (lines 186-204): the text written to `std::cout`. -/
def CommandLineParser.PrintUsage (self : CommandLineParser) : String :=
  "Usage: " ++ self.programname_ ++ " [options]" ++ endl ++
  "Options:" ++ endl ++
  String.join (self.options_.map fun pair =>
    "  " ++ String.join (pair.2.aliases.map fun alias_ => alias_ ++ ", ") ++
    endl ++ "      " ++ pair.2.description ++ endl ++
    (if pair.2.mutually_exclusive then
      "      Mutually exclusive with:" ++
      String.join (pair.2.mutually_exclusive_options.map fun mutually_exclusive_option =>
        " " ++ mutually_exclusive_option) ++ endl
    else ""))

/-- The member `HasOption` (lines 165-167). -/
def CommandLineParser.HasOption (self : CommandLineParser) (option_name : String) :
    Except LookupError Bool :=
  if (OptionMap.find self.options_ option_name).isSome then
    (OptionMap.at_ self.options_ option_name).map (fun o => o.is_set)
  else .ok false

/-- The member `GetOptionValue` (lines 145-147). -/
def CommandLineParser.GetOptionValue (self : CommandLineParser) (option_name : String) :
    Except LookupError String :=
  (OptionMap.at_ self.options_ option_name).map (fun o => o.value)

/-- The member `GetOptionDescription` (lines 155-157). -/
def CommandLineParser.GetOptionDescription (self : CommandLineParser) (option_name : String) :
    Except LookupError String :=
  (OptionMap.at_ self.options_ option_name).map (fun o => o.description)

/-- The text of the mutual-exclusion diagnostic (lines 105-106). -/
def exclusiveMessage (mutually_exclusive_option arg : String) : String :=
  "Error: Options \"" ++ mutually_exclusive_option ++ "\" and \"" ++ arg ++
    "\" are mutually exclusive." ++ endl

/-- The text of the invalid-option diagnostic (line 123). -/
def invalidMessage (arg : String) : String :=
  "Error: Invalid option \"" ++ arg ++ "\"." ++ endl

/-- The text of the required-option diagnostic (line 133). -/
def requiredMessage (option : String) : String :=
  "Error: " ++ option ++ " is a required option." ++ endl

/-- The loop over `pair.second.mutually_exclusive_options` (lines 103-110). -/
def exclusiveLoop (arg : String) :
    List String → CommandLineParser → Except ParseResult CommandLineParser
  | [], self => .ok self
  | mutually_exclusive_option :: rest, self =>
    let self1 := { self with
      options_ := OptionMap.subscript self.options_ mutually_exclusive_option }
    if (OptionMap.get self1.options_ mutually_exclusive_option).is_set then
      .error
        { self := self1
          cout := self1.PrintUsage
          cerr := exclusiveMessage mutually_exclusive_option arg
          control := .exited 1 }
    else exclusiveLoop arg rest self1

/-- The exclusivity check made when an alias of the entry stored under `key`
matches (lines 102-111). -/
def exclusiveCheck (arg key : String) (self : CommandLineParser) :
    Except ParseResult CommandLineParser :=
  let pair := OptionMap.get self.options_ key
  if pair.mutually_exclusive then
    exclusiveLoop arg pair.mutually_exclusive_options self
  else .ok self

/-- The entry stored under `key` is marked as set and takes the next token as
its value when there is one that does not begin with a dash (lines 112-117). -/
def attach (argc : Nat) (argv : List String) (key : String) (s : Scan) : Scan :=
  let self2 := { s.self with
    options_ := OptionMap.modify key (fun o => { o with is_set := true }) s.self.options_ }
  if s.i + 1 < argc ∧ front (argv.getD (s.i + 1) "") ≠ '-' then
    { s with
      self := { self2 with
        options_ := OptionMap.modify key
          (fun o => { o with value := argv.getD (s.i + 1) "" }) self2.options_ }
      i := s.i + 1 }
  else { s with self := self2 }

/-- The loop over `pair.second.aliases` for the entry stored under `key`
(lines 99-119). -/
def aliasLoop (argc : Nat) (argv : List String) (arg key : String) :
    List String → Scan → Except ParseResult Scan
  | [], s => .ok s
  | alias_ :: rest, s =>
    if arg = alias_ then
      match exclusiveCheck arg key s.self with
      | .error r => .error r
      | .ok self1 =>
        aliasLoop argc argv arg key rest
          (attach argc argv key { self := self1, i := s.i, option_found := true })
    else aliasLoop argc argv arg key rest s

/-- The loop over `options_` (lines 98-120), from the iterator `it` on. -/
def optionLoop (argc : Nat) (argv : List String) (arg : String) :
    Nat → Option String → Scan → Option (Except ParseResult Scan)
  | _, none, s => some (.ok s)
  | 0, some _, _ => none
  | fuel + 1, some key, s =>
    match aliasLoop argc argv arg key (OptionMap.get s.self.options_ key).aliases s with
    | .error r => some (.error r)
    | .ok s1 => optionLoop argc argv arg fuel (OptionMap.next s1.self.options_ key) s1

/-- A bound on the number of entries the loop over `options_` can visit: the
entries present and the names their exclusivity lists can add. -/
def optionFuel (m : OptionMap) : Nat :=
  m.length + (m.map fun pair => pair.2.mutually_exclusive_options.length).sum + 1

/-- The test `arg == "-h" || arg == "--help"` (line 92). -/
def isHelp (arg : String) : Prop := arg = "-h" ∨ arg = "--help"

instance isHelpDecidable (arg : String) : Decidable (isHelp arg) :=
  inferInstanceAs (Decidable (arg = "-h" ∨ arg = "--help"))

/-- The loop over the arguments (lines 89-127), from index `i` on. -/
def argLoop (argc : Nat) (argv : List String) :
    Nat → Nat → CommandLineParser → Option (Except ParseResult CommandLineParser)
  | fuel, i, self =>
    if i < argc then
      match fuel with
      | 0 => none
      | fuel + 1 =>
        let arg := argv.getD i ""
        if isHelp arg then
          some (.error
            { self := self, cout := self.PrintUsage, cerr := "", control := .exited 0 })
        else
          match optionLoop argc argv arg (optionFuel self.options_)
              (OptionMap.begin self.options_)
              { self := self, i := i, option_found := false } with
          | none => none
          | some (.error r) => some (.error r)
          | some (.ok s) =>
            if s.option_found then argLoop argc argv fuel (s.i + 1) s.self
            else
              some (.error
                { self := s.self
                  cout := s.self.PrintUsage
                  cerr := invalidMessage arg
                  control := .exited 1 })
    else some (.ok self)

/-- The check for required options (lines 131-136). -/
def requiredLoop : List String → CommandLineParser → ParseResult
  | [], self => { self := self, cout := "", cerr := "", control := .returned }
  | option :: rest, self =>
    match self.HasOption option with
    | .error e => { self := self, cout := "", cerr := "", control := .thrown e }
    | .ok true => requiredLoop rest self
    | .ok false =>
      { self := self, cout := "", cerr := requiredMessage option, control := .exited 1 }

/-- The member `Parse` (lines 88-137); `argv[0]` is the program name. -/
def CommandLineParser.Parse (self : CommandLineParser) (argc : Nat) (argv : List String) :
    Option ParseResult :=
  match argLoop argc argv argc 1 self with
  | none => none
  | some (.error r) => some r
  | some (.ok self1) => some (requiredLoop self1.required_options_ self1)

/-- The arguments of one call of `AddOption`. -/
structure AddCall where
  option_name : String
  option_description : String := ""
  aliases : List String := []
  required : Bool := false
  mutually_exclusives : List String := []
deriving DecidableEq

/-- The parser after a sequence of `AddOption` calls on `self`. -/
def CommandLineParser.addAll (self : CommandLineParser) (calls : List AddCall) :
    CommandLineParser :=
  calls.foldl (fun p c =>
    p.AddOption c.option_name c.option_description c.aliases c.required c.mutually_exclusives)
    self

/-- The call `Parse(argc, argv)` of a `main` started with the arguments `args`. -/
def CommandLineParser.ParseArgs (self : CommandLineParser) (args : List String) :
    Option ParseResult :=
  self.Parse (args.length + 1) (self.programname_ :: args)

/-- The keys of the map, in iteration order. -/
def OptionMap.keys (m : OptionMap) : List String := m.map Prod.fst

/-- The representation invariant of the map: keys strictly ascending. -/
def OptionMap.Sorted (m : OptionMap) : Prop :=
  m.Pairwise (fun a b => keyLess a.1 b.1)

/-- The loop over `options_` when it visits exactly the keys `keys`, in order. -/
def visitAll (argc : Nat) (argv : List String) (arg : String) :
    List String → Scan → Except ParseResult Scan
  | [], s => .ok s
  | key :: keys, s =>
    match aliasLoop argc argv arg key (OptionMap.get s.self.options_ key).aliases s with
    | .error r => .error r
    | .ok s1 => visitAll argc argv arg keys s1

/-- What a stretch of the scan over tokens satisfying `T` may do to the map:
it may add default entries under names taken from the exclusivity list of an
entry one of whose aliases satisfies `T`, and in an entry one of whose aliases
satisfies `T` it may raise `is_set` and store a value that does not begin with
a dash. -/
structure Frame (T : String → Prop) (m m' : OptionMap) : Prop where
  sorted : OptionMap.Sorted m → OptionMap.Sorted m'
  absent : ∀ k, OptionMap.find m k = none →
    OptionMap.find m' k = none ∨
    (OptionMap.find m' k = some {} ∧
      ∃ k0 o0, OptionMap.find m k0 = some o0 ∧ k ∈ o0.mutually_exclusive_options ∧
        ∃ a ∈ o0.aliases, T a)
  present : ∀ k o, OptionMap.find m k = some o →
    ∃ o', OptionMap.find m' k = some o' ∧
      o'.description = o.description ∧ o'.aliases = o.aliases ∧
      o'.mutually_exclusive = o.mutually_exclusive ∧
      o'.mutually_exclusive_options = o.mutually_exclusive_options ∧
      (o.is_set = true → o'.is_set = true) ∧
      ((∀ a ∈ o.aliases, ¬ T a) → o' = o) ∧
      (o'.value = o.value ∨ (o'.is_set = true ∧ front o'.value ≠ '-'))

/-- The scan index moved from `i` to `i'` only over tokens that do not begin
with a dash. -/
def Skips (argc : Nat) (argv : List String) (i i' : Nat) : Prop :=
  i ≤ i' ∧ ∀ j, i < j → j ≤ i' → j < argc ∧ front (argv.getD j "") ≠ '-'

/-- What the scan of one token `arg` may do to the local state. -/
structure ScanStep (argc : Nat) (argv : List String) (T : String → Prop) (s s' : Scan) : Prop where
  frame : Frame T s.self.options_ s'.self.options_
  required : s'.self.required_options_ = s.self.required_options_
  programname : s'.self.programname_ = s.self.programname_
  skips : Skips argc argv s.i s'.i
  found : s.option_found = true → s'.option_found = true
  values : s'.i = s.i →
    ∀ k, (OptionMap.get s'.self.options_ k).value = (OptionMap.get s.self.options_ k).value

/-- What an exit out of the loop over `options_` looks like. -/
structure ExclusiveExit (T : String → Prop) (arg : String) (p : CommandLineParser)
    (r : ParseResult) : Prop where
  frame : Frame T p.options_ r.self.options_
  required : r.self.required_options_ = p.required_options_
  programname : r.self.programname_ = p.programname_
  control : r.control = .exited 1
  cout : r.cout = r.self.PrintUsage
  cerr : ∃ x, (OptionMap.get r.self.options_ x).is_set = true ∧ r.cerr = exclusiveMessage x arg

/-- What the exclusivity check over the names `L` may do to the map: add
default entries under names of `L`. -/
def Grow (L : List String) (m m' : OptionMap) : Prop :=
  (OptionMap.Sorted m → OptionMap.Sorted m') ∧
  ∀ k, OptionMap.find m' k = OptionMap.find m k ∨
    (OptionMap.find m k = none ∧ OptionMap.find m' k = some {} ∧ k ∈ L)

/-- The names under which the map can gain an entry during a scan. -/
def OptionMap.exclusiveNames (m : OptionMap) : List String :=
  (m.map fun pair => pair.2.mutually_exclusive_options).flatten

/-- The keys the loop over `options_` can still reach from the key `k`. -/
def OptionMap.ahead (m : OptionMap) (k : String) : Nat :=
  (((OptionMap.keys m ++ OptionMap.exclusiveNames m).toFinset).filter
    (fun u => keyLess k u)).card

/-- The position of the iterator `it` of the loop over `options_` against the
keys `ks` that the loop has yet to visit among those present at its start:
the entries ahead that are not among `ks` carry no alias. -/
def Pending (m : OptionMap) (ks : List String) : Option String → Prop
  | none => ks = []
  | some k =>
    k ∈ OptionMap.keys m ∧ (∀ x ∈ ks, ¬ keyLess x k) ∧
    ∀ y ∈ OptionMap.keys m, ¬ keyLess y k → y ∉ ks → (OptionMap.get m y).aliases = []

/-- The tokens the loop over the arguments can read as `arg`. -/
def Scanned (argc : Nat) (argv : List String) (a : String) : Prop :=
  ∃ i, 1 ≤ i ∧ i < argc ∧ argv.getD i "" = a

/-- The exit `r` was taken while the token at index `j` was scanned: the help
exit, the mutual-exclusion error or the invalid-option error. -/
def ExitAt (argv : List String) (r : ParseResult) (j : Nat) : Prop :=
  r.cout = r.self.PrintUsage ∧
  ((r.control = .exited 0 ∧ r.cerr = "" ∧ isHelp (argv.getD j "")) ∨
   (r.control = .exited 1 ∧ ¬ isHelp (argv.getD j "") ∧
      ∃ x, (OptionMap.get r.self.options_ x).is_set = true ∧
        r.cerr = exclusiveMessage x (argv.getD j "")) ∨
   (r.control = .exited 1 ∧ ¬ isHelp (argv.getD j "") ∧
      r.cerr = invalidMessage (argv.getD j "") ∧
      ∀ k, argv.getD j "" ∉ (OptionMap.get r.self.options_ k).aliases))

/-- What the loop over the arguments, started at index `i`, leaves behind. -/
def ScanEnd (argc : Nat) (argv : List String) (i : Nat) (p : CommandLineParser) :
    Except ParseResult CommandLineParser → Prop
  | .ok p' =>
    Frame (Scanned argc argv) p.options_ p'.options_ ∧
    p'.required_options_ = p.required_options_ ∧ p'.programname_ = p.programname_
  | .error r =>
    Frame (Scanned argc argv) p.options_ r.self.options_ ∧
    r.self.required_options_ = p.required_options_ ∧ r.self.programname_ = p.programname_ ∧
    ∃ j, i ≤ j ∧ j < argc ∧ ExitAt argv r j

/-- The configurations of the loop over the arguments in `Parse`: the index
`i` and the object at the start of an iteration. -/
inductive Reaches (p : CommandLineParser) (argc : Nat) (argv : List String) :
    Nat → CommandLineParser → Prop
  | start : Reaches p argc argv 1 p
  | step {i : Nat} {self : CommandLineParser} {s : Scan} :
    Reaches p argc argv i self → i < argc → ¬ isHelp (argv.getD i "") →
    optionLoop argc argv (argv.getD i "") (optionFuel self.options_)
      (OptionMap.begin self.options_) { self := self, i := i, option_found := false }
      = some (.ok s) →
    s.option_found = true →
    Reaches p argc argv (s.i + 1) s.self

/-- The state of a registry between registration and parsing: keys ascending,
every entry unset with an empty value, flagged exclusive exactly when its
exclusivity list is not empty, and listing its own name among its aliases. -/
def Registered (p : CommandLineParser) : Prop :=
  OptionMap.Sorted p.options_ ∧
  ∀ k o, OptionMap.find p.options_ k = some o →
    o.is_set = false ∧ o.value = "" ∧
    (o.mutually_exclusive = true ↔ o.mutually_exclusive_options ≠ []) ∧
    k ∈ o.aliases

/-! ## Definitions for registration, monotonicity, usage text and bounds -/

/-- No option that `HasOption` reports as set in `p` is reported otherwise in `p'`. -/
def StaysSet (p p' : CommandLineParser) : Prop :=
  ∀ k, p.HasOption k = .ok true → p'.HasOption k = .ok true

/-- Every option with a non-empty value is set. -/
def ValuesOfSetOnly (p : CommandLineParser) : Prop :=
  ∀ k o, OptionMap.find p.options_ k = some o → o.value ≠ "" → o.is_set = true

/-- The object a loop of `Parse` over the map leaves behind, whether it ran
to its end or took an exit. -/
def loopSelf : Except ParseResult CommandLineParser → CommandLineParser
  | .ok p => p
  | .error r => r.self

/-- The object a loop of `Parse` over the local state leaves behind, whether
it ran to its end or took an exit. -/
def scanSelf : Except ParseResult Scan → CommandLineParser
  | .ok s => s.self
  | .error r => r.self

/-- Between two states of the map no entry loses `is_set`, and an entry whose
value differs is set. -/
def Advance (m m' : OptionMap) : Prop :=
  ∀ k, ((OptionMap.get m k).is_set = true → (OptionMap.get m' k).is_set = true) ∧
    ((OptionMap.get m' k).value = (OptionMap.get m k).value ∨
      (OptionMap.get m' k).is_set = true)

/-- The configuration `(j, self')` of the loop over the arguments comes at or
after the configuration `(i, self)`. -/
inductive Later (argc : Nat) (argv : List String) (i : Nat) (self : CommandLineParser) :
    Nat → CommandLineParser → Prop
  | here : Later argc argv i self i self
  | step {j : Nat} {self' : CommandLineParser} {s : Scan} :
    Later argc argv i self j self' → j < argc → ¬ isHelp (argv.getD j "") →
    optionLoop argc argv (argv.getD j "") (optionFuel self'.options_)
      (OptionMap.begin self'.options_) { self := self', i := j, option_found := false }
      = some (.ok s) →
    s.option_found = true →
    Later argc argv i self (s.i + 1) s.self

/-- The text `s` on a line of its own. -/
def usageLine (s : String) : String := s ++ "\n"

/-- The usage text of one registry entry as the specification words it: a
line of two spaces and each alias followed by a comma and a space, a line of
six spaces and the description, and, when the exclusivity list is not empty,
a line that names every option of the list after a space. -/
def usageEntry (o : CliOption) : String :=
  usageLine ("  " ++ String.join (o.aliases.map fun a => a ++ ", ")) ++
  usageLine ("      " ++ o.description) ++
  (if o.mutually_exclusive_options ≠ [] then
    usageLine ("      Mutually exclusive with:" ++
      String.join (o.mutually_exclusive_options.map fun x => " " ++ x))
  else "")

/-- The usage text as the specification words it: the two heading lines, then
the text of every entry in the order given. -/
def usageText (programname : String) (entries : List (String × CliOption)) : String :=
  usageLine ("Usage: " ++ programname ++ " [options]") ++ usageLine "Options:" ++
  String.join (entries.map fun e => usageEntry e.2)

/-- The failure of a read `argv[i]` whose index lies outside the argument
vector. -/
inductive AccessError where
  | out_of_bounds
deriving DecidableEq

/-- A read of `argv[i]` that fails when `i` lies outside the argument vector. -/
def readArg (argv : List String) (i : Nat) : Except AccessError String :=
  match argv[i]? with
  | some a => .ok a
  | none => .error .out_of_bounds

/-- The function `attach` with its two reads of `argv[i + 1]` checked
(lines 114 and 115). -/
def attachChecked (argc : Nat) (argv : List String) (key : String) (s : Scan) :
    Except AccessError Scan :=
  let self2 := { s.self with
    options_ := OptionMap.modify key (fun o => { o with is_set := true }) s.self.options_ }
  if s.i + 1 < argc then
    match readArg argv (s.i + 1) with
    | .error e => .error e
    | .ok next =>
      if front next ≠ '-' then
        match readArg argv (s.i + 1) with
        | .error e => .error e
        | .ok value =>
          .ok { s with
            self := { self2 with
              options_ := OptionMap.modify key
                (fun o => { o with value := value }) self2.options_ }
            i := s.i + 1 }
      else .ok { s with self := self2 }
  else .ok { s with self := self2 }

/-- The loop `aliasLoop` with the reads of the argument vector checked. -/
def aliasLoopChecked (argc : Nat) (argv : List String) (arg key : String) :
    List String → Scan → Except AccessError (Except ParseResult Scan)
  | [], s => .ok (.ok s)
  | alias_ :: rest, s =>
    if arg = alias_ then
      match exclusiveCheck arg key s.self with
      | .error r => .ok (.error r)
      | .ok self1 =>
        match attachChecked argc argv key { self := self1, i := s.i, option_found := true } with
        | .error e => .error e
        | .ok s1 => aliasLoopChecked argc argv arg key rest s1
    else aliasLoopChecked argc argv arg key rest s

/-- The loop `optionLoop` with the reads of the argument vector checked. -/
def optionLoopChecked (argc : Nat) (argv : List String) (arg : String) :
    Nat → Option String → Scan → Except AccessError (Option (Except ParseResult Scan))
  | _, none, s => .ok (some (.ok s))
  | 0, some _, _ => .ok none
  | fuel + 1, some key, s =>
    match aliasLoopChecked argc argv arg key (OptionMap.get s.self.options_ key).aliases s with
    | .error e => .error e
    | .ok (.error r) => .ok (some (.error r))
    | .ok (.ok s1) =>
      optionLoopChecked argc argv arg fuel (OptionMap.next s1.self.options_ key) s1

/-- The loop `argLoop` with the read of `argv[i]` (line 90) and the reads
made for the options checked. -/
def argLoopChecked (argc : Nat) (argv : List String) :
    Nat → Nat → CommandLineParser →
      Except AccessError (Option (Except ParseResult CommandLineParser))
  | fuel, i, self =>
    if i < argc then
      match fuel with
      | 0 => .ok none
      | fuel + 1 =>
        match readArg argv i with
        | .error e => .error e
        | .ok arg =>
          if isHelp arg then
            .ok (some (.error
              { self := self, cout := self.PrintUsage, cerr := "", control := .exited 0 }))
          else
            match optionLoopChecked argc argv arg (optionFuel self.options_)
                (OptionMap.begin self.options_)
                { self := self, i := i, option_found := false } with
            | .error e => .error e
            | .ok none => .ok none
            | .ok (some (.error r)) => .ok (some (.error r))
            | .ok (some (.ok s)) =>
              if s.option_found then argLoopChecked argc argv fuel (s.i + 1) s.self
              else
                .ok (some (.error
                  { self := s.self
                    cout := s.self.PrintUsage
                    cerr := invalidMessage arg
                    control := .exited 1 }))
    else .ok (some (.ok self))

/-- The member `Parse` with every read of the argument vector checked. -/
def CommandLineParser.ParseChecked (self : CommandLineParser) (argc : Nat)
    (argv : List String) : Except AccessError (Option ParseResult) :=
  match argLoopChecked argc argv argc 1 self with
  | .error e => .error e
  | .ok none => .ok none
  | .ok (some (.error r)) => .ok (some r)
  | .ok (some (.ok self1)) => .ok (some (requiredLoop self1.required_options_ self1))

/-- The token `a` was scanned: some iteration of the loop over the arguments
read it as `arg`. -/
def Visited (p : CommandLineParser) (argc : Nat) (argv : List String) (a : String) : Prop :=
  ∃ i self, Reaches p argc argv i self ∧ i < argc ∧ argv.getD i "" = a

/-- The value of the entry is empty or is the token that stands in the
argument vector right after an occurrence of one of the aliases of the entry. -/
def Attached (argc : Nat) (argv : List String) (o : CliOption) : Prop :=
  o.value = "" ∨
  ∃ j, 1 ≤ j ∧ j + 1 < argc ∧ argv.getD j "" ∈ o.aliases ∧ o.value = argv.getD (j + 1) ""

/-- The token `t` is listed at most once in the alias lists of the map: by at
most one entry, and at most once in the list of that entry. -/
def ListedOnce (m : OptionMap) (t : String) : Prop :=
  (∀ k, (OptionMap.get m k).aliases.count t ≤ 1) ∧
  ∀ k1 k2, t ∈ (OptionMap.get m k1).aliases → t ∈ (OptionMap.get m k2).aliases → k1 = k2

/-- The entry lists the token `a` or the token `b` among its aliases. -/
def ListsEither (a b : String) (o : CliOption) : Prop :=
  a ∈ o.aliases ∨ b ∈ o.aliases

/-- No entry that lists `a` or `b` among its aliases names in its exclusivity
list an entry that lists `a` or `b` among its aliases. -/
def NoClash (a b : String) (m : OptionMap) : Prop :=
  ∀ k, ListsEither a b (OptionMap.get m k) →
    ∀ y ∈ (OptionMap.get m k).mutually_exclusive_options,
      ¬ ListsEither a b (OptionMap.get m y)

/-- Every entry that is set lists `a` or `b` among its aliases. -/
def SetAmong (a b : String) (m : OptionMap) : Prop :=
  ∀ k, (OptionMap.get m k).is_set = true → ListsEither a b (OptionMap.get m k)

/-! ## Keys and lookups -/

theorem keyLess_irrefl (a : String) : ¬ keyLess a a := by
  unfold keyLess; exact lt_irrefl _

theorem keyLess_trans {a b c : String} (h1 : keyLess a b) (h2 : keyLess b c) : keyLess a c := by
  unfold keyLess at *; exact lt_trans h1 h2

theorem keyLess_asymm {a b : String} (h1 : keyLess a b) : ¬ keyLess b a := by
  unfold keyLess at *; exact lt_asymm h1

theorem keyLess_ne {a b : String} (h1 : keyLess a b) : a ≠ b := by
  intro h; subst h; exact keyLess_irrefl _ h1

theorem keyLess_total (a b : String) : keyLess a b ∨ a = b ∨ keyLess b a := by
  unfold keyLess
  rcases lt_trichotomy a.data b.data with h | h | h
  · exact Or.inl h
  · exact Or.inr (Or.inl (String.ext h))
  · exact Or.inr (Or.inr h)

theorem find_eq_none_iff (m : OptionMap) (k : String) :
    OptionMap.find m k = none ↔ k ∉ OptionMap.keys m := by
  induction m with
  | nil => simp [OptionMap.find, OptionMap.keys]
  | cons e rest ih =>
    obtain ⟨k', o⟩ := e
    by_cases h : k' = k
    · simp [OptionMap.find, OptionMap.keys, h]
    · have h' : ¬ k = k' := fun x => h x.symm
      simp [OptionMap.find, OptionMap.keys, h, h'] at ih ⊢
      simpa [OptionMap.keys] using ih

theorem find_isSome_iff (m : OptionMap) (k : String) :
    (OptionMap.find m k).isSome = true ↔ k ∈ OptionMap.keys m := by
  rw [← not_iff_not, ← find_eq_none_iff]
  cases OptionMap.find m k <;> simp

theorem find_mem {m : OptionMap} {k : String} {o : CliOption}
    (h : OptionMap.find m k = some o) : (k, o) ∈ m := by
  induction m with
  | nil => simp [OptionMap.find] at h
  | cons e rest ih =>
    obtain ⟨k', o'⟩ := e
    by_cases hk : k' = k
    · simp [OptionMap.find, hk] at h
      simp [hk, h]
    · simp [OptionMap.find, hk] at h
      exact List.mem_cons_of_mem _ (ih h)

theorem mem_find {m : OptionMap} {k : String} {o : CliOption}
    (hs : OptionMap.Sorted m) (h : (k, o) ∈ m) : OptionMap.find m k = some o := by
  induction m with
  | nil => simp at h
  | cons e rest ih =>
    obtain ⟨k', o'⟩ := e
    unfold OptionMap.Sorted at hs
    rw [List.pairwise_cons] at hs
    rcases List.mem_cons.1 h with h | h
    · simp only [Prod.mk.injEq] at h
      simp [OptionMap.find, h.1, h.2]
    · have hne : k' ≠ k := keyLess_ne (hs.1 _ h)
      simp only [OptionMap.find, hne, if_false]
      exact ih hs.2 h

theorem find_modify (k : String) (f : CliOption → CliOption) (m : OptionMap) (k' : String) :
    OptionMap.find (OptionMap.modify k f m) k' =
      if k = k' then (OptionMap.find m k).map f else OptionMap.find m k' := by
  induction m with
  | nil => simp [OptionMap.find, OptionMap.modify]
  | cons e rest ih =>
    obtain ⟨k0, o⟩ := e
    by_cases h0 : k0 = k
    · subst h0
      by_cases h1 : k0 = k' <;> simp [OptionMap.find, OptionMap.modify, h1]
    · by_cases h1 : k0 = k'
      · subst h1
        have : ¬ k = k0 := fun x => h0 x.symm
        simp [OptionMap.find, OptionMap.modify, h0, this]
      · simp [OptionMap.find, OptionMap.modify, h0, h1, ih]

theorem keys_modify (k : String) (f : CliOption → CliOption) (m : OptionMap) :
    OptionMap.keys (OptionMap.modify k f m) = OptionMap.keys m := by
  induction m with
  | nil => rfl
  | cons e rest ih =>
    obtain ⟨k0, o⟩ := e
    by_cases h0 : k0 = k
    · simp [OptionMap.modify, OptionMap.keys, h0]
    · simp only [OptionMap.modify, h0, if_false]
      simp only [OptionMap.keys, List.map_cons] at ih ⊢
      rw [ih]

theorem sorted_iff_keys (m : OptionMap) :
    OptionMap.Sorted m ↔ (OptionMap.keys m).Pairwise keyLess := by
  unfold OptionMap.Sorted OptionMap.keys
  rw [List.pairwise_map]

theorem sorted_modify (k : String) (f : CliOption → CliOption) {m : OptionMap}
    (h : OptionMap.Sorted m) : OptionMap.Sorted (OptionMap.modify k f m) := by
  rw [sorted_iff_keys] at h ⊢
  rw [keys_modify]; exact h

theorem mem_keys_insert (k : String) (o : CliOption) (m : OptionMap) (k' : String) :
    k' ∈ OptionMap.keys (OptionMap.insert k o m) ↔ k' = k ∨ k' ∈ OptionMap.keys m := by
  induction m with
  | nil => simp [OptionMap.insert, OptionMap.keys]
  | cons e rest ih =>
    obtain ⟨k0, o0⟩ := e
    by_cases h : keyLess k k0
    · simp [OptionMap.insert, OptionMap.keys, h]
    · simp only [OptionMap.insert, h, if_false]
      simp only [OptionMap.keys, List.map_cons, List.mem_cons] at ih ⊢
      rw [ih]; tauto

theorem find_insert (k : String) (o : CliOption) (m : OptionMap) (k' : String)
    (hk : OptionMap.find m k = none) :
    OptionMap.find (OptionMap.insert k o m) k' =
      if k = k' then some o else OptionMap.find m k' := by
  induction m with
  | nil => simp [OptionMap.find, OptionMap.insert]
  | cons e rest ih =>
    obtain ⟨k0, o0⟩ := e
    have hk0 : k0 ≠ k := by
      intro h; simp [OptionMap.find, h] at hk
    have hk' : OptionMap.find rest k = none := by
      simpa [OptionMap.find, hk0] using hk
    by_cases h : keyLess k k0
    · simp [OptionMap.insert, h, OptionMap.find]
    · simp only [OptionMap.insert, h, if_false, OptionMap.find]
      by_cases h1 : k0 = k'
      · subst h1
        have : ¬ k = k0 := fun x => hk0 x.symm
        simp [this]
      · simp [h1, ih hk']

theorem sorted_insert (k : String) (o : CliOption) {m : OptionMap}
    (hs : OptionMap.Sorted m) (hk : OptionMap.find m k = none) :
    OptionMap.Sorted (OptionMap.insert k o m) := by
  induction m with
  | nil => simp [OptionMap.insert, OptionMap.Sorted]
  | cons e rest ih =>
    obtain ⟨k0, o0⟩ := e
    have hk0 : k0 ≠ k := by
      intro h; simp [OptionMap.find, h] at hk
    have hk' : OptionMap.find rest k = none := by
      simpa [OptionMap.find, hk0] using hk
    unfold OptionMap.Sorted at hs ⊢
    rw [List.pairwise_cons] at hs
    by_cases h : keyLess k k0
    · simp only [OptionMap.insert, h, if_true]
      rw [List.pairwise_cons, List.pairwise_cons]
      refine ⟨?_, hs⟩
      intro a ha
      rcases List.mem_cons.1 ha with ha | ha
      · subst ha; exact h
      · exact keyLess_trans h (hs.1 a ha)
    · simp only [OptionMap.insert, h, if_false]
      rw [List.pairwise_cons]
      refine ⟨?_, ih hs.2 hk'⟩
      intro a ha
      have hmem : a.1 ∈ OptionMap.keys (OptionMap.insert k o rest) :=
        List.mem_map_of_mem _ ha
      rw [mem_keys_insert] at hmem
      rcases hmem with hmem | hmem
      · rw [hmem]
        rcases keyLess_total k k0 with h2 | h2 | h2
        · exact absurd h2 h
        · exact absurd h2.symm hk0
        · exact h2
      · obtain ⟨b, hb, hbe⟩ := List.mem_map.1 hmem
        rw [← hbe]; exact hs.1 b hb

theorem find_subscript (m : OptionMap) (k k' : String) :
    OptionMap.find (OptionMap.subscript m k) k' =
      if k = k' then some (OptionMap.get m k) else OptionMap.find m k' := by
  unfold OptionMap.subscript OptionMap.get
  cases h : OptionMap.find m k with
  | none =>
    simp only [Option.getD_none]
    exact find_insert k {} m k' h
  | some o =>
    by_cases hk : k = k'
    · subst hk; simp [h]
    · simp [hk]

theorem get_subscript (m : OptionMap) (k k' : String) :
    OptionMap.get (OptionMap.subscript m k) k' = OptionMap.get m k' := by
  unfold OptionMap.get
  rw [find_subscript]
  by_cases hk : k = k'
  · subst hk; simp [OptionMap.get]
  · simp [hk]

theorem sorted_subscript (k : String) {m : OptionMap} (hs : OptionMap.Sorted m) :
    OptionMap.Sorted (OptionMap.subscript m k) := by
  unfold OptionMap.subscript
  cases h : OptionMap.find m k with
  | none => exact sorted_insert k {} hs h
  | some o => exact hs

theorem get_modify (k : String) (f : CliOption → CliOption) (m : OptionMap) (k' : String) :
    OptionMap.get (OptionMap.modify k f m) k' =
      if k = k' ∧ (OptionMap.find m k).isSome then f (OptionMap.get m k)
      else OptionMap.get m k' := by
  unfold OptionMap.get
  rw [find_modify]
  by_cases hk : k = k'
  · subst hk
    cases OptionMap.find m k <;> simp
  · simp [hk]

theorem get_of_find {m : OptionMap} {k : String} {o : CliOption}
    (h : OptionMap.find m k = some o) : OptionMap.get m k = o := by
  simp [OptionMap.get, h]

theorem get_of_find_none {m : OptionMap} {k : String}
    (h : OptionMap.find m k = none) : OptionMap.get m k = {} := by
  simp [OptionMap.get, h]

theorem next_some {m : OptionMap} {k k' : String} (h : OptionMap.next m k = some k') :
    k' ∈ OptionMap.keys m ∧ keyLess k k' := by
  induction m with
  | nil => simp [OptionMap.next] at h
  | cons e rest ih =>
    obtain ⟨k0, o0⟩ := e
    by_cases h0 : keyLess k k0
    · simp [OptionMap.next, h0] at h
      subst h
      exact ⟨by simp [OptionMap.keys], h0⟩
    · simp only [OptionMap.next, h0, if_false] at h
      obtain ⟨h1, h2⟩ := ih h
      exact ⟨by simp only [OptionMap.keys, List.map_cons, List.mem_cons] at h1 ⊢; exact Or.inr h1, h2⟩

theorem next_least {m : OptionMap} {k n : String} (hs : OptionMap.Sorted m)
    (hn : n ∈ OptionMap.keys m) (hkn : keyLess k n) :
    ∃ k', OptionMap.next m k = some k' ∧ ¬ keyLess n k' := by
  induction m with
  | nil => simp [OptionMap.keys] at hn
  | cons e rest ih =>
    obtain ⟨k0, o0⟩ := e
    rw [sorted_iff_keys] at hs
    simp only [OptionMap.keys, List.map_cons, List.pairwise_cons, List.mem_cons] at hs hn
    by_cases h0 : keyLess k k0
    · refine ⟨k0, by simp [OptionMap.next, h0], ?_⟩
      rcases hn with hn | hn
      · subst hn; exact keyLess_irrefl _
      · exact keyLess_asymm (hs.1 n hn)
    · simp only [OptionMap.next, h0, if_false]
      rcases hn with hn | hn
      · subst hn; exact absurd hkn h0
      · exact ih ((sorted_iff_keys rest).2 hs.2) hn

theorem begin_none {m : OptionMap} (h : OptionMap.begin m = none) : m = [] := by
  cases m with
  | nil => rfl
  | cons e rest => simp [OptionMap.begin] at h

theorem begin_some {m : OptionMap} {k : String} (hs : OptionMap.Sorted m)
    (h : OptionMap.begin m = some k) :
    k ∈ OptionMap.keys m ∧ ∀ n ∈ OptionMap.keys m, ¬ keyLess n k := by
  cases m with
  | nil => simp [OptionMap.begin] at h
  | cons e rest =>
    obtain ⟨k0, o0⟩ := e
    simp [OptionMap.begin] at h
    subst h
    rw [sorted_iff_keys] at hs
    simp only [OptionMap.keys, List.map_cons, List.pairwise_cons, List.mem_cons] at hs ⊢
    refine ⟨by simp, ?_⟩
    intro n hn
    rcases hn with hn | hn
    · subst hn; exact keyLess_irrefl _
    · exact keyLess_asymm (hs.1 n hn)

/-! ## The exclusivity check -/

theorem Grow.grow_refl (L : List String) (m : OptionMap) : Grow L m m :=
  ⟨id, fun _ => Or.inl rfl⟩

theorem Grow.get_eq {L : List String} {m m' : OptionMap} (h : Grow L m m') (k : String) :
    OptionMap.get m' k = OptionMap.get m k := by
  rcases h.2 k with h1 | ⟨h1, h2, _⟩
  · simp [OptionMap.get, h1]
  · simp [OptionMap.get, h1, h2]

theorem Grow.find_some {L : List String} {m m' : OptionMap} (h : Grow L m m') {k : String}
    {o : CliOption} (hk : OptionMap.find m k = some o) : OptionMap.find m' k = some o := by
  rcases h.2 k with h1 | ⟨h1, _, _⟩
  · rw [h1, hk]
  · rw [hk] at h1; cases h1

theorem Grow.subscript_cons (x : String) (L : List String) (m : OptionMap) :
    Grow (x :: L) m (OptionMap.subscript m x) := by
  refine ⟨sorted_subscript x, fun k => ?_⟩
  rw [find_subscript]
  by_cases hx : x = k
  · subst hx
    cases h : OptionMap.find m x with
    | none => right; simp [OptionMap.get, h]
    | some o => left; simp [OptionMap.get, h]
  · left; simp [hx]

theorem Grow.step {x : String} {L : List String} {m m' : OptionMap}
    (h : Grow L (OptionMap.subscript m x) m') : Grow (x :: L) m m' := by
  have h0 := Grow.subscript_cons x L m
  refine ⟨fun hs => h.1 (h0.1 hs), fun k => ?_⟩
  rcases h.2 k with h1 | ⟨h1, h2, h3⟩
  · rw [h1]; exact h0.2 k
  · rcases h0.2 k with h4 | ⟨h4, h5, _⟩
    · right; exact ⟨by rw [← h4]; exact h1, h2, List.mem_cons_of_mem _ h3⟩
    · rw [h5] at h1; cases h1

theorem exclusiveLoop_ok {arg : String} {L : List String} {self self1 : CommandLineParser}
    (h : exclusiveLoop arg L self = .ok self1) :
    Grow L self.options_ self1.options_ ∧
    self1.required_options_ = self.required_options_ ∧
    self1.programname_ = self.programname_ ∧
    ∀ x ∈ L, (OptionMap.get self.options_ x).is_set = false := by
  induction L generalizing self with
  | nil =>
    simp only [exclusiveLoop, Except.ok.injEq] at h
    subst h
    exact ⟨Grow.grow_refl _ _, rfl, rfl, by simp⟩
  | cons x rest ih =>
    simp only [exclusiveLoop] at h
    split at h
    · cases h
    · rename_i hset
      obtain ⟨h1, h2, h3, h4⟩ := ih h
      refine ⟨Grow.step h1, h2, h3, ?_⟩
      intro y hy
      rcases List.mem_cons.1 hy with hy | hy
      · subst hy
        simpa [get_subscript] using hset
      · have := h4 y hy
        simpa [get_subscript] using this

theorem exclusiveLoop_error {arg : String} {L : List String} {self : CommandLineParser}
    {r : ParseResult} (h : exclusiveLoop arg L self = .error r) :
    Grow L self.options_ r.self.options_ ∧
    r.self.required_options_ = self.required_options_ ∧
    r.self.programname_ = self.programname_ ∧
    r.control = .exited 1 ∧ r.cout = r.self.PrintUsage ∧
    ∃ x ∈ L, (OptionMap.get self.options_ x).is_set = true ∧ r.cerr = exclusiveMessage x arg := by
  induction L generalizing self with
  | nil => simp [exclusiveLoop] at h
  | cons x rest ih =>
    simp only [exclusiveLoop] at h
    split at h
    · rename_i hset
      simp only [Except.error.injEq] at h
      subst h
      refine ⟨Grow.subscript_cons x rest _, rfl, rfl, rfl, rfl, x, by simp, ?_, rfl⟩
      simpa [get_subscript] using hset
    · obtain ⟨h1, h2, h3, h4, h5, y, hy, h6, h7⟩ := ih h
      refine ⟨Grow.step h1, h2, h3, h4, h5, y, List.mem_cons_of_mem _ hy, ?_, h7⟩
      simpa [get_subscript] using h6

theorem exclusiveLoop_cases (arg : String) (L : List String) (self : CommandLineParser) :
    (∃ self1, exclusiveLoop arg L self = .ok self1) ∨
    (∃ r, exclusiveLoop arg L self = .error r) := by
  cases h : exclusiveLoop arg L self with
  | ok a => exact Or.inl ⟨a, rfl⟩
  | error r => exact Or.inr ⟨r, rfl⟩

/-! ## What a scan may change -/

theorem Frame.frame_refl (T : String → Prop) (m : OptionMap) : Frame T m m where
  sorted := id
  absent := fun _ h => Or.inl h
  present := fun _ o h => ⟨o, h, rfl, rfl, rfl, rfl, id, fun _ => rfl, Or.inl rfl⟩

theorem Frame.frame_trans {T : String → Prop} {m m' m'' : OptionMap}
    (h1 : Frame T m m') (h2 : Frame T m' m'') : Frame T m m'' where
  sorted := fun hs => h2.sorted (h1.sorted hs)
  absent := by
    intro k hk
    rcases h1.absent k hk with h | ⟨h, hx⟩
    · rcases h2.absent k h with h' | ⟨h', k0, o0, hk0, hmem, hal⟩
      · exact Or.inl h'
      · refine Or.inr ⟨h', ?_⟩
        cases hm : OptionMap.find m k0 with
        | none =>
          rcases h1.absent k0 hm with h3 | ⟨h3, _⟩
          · rw [h3] at hk0; cases hk0
          · rw [h3] at hk0
            simp only [Option.some.injEq] at hk0
            subst hk0
            simp at hmem
        | some o =>
          obtain ⟨o', ho', _, ha, _, he, _⟩ := h1.present k0 o hm
          rw [ho'] at hk0
          simp only [Option.some.injEq] at hk0
          subst hk0
          exact ⟨k0, o, hm, by rw [← he]; exact hmem, by rw [← ha]; exact hal⟩
    · obtain ⟨o', ho', _, _, _, _, _, hsame, _⟩ := h2.present k {} h
      have : o' = {} := hsame (by simp)
      subst this
      exact Or.inr ⟨ho', hx⟩
  present := by
    intro k o hk
    obtain ⟨o', ho', a1, a2, a3, a4, a5, a6, a7⟩ := h1.present k o hk
    obtain ⟨o'', ho'', b1, b2, b3, b4, b5, b6, b7⟩ := h2.present k o' ho'
    refine ⟨o'', ho'', b1.trans a1, b2.trans a2, b3.trans a3, b4.trans a4,
      fun h => b5 (a5 h), ?_, ?_⟩
    · intro hT
      have e1 : o' = o := a6 hT
      have e2 : o'' = o' := b6 (by rw [a2]; exact hT)
      rw [e2, e1]
    · rcases b7 with b7 | b7
      · rcases a7 with a7 | a7
        · exact Or.inl (b7.trans a7)
        · exact Or.inr ⟨b5 a7.1, by rw [b7]; exact a7.2⟩
      · exact Or.inr b7

theorem Frame.mono {T T' : String → Prop} {m m' : OptionMap} (hT : ∀ a, T a → T' a)
    (h : Frame T m m') : Frame T' m m' where
  sorted := h.sorted
  absent := by
    intro k hk
    rcases h.absent k hk with h1 | ⟨h1, k0, o0, hk0, hmem, a, ha, hTa⟩
    · exact Or.inl h1
    · exact Or.inr ⟨h1, k0, o0, hk0, hmem, a, ha, hT a hTa⟩
  present := by
    intro k o hk
    obtain ⟨o', ho', a1, a2, a3, a4, a5, a6, a7⟩ := h.present k o hk
    exact ⟨o', ho', a1, a2, a3, a4, a5, fun hn => a6 (fun a ha hTa => hn a ha (hT a hTa)), a7⟩

theorem Frame.of_grow {T : String → Prop} {L : List String} {m m' : OptionMap}
    (h : Grow L m m') {k0 : String} {o0 : CliOption} (hk0 : OptionMap.find m k0 = some o0)
    (hL : ∀ x ∈ L, x ∈ o0.mutually_exclusive_options)
    (hT : ∃ a ∈ o0.aliases, T a) : Frame T m m' where
  sorted := h.1
  absent := by
    intro k hk
    rcases h.2 k with h1 | ⟨_, h2, h3⟩
    · exact Or.inl (h1.trans hk)
    · exact Or.inr ⟨h2, k0, o0, hk0, hL k h3, hT⟩
  present := fun k o hk =>
    ⟨o, h.find_some hk, rfl, rfl, rfl, rfl, id, fun _ => rfl, Or.inl rfl⟩

theorem Frame.modify {T : String → Prop} {m : OptionMap} {key : String} {o : CliOption}
    (f : CliOption → CliOption) (hk : OptionMap.find m key = some o)
    (hT : ∃ a ∈ o.aliases, T a)
    (h1 : (f o).description = o.description) (h2 : (f o).aliases = o.aliases)
    (h3 : (f o).mutually_exclusive = o.mutually_exclusive)
    (h4 : (f o).mutually_exclusive_options = o.mutually_exclusive_options)
    (h5 : o.is_set = true → (f o).is_set = true)
    (h6 : (f o).value = o.value ∨ ((f o).is_set = true ∧ front (f o).value ≠ '-')) :
    Frame T m (OptionMap.modify key f m) where
  sorted := sorted_modify key f
  absent := by
    intro k hk'
    left
    rw [find_modify]
    by_cases h : key = k
    · subst h; rw [hk] at hk'; cases hk'
    · simp [h, hk']
  present := by
    intro k o' hk'
    rw [find_modify]
    by_cases h : key = k
    · subst h
      rw [hk] at hk'
      simp only [Option.some.injEq] at hk'
      subst hk'
      refine ⟨f o, by simp [hk], h1, h2, h3, h4, h5, ?_, h6⟩
      intro hn
      obtain ⟨a, ha, hTa⟩ := hT
      exact absurd hTa (hn a ha)
    · exact ⟨o', by simp [h, hk'], rfl, rfl, rfl, rfl, id, fun _ => rfl, Or.inl rfl⟩

theorem Frame.get_aliases {T : String → Prop} {m m' : OptionMap} (h : Frame T m m')
    (k : String) : (OptionMap.get m' k).aliases = (OptionMap.get m k).aliases := by
  cases hk : OptionMap.find m k with
  | none =>
    rcases h.absent k hk with h1 | ⟨h1, _⟩ <;> simp [OptionMap.get, hk, h1]
  | some o =>
    obtain ⟨o', ho', _, a2, _⟩ := h.present k o hk
    simp [OptionMap.get, hk, ho', a2]

theorem Frame.get_exclusive {T : String → Prop} {m m' : OptionMap} (h : Frame T m m')
    (k : String) :
    (OptionMap.get m' k).mutually_exclusive = (OptionMap.get m k).mutually_exclusive ∧
    (OptionMap.get m' k).mutually_exclusive_options =
      (OptionMap.get m k).mutually_exclusive_options := by
  cases hk : OptionMap.find m k with
  | none =>
    rcases h.absent k hk with h1 | ⟨h1, _⟩ <;> simp [OptionMap.get, hk, h1]
  | some o =>
    obtain ⟨o', ho', _, _, a3, a4, _⟩ := h.present k o hk
    simp [OptionMap.get, hk, ho', a3, a4]

theorem Frame.get_is_set {T : String → Prop} {m m' : OptionMap} (h : Frame T m m')
    {k : String} (hs : (OptionMap.get m k).is_set = true) :
    (OptionMap.get m' k).is_set = true := by
  cases hk : OptionMap.find m k with
  | none => simp [OptionMap.get, hk] at hs
  | some o =>
    obtain ⟨o', ho', _, _, _, _, a5, _⟩ := h.present k o hk
    simp only [OptionMap.get, hk, Option.getD_some] at hs
    simp [OptionMap.get, ho', a5 hs]

theorem Frame.get_same {T : String → Prop} {m m' : OptionMap} (h : Frame T m m')
    {k : String} (hT : ∀ a ∈ (OptionMap.get m k).aliases, ¬ T a) :
    OptionMap.get m' k = OptionMap.get m k := by
  cases hk : OptionMap.find m k with
  | none =>
    rcases h.absent k hk with h1 | ⟨h1, _⟩ <;> simp [OptionMap.get, hk, h1]
  | some o =>
    obtain ⟨o', ho', _, _, _, _, _, a6, _⟩ := h.present k o hk
    simp only [OptionMap.get, hk, Option.getD_some] at hT
    simp [OptionMap.get, hk, ho', a6 hT]

theorem Frame.mem_keys {T : String → Prop} {m m' : OptionMap} (h : Frame T m m')
    {k : String} (hk : k ∈ OptionMap.keys m) : k ∈ OptionMap.keys m' := by
  rw [← find_isSome_iff] at hk ⊢
  cases hf : OptionMap.find m k with
  | none => simp [hf] at hk
  | some o =>
    obtain ⟨o', ho', _⟩ := h.present k o hf
    simp [ho']

theorem Skips.skips_refl (argc : Nat) (argv : List String) (i : Nat) : Skips argc argv i i :=
  ⟨le_refl _, fun j h1 h2 => absurd h2 (by omega)⟩

theorem Skips.skips_trans {argc : Nat} {argv : List String} {i j k : Nat}
    (h1 : Skips argc argv i j) (h2 : Skips argc argv j k) : Skips argc argv i k := by
  refine ⟨le_trans h1.1 h2.1, fun x hx1 hx2 => ?_⟩
  by_cases h : x ≤ j
  · exact h1.2 x hx1 h
  · exact h2.2 x (by omega) hx2

theorem ScanStep.step_refl (argc : Nat) (argv : List String) (T : String → Prop) (s : Scan) :
    ScanStep argc argv T s s :=
  ⟨Frame.frame_refl _ _, rfl, rfl, Skips.skips_refl _ _ _, id, fun _ _ => rfl⟩

theorem ScanStep.step_trans {argc : Nat} {argv : List String} {T : String → Prop} {s s' s'' : Scan}
    (h1 : ScanStep argc argv T s s') (h2 : ScanStep argc argv T s' s'') :
    ScanStep argc argv T s s'' :=
  ⟨h1.frame.frame_trans h2.frame, h2.required.trans h1.required,
    h2.programname.trans h1.programname, h1.skips.skips_trans h2.skips,
    fun h => h2.found (h1.found h),
    fun h k => by
      have a := h1.skips.1
      have b := h2.skips.1
      rw [h2.values (by omega) k, h1.values (by omega) k]⟩

/-! ## The loop over the aliases of an entry -/

theorem aliasLoop_nomatch (argc : Nat) (argv : List String) (arg key : String)
    (L : List String) (s : Scan) (h : arg ∉ L) :
    aliasLoop argc argv arg key L s = .ok s := by
  induction L with
  | nil => rfl
  | cons a rest ih =>
    have h1 : arg ≠ a := fun e => h (by simp [e])
    have h2 : arg ∉ rest := fun e => h (List.mem_cons_of_mem _ e)
    simp only [aliasLoop, h1, if_false]
    exact ih h2

theorem exclusiveCheck_ok {T : String → Prop} {arg key : String}
    {self self1 : CommandLineParser}
    (hkey : (OptionMap.find self.options_ key).isSome = true)
    (hT : ∃ a ∈ (OptionMap.get self.options_ key).aliases, T a)
    (h : exclusiveCheck arg key self = .ok self1) :
    Grow (OptionMap.get self.options_ key).mutually_exclusive_options
      self.options_ self1.options_ ∧
    Frame T self.options_ self1.options_ ∧
    self1.required_options_ = self.required_options_ ∧
    self1.programname_ = self.programname_ := by
  obtain ⟨o, ho⟩ := Option.isSome_iff_exists.1 hkey
  have hget : OptionMap.get self.options_ key = o := get_of_find ho
  unfold exclusiveCheck at h
  simp only at h
  split at h
  · obtain ⟨g, h2, h3, _⟩ := exclusiveLoop_ok h
    exact ⟨g, Frame.of_grow g ho (by rw [hget]; exact fun _ hx => hx)
      (by rw [← hget]; exact hT), h2, h3⟩
  · simp only [Except.ok.injEq] at h
    subst h
    exact ⟨Grow.grow_refl _ _, Frame.frame_refl _ _, rfl, rfl⟩

theorem exclusiveCheck_error {T : String → Prop} {arg key : String}
    {self : CommandLineParser} {r : ParseResult}
    (hkey : (OptionMap.find self.options_ key).isSome = true)
    (hT : ∃ a ∈ (OptionMap.get self.options_ key).aliases, T a)
    (h : exclusiveCheck arg key self = .error r) :
    Grow (OptionMap.get self.options_ key).mutually_exclusive_options
      self.options_ r.self.options_ ∧
    ExclusiveExit T arg self r := by
  obtain ⟨o, ho⟩ := Option.isSome_iff_exists.1 hkey
  have hget : OptionMap.get self.options_ key = o := get_of_find ho
  unfold exclusiveCheck at h
  simp only at h
  split at h
  · obtain ⟨g, h2, h3, h4, h5, x, _, hx, h6⟩ := exclusiveLoop_error h
    refine ⟨g, Frame.of_grow g ho (by rw [hget]; exact fun _ hx => hx)
      (by rw [← hget]; exact hT), h2, h3, h4, h5, x, ?_, h6⟩
    rw [g.get_eq]; exact hx
  · cases h

theorem attach_spec (argc : Nat) (argv : List String) (arg key : String) (s : Scan)
    {o : CliOption} (ho : OptionMap.find s.self.options_ key = some o)
    (hoa : arg ∈ o.aliases) :
    ScanStep argc argv (fun a => a = arg) s (attach argc argv key s) ∧
    (∀ k, k ≠ key → OptionMap.get (attach argc argv key s).self.options_ k
      = OptionMap.get s.self.options_ k) ∧
    (OptionMap.get (attach argc argv key s).self.options_ key).is_set = true ∧
    (attach argc argv key s).option_found = s.option_found := by
  have fr2 : Frame (fun a => a = arg) s.self.options_
      (OptionMap.modify key (fun o => { o with is_set := true }) s.self.options_) :=
    Frame.modify _ ho ⟨arg, hoa, rfl⟩ rfl rfl rfl rfl (fun _ => rfl) (Or.inl rfl)
  have ho2 : OptionMap.find
      (OptionMap.modify key (fun o => { o with is_set := true }) s.self.options_) key
      = some { o with is_set := true } := by
    rw [find_modify]; simp [ho]
  unfold attach
  simp only
  split
  · rename_i hval
    have fr3 : Frame (fun a => a = arg)
        (OptionMap.modify key (fun o => { o with is_set := true }) s.self.options_)
        (OptionMap.modify key (fun o => { o with value := argv.getD (s.i + 1) "" })
          (OptionMap.modify key (fun o => { o with is_set := true }) s.self.options_)) :=
      Frame.modify _ ho2 ⟨arg, hoa, rfl⟩ rfl rfl rfl rfl (fun _ => rfl)
        (Or.inr ⟨rfl, hval.2⟩)
    refine ⟨⟨fr2.frame_trans fr3, rfl, rfl, ⟨Nat.le_succ _, fun j h1 h2 => ?_⟩, id,
      fun h => absurd h (by simp)⟩, ?_, ?_, rfl⟩
    · simp only at h2
      have : j = s.i + 1 := by omega
      subst this; exact hval
    · intro k hk
      have hk' : ¬ key = k := fun e => hk e.symm
      simp only [get_modify, hk', false_and, if_false]
    · simp only [get_modify]
      simp [ho2, ho, OptionMap.get]
  · refine ⟨⟨fr2, rfl, rfl, Skips.skips_refl _ _ _, id, fun _ k => ?_⟩, ?_, ?_, rfl⟩
    · simp only [get_modify]
      split
      · rename_i hk; rw [hk.1]
      · rfl
    · intro k hk
      have hk' : ¬ key = k := fun e => hk e.symm
      simp only [get_modify, hk', false_and, if_false]
    · simp [ho2, OptionMap.get]

theorem aliasLoop_spec (argc : Nat) (argv : List String) (arg key : String)
    (L : List String) (s : Scan)
    (hL : ∀ a ∈ L, a ∈ (OptionMap.get s.self.options_ key).aliases) :
    (∀ s', aliasLoop argc argv arg key L s = .ok s' →
      ScanStep argc argv (fun a => a = arg) s s' ∧
      (∀ k, k ≠ key → OptionMap.get s'.self.options_ k = OptionMap.get s.self.options_ k) ∧
      (arg ∈ L → s'.option_found = true ∧ (OptionMap.get s'.self.options_ key).is_set = true)) ∧
    (∀ r, aliasLoop argc argv arg key L s = .error r →
      ExclusiveExit (fun a => a = arg) arg s.self r ∧
      (∀ k, k ≠ key → OptionMap.get r.self.options_ k = OptionMap.get s.self.options_ k)) := by
  induction L generalizing s with
  | nil =>
    constructor
    · intro s' h
      simp only [aliasLoop, Except.ok.injEq] at h
      subst h
      exact ⟨ScanStep.step_refl _ _ _ _, fun _ _ => rfl, by simp⟩
    · intro r h
      simp [aliasLoop] at h
  | cons a rest ih =>
    by_cases harg : arg = a
    · subst harg
      have hmem : arg ∈ (OptionMap.get s.self.options_ key).aliases := hL arg (by simp)
      have hkey : (OptionMap.find s.self.options_ key).isSome = true := by
        cases hf : OptionMap.find s.self.options_ key with
        | none => simp [OptionMap.get, hf] at hmem
        | some o => rfl
      simp only [aliasLoop, if_true]
      cases hc : exclusiveCheck arg key s.self with
      | error r0 =>
        obtain ⟨g, hx⟩ := exclusiveCheck_error (T := fun a => a = arg) hkey
          ⟨arg, hmem, rfl⟩ hc
        simp only []
        constructor
        · intro s' h; cases h
        · intro r h
          simp only [Except.error.injEq] at h
          subst h
          exact ⟨hx, fun k _ => g.get_eq k⟩
      | ok self1 =>
        obtain ⟨g, fr, hreq, hprog⟩ := exclusiveCheck_ok (T := fun a => a = arg) hkey
          ⟨arg, hmem, rfl⟩ hc
        simp only []
        obtain ⟨o, ho⟩ := Option.isSome_iff_exists.1 hkey
        have ho1 : OptionMap.find self1.options_ key = some o := g.find_some ho
        have hoa : arg ∈ o.aliases := by rw [← get_of_find ho]; exact hmem
        obtain ⟨st0, hother, hset, hfound⟩ := attach_spec argc argv arg key
          { self := self1, i := s.i, option_found := true } ho1 hoa
        have step : ScanStep argc argv (fun a => a = arg) s
            (attach argc argv key { self := self1, i := s.i, option_found := true }) :=
          ⟨fr.frame_trans st0.frame, st0.required.trans hreq, st0.programname.trans hprog,
            st0.skips, fun _ => hfound,
            fun h k => (st0.values h k).trans (congrArg CliOption.value (g.get_eq k))⟩
        have hL' : ∀ a ∈ rest, a ∈ (OptionMap.get
            (attach argc argv key { self := self1, i := s.i, option_found := true }).self.options_
            key).aliases := by
          intro a ha
          rw [step.frame.get_aliases]
          exact hL a (List.mem_cons_of_mem _ ha)
        obtain ⟨iok, ierr⟩ := ih _ hL'
        constructor
        · intro s' h
          obtain ⟨st, ho', hf⟩ := iok s' h
          refine ⟨step.step_trans st,
            fun k hk => (ho' k hk).trans ((hother k hk).trans (g.get_eq k)), fun _ => ?_⟩
          exact ⟨st.found hfound, st.frame.get_is_set hset⟩
        · intro r h
          obtain ⟨ex, ho'⟩ := ierr r h
          exact ⟨⟨step.frame.frame_trans ex.frame, ex.required.trans step.required,
            ex.programname.trans step.programname, ex.control, ex.cout, ex.cerr⟩,
            fun k hk => (ho' k hk).trans ((hother k hk).trans (g.get_eq k))⟩
    · have hL' : ∀ a ∈ rest, a ∈ (OptionMap.get s.self.options_ key).aliases :=
        fun a ha => hL a (List.mem_cons_of_mem _ ha)
      obtain ⟨iok, ierr⟩ := ih s hL'
      simp only [aliasLoop, harg, if_false]
      constructor
      · intro s' h
        obtain ⟨st, ho', hf⟩ := iok s' h
        refine ⟨st, ho', fun hm => hf ?_⟩
        rcases List.mem_cons.1 hm with hm | hm
        · exact absurd hm harg
        · exact hm
      · exact ierr

/-! ## The bound on the loop over the options -/

theorem mem_exclusiveNames {m : OptionMap} {u : String} :
    u ∈ OptionMap.exclusiveNames m ↔ ∃ e ∈ m, u ∈ e.2.mutually_exclusive_options := by
  unfold OptionMap.exclusiveNames
  simp only [List.mem_flatten, List.mem_map]
  constructor
  · rintro ⟨l, ⟨e, he, rfl⟩, hu⟩
    exact ⟨e, he, hu⟩
  · rintro ⟨e, he, hu⟩
    exact ⟨_, ⟨e, he, rfl⟩, hu⟩

theorem Frame.universe_subset {T : String → Prop} {m m' : OptionMap} (h : Frame T m m')
    (hs : OptionMap.Sorted m) :
    (OptionMap.keys m' ++ OptionMap.exclusiveNames m').toFinset ⊆
      (OptionMap.keys m ++ OptionMap.exclusiveNames m).toFinset := by
  intro u hu
  simp only [List.mem_toFinset, List.mem_append] at hu ⊢
  rcases hu with hu | hu
  · cases hf : OptionMap.find m u with
    | none =>
      rcases h.absent u hf with h1 | ⟨_, k0, o0, hk0, hmem, _⟩
      · exact absurd hu ((find_eq_none_iff _ _).1 h1)
      · exact Or.inr (mem_exclusiveNames.2 ⟨(k0, o0), find_mem hk0, hmem⟩)
    | some o =>
      left
      rw [← find_isSome_iff, hf]; rfl
  · right
    obtain ⟨⟨k, o'⟩, he, hmem⟩ := mem_exclusiveNames.1 hu
    have hf' : OptionMap.find m' k = some o' := mem_find (h.sorted hs) he
    cases hf : OptionMap.find m k with
    | none =>
      rcases h.absent k hf with h1 | ⟨h1, _⟩
      · rw [h1] at hf'; cases hf'
      · rw [h1] at hf'
        simp only [Option.some.injEq] at hf'
        subst hf'
        simp at hmem
    | some o =>
      obtain ⟨o'', ho'', _, _, _, he', _⟩ := h.present k o hf
      rw [ho''] at hf'
      simp only [Option.some.injEq] at hf'
      subst hf'
      exact mem_exclusiveNames.2 ⟨(k, o), find_mem hf, by rw [← he']; exact hmem⟩

theorem ahead_mono {T : String → Prop} {m m' : OptionMap} (h : Frame T m m')
    (hs : OptionMap.Sorted m) (k : String) : OptionMap.ahead m' k ≤ OptionMap.ahead m k := by
  unfold OptionMap.ahead
  exact Finset.card_le_card (Finset.filter_subset_filter _ (h.universe_subset hs))

theorem ahead_lt {m : OptionMap} {k k' : String} (hk' : k' ∈ OptionMap.keys m)
    (hlt : keyLess k k') : OptionMap.ahead m k' < OptionMap.ahead m k := by
  unfold OptionMap.ahead
  apply Finset.card_lt_card
  rw [Finset.ssubset_iff_of_subset]
  · refine ⟨k', ?_, ?_⟩
    · simp only [Finset.mem_filter, List.mem_toFinset, List.mem_append]
      exact ⟨Or.inl hk', hlt⟩
    · simp only [Finset.mem_filter, not_and]
      exact fun _ => keyLess_irrefl _
  · intro u hu
    simp only [Finset.mem_filter] at hu ⊢
    exact ⟨hu.1, keyLess_trans hlt hu.2⟩

theorem ahead_lt_fuel {m : OptionMap} {k : String} (hk : k ∈ OptionMap.keys m) :
    OptionMap.ahead m k < optionFuel m := by
  unfold OptionMap.ahead optionFuel
  have h1 : (((OptionMap.keys m ++ OptionMap.exclusiveNames m).toFinset).filter
      (fun u => keyLess k u)).card <
      ((OptionMap.keys m ++ OptionMap.exclusiveNames m).toFinset).card := by
    apply Finset.card_lt_card
    rw [Finset.ssubset_iff_of_subset (Finset.filter_subset _ _)]
    refine ⟨k, ?_, ?_⟩
    · simp only [List.mem_toFinset, List.mem_append]
      exact Or.inl hk
    · simp only [Finset.mem_filter, not_and]
      exact fun _ => keyLess_irrefl _
  have h2 := List.toFinset_card_le (OptionMap.keys m ++ OptionMap.exclusiveNames m)
  have h3 : (OptionMap.keys m ++ OptionMap.exclusiveNames m).length =
      m.length + (m.map fun pair => pair.2.mutually_exclusive_options.length).sum := by
    simp [OptionMap.keys, OptionMap.exclusiveNames, List.length_flatten, List.map_map,
      Function.comp_def]
  omega

/-! ## The loop over the options visits the keys in order -/

theorem Pending.advance {T : String → Prop} {m m1 : OptionMap} {ks' : List String}
    {k : String}
    (hs : OptionMap.Sorted m) (fr : Frame T m m1)
    (hks : ∀ x ∈ ks', x ∈ OptionMap.keys m ∧ keyLess k x)
    (hinv : ∀ y ∈ OptionMap.keys m, keyLess k y → y ∉ ks' → (OptionMap.get m y).aliases = []) :
    Pending m1 ks' (OptionMap.next m1 k) := by
  have hs1 := fr.sorted hs
  cases hn : OptionMap.next m1 k with
  | none =>
    cases ks' with
    | nil => rfl
    | cons x rest =>
      obtain ⟨hx1, hx2⟩ := hks x (by simp)
      obtain ⟨k', hk', _⟩ := next_least hs1 (fr.mem_keys hx1) hx2
      rw [hn] at hk'; cases hk'
  | some k' =>
    obtain ⟨hk'1, hk'2⟩ := next_some hn
    refine ⟨hk'1, ?_, ?_⟩
    · intro x hx
      obtain ⟨hx1, hx2⟩ := hks x hx
      obtain ⟨k'', hk'', hle⟩ := next_least hs1 (fr.mem_keys hx1) hx2
      rw [hn] at hk''
      simp only [Option.some.injEq] at hk''
      subst hk''
      exact hle
    · intro y hy hyk' hyks
      rw [fr.get_aliases]
      by_cases hym : y ∈ OptionMap.keys m
      · apply hinv y hym _ hyks
        rcases keyLess_total k y with h | h | h
        · exact h
        · subst h; exact absurd hk'2 hyk'
        · exact absurd (keyLess_trans h hk'2) hyk'
      · have : OptionMap.find m y = none := (find_eq_none_iff _ _).2 hym
        simp [OptionMap.get, this]

theorem optionLoop_eq_visitAll (argc : Nat) (argv : List String) (arg : String) :
    ∀ (fuel : Nat) (it : Option String) (s : Scan) (ks : List String),
      OptionMap.Sorted s.self.options_ → ks.Pairwise keyLess →
      (∀ x ∈ ks, x ∈ OptionMap.keys s.self.options_) →
      Pending s.self.options_ ks it →
      (∀ k, it = some k → OptionMap.ahead s.self.options_ k < fuel) →
      optionLoop argc argv arg fuel it s = some (visitAll argc argv arg ks s) := by
  intro fuel
  induction fuel with
  | zero =>
    intro it s ks _ _ _ hp hf
    cases it with
    | none =>
      simp only [Pending] at hp
      subst hp
      rfl
    | some k => exact absurd (hf k rfl) (Nat.not_lt_zero _)
  | succ fuel ih =>
    intro it s ks hs hpw hmem hp hf
    cases it with
    | none =>
      simp only [Pending] at hp
      subst hp
      rfl
    | some k =>
      obtain ⟨hk, hge, hinv⟩ := hp
      have hfk := hf k rfl
      by_cases hkks : k ∈ ks
      · -- the iterator stands on the first pending key
        cases ks with
        | nil => simp at hkks
        | cons x ks' =>
          rw [List.pairwise_cons] at hpw
          have hx : x = k := by
            rcases List.mem_cons.1 hkks with h | h
            · exact h.symm
            · exact absurd (hpw.1 k h) (hge x (by simp))
          subst hx
          simp only [optionLoop, visitAll]
          cases hal : aliasLoop argc argv arg x
              (OptionMap.get s.self.options_ x).aliases s with
          | error r => rfl
          | ok s1 =>
            simp only []
            obtain ⟨st, _, _⟩ := (aliasLoop_spec argc argv arg x _ s (fun _ h => h)).1 s1 hal
            apply ih _ s1 ks' (st.frame.sorted hs) hpw.2
              (fun y hy => st.frame.mem_keys (hmem y (List.mem_cons_of_mem _ hy)))
            · apply Pending.advance hs st.frame
              · exact fun y hy => ⟨hmem y (List.mem_cons_of_mem _ hy), hpw.1 y hy⟩
              · intro y hy hxy hyks
                apply hinv y hy (keyLess_asymm hxy)
                intro hc
                rcases List.mem_cons.1 hc with h | h
                · subst h; exact keyLess_irrefl _ hxy
                · exact hyks h
            · intro k' hk'
              obtain ⟨h1, h2⟩ := next_some hk'
              have := ahead_lt h1 h2
              have := ahead_mono st.frame hs x
              omega
      · -- the iterator stands on an entry without aliases
        have hal : (OptionMap.get s.self.options_ k).aliases = [] :=
          hinv k hk (keyLess_irrefl _) hkks
        simp only [optionLoop, hal, aliasLoop]
        apply ih _ s ks hs hpw hmem
        · apply Pending.advance hs (Frame.frame_refl (fun _ => False) _)
          · intro y hy
            refine ⟨hmem y hy, ?_⟩
            rcases keyLess_total k y with h | h | h
            · exact h
            · subst h; exact absurd hy hkks
            · exact absurd h (hge y hy)
          · intro y hy hxy hyks
            exact hinv y hy (keyLess_asymm hxy) hyks
        · intro k' hk'
          obtain ⟨h1, h2⟩ := next_some hk'
          have := ahead_lt h1 h2
          omega

theorem optionLoop_begin (argc : Nat) (argv : List String) (arg : String) (s : Scan)
    (hs : OptionMap.Sorted s.self.options_) :
    optionLoop argc argv arg (optionFuel s.self.options_)
      (OptionMap.begin s.self.options_) s =
      some (visitAll argc argv arg (OptionMap.keys s.self.options_) s) := by
  apply optionLoop_eq_visitAll argc argv arg _ _ s _ hs ((sorted_iff_keys _).1 hs)
    (fun _ h => h)
  · cases hb : OptionMap.begin s.self.options_ with
    | none =>
      have := begin_none hb
      simp [Pending, this, OptionMap.keys]
    | some k =>
      obtain ⟨h1, h2⟩ := begin_some hs hb
      exact ⟨h1, h2, fun y hy _ hn => absurd hy hn⟩
  · intro k hk
    exact ahead_lt_fuel (begin_some hs hk).1

/-! ## The loop over the arguments -/

theorem visitAll_nomatch (argc : Nat) (argv : List String) (arg : String)
    (ks : List String) (s : Scan)
    (h : ∀ k ∈ ks, arg ∉ (OptionMap.get s.self.options_ k).aliases) :
    visitAll argc argv arg ks s = .ok s := by
  induction ks with
  | nil => rfl
  | cons k rest ih =>
    simp only [visitAll, aliasLoop_nomatch argc argv arg k _ s (h k (by simp))]
    exact ih (fun x hx => h x (List.mem_cons_of_mem _ hx))

theorem visitAll_spec (argc : Nat) (argv : List String) (arg : String)
    (ks : List String) (s : Scan) :
    (∀ s', visitAll argc argv arg ks s = .ok s' →
      ScanStep argc argv (fun a => a = arg) s s' ∧
      (∀ k, k ∉ ks → OptionMap.get s'.self.options_ k = OptionMap.get s.self.options_ k) ∧
      (s'.option_found = true ↔
        (s.option_found = true ∨ ∃ k ∈ ks, arg ∈ (OptionMap.get s.self.options_ k).aliases)) ∧
      (∀ k ∈ ks, arg ∈ (OptionMap.get s.self.options_ k).aliases →
        (OptionMap.get s'.self.options_ k).is_set = true)) ∧
    (∀ r, visitAll argc argv arg ks s = .error r →
      ExclusiveExit (fun a => a = arg) arg s.self r ∧
      (∀ k, k ∉ ks → OptionMap.get r.self.options_ k = OptionMap.get s.self.options_ k)) := by
  induction ks generalizing s with
  | nil =>
    constructor
    · intro s' h
      simp only [visitAll, Except.ok.injEq] at h
      subst h
      exact ⟨ScanStep.step_refl _ _ _ _, fun _ _ => rfl, by simp, by simp⟩
    · intro r h
      simp [visitAll] at h
  | cons key rest ih =>
    obtain ⟨aok, aerr⟩ := aliasLoop_spec argc argv arg key
      (OptionMap.get s.self.options_ key).aliases s (fun _ h => h)
    simp only [visitAll]
    cases hal : aliasLoop argc argv arg key (OptionMap.get s.self.options_ key).aliases s with
    | error r0 =>
      simp only []
      constructor
      · intro s' h; cases h
      · intro r h
        simp only [Except.error.injEq] at h
        subst h
        obtain ⟨ex, ho⟩ := aerr r0 hal
        exact ⟨ex, fun k hk => ho k (fun e => hk (by simp [e]))⟩
    | ok s1 =>
      simp only []
      obtain ⟨st, ho, hf⟩ := aok s1 hal
      obtain ⟨iok, ierr⟩ := ih s1
      constructor
      · intro s' h
        obtain ⟨st', ho', hf', hset'⟩ := iok s' h
        refine ⟨st.step_trans st', ?_, ?_, ?_⟩
        · intro k hk
          rw [ho' k (fun e => hk (List.mem_cons_of_mem _ e)),
            ho k (fun e => hk (by simp [e]))]
        · rw [hf']
          constructor
          · rintro (h1 | ⟨k, hk, hmem⟩)
            · by_cases hm : arg ∈ (OptionMap.get s.self.options_ key).aliases
              · exact Or.inr ⟨key, by simp, hm⟩
              · rw [aliasLoop_nomatch argc argv arg key _ s hm] at hal
                simp only [Except.ok.injEq] at hal
                subst hal
                exact Or.inl h1
            · rw [st.frame.get_aliases] at hmem
              exact Or.inr ⟨k, List.mem_cons_of_mem _ hk, hmem⟩
          · rintro (h1 | ⟨k, hk, hmem⟩)
            · exact Or.inl (st.found h1)
            · rcases List.mem_cons.1 hk with hk | hk
              · subst hk
                exact Or.inl (hf hmem).1
              · exact Or.inr ⟨k, hk, by rw [st.frame.get_aliases]; exact hmem⟩
        · intro k hk hmem
          rcases List.mem_cons.1 hk with hk | hk
          · subst hk
            exact st'.frame.get_is_set (hf hmem).2
          · exact hset' k hk (by rw [st.frame.get_aliases]; exact hmem)
      · intro r h
        obtain ⟨ex, ho'⟩ := ierr r h
        refine ⟨⟨st.frame.frame_trans ex.frame, ex.required.trans st.required,
          ex.programname.trans st.programname, ex.control, ex.cout, ex.cerr⟩, ?_⟩
        intro k hk
        rw [ho' k (fun e => hk (List.mem_cons_of_mem _ e)),
          ho k (fun e => hk (by simp [e]))]

theorem argLoop_done (argc : Nat) (argv : List String) (fuel i : Nat)
    (self : CommandLineParser) (hi : ¬ i < argc) :
    argLoop argc argv fuel i self = some (.ok self) := by
  unfold argLoop
  simp [hi]

theorem argLoop_succ (argc : Nat) (argv : List String) (fuel i : Nat)
    (self : CommandLineParser) (hs : OptionMap.Sorted self.options_) (hi : i < argc) :
    argLoop argc argv (fuel + 1) i self =
      if isHelp (argv.getD i "") then
        some (.error
          { self := self, cout := self.PrintUsage, cerr := "", control := .exited 0 })
      else
        match visitAll argc argv (argv.getD i "") (OptionMap.keys self.options_)
            { self := self, i := i, option_found := false } with
        | .error r => some (.error r)
        | .ok s =>
          if s.option_found then argLoop argc argv fuel (s.i + 1) s.self
          else
            some (.error
              { self := s.self
                cout := s.self.PrintUsage
                cerr := invalidMessage (argv.getD i "")
                control := .exited 1 }) := by
  rw [argLoop]
  simp only [hi, if_true]
  split
  · rfl
  · rw [optionLoop_begin argc argv _ { self := self, i := i, option_found := false } hs]
    cases visitAll argc argv (argv.getD i "") (OptionMap.keys self.options_)
        { self := self, i := i, option_found := false } <;> rfl

theorem Frame.of_token {argc : Nat} {argv : List String} {i : Nat} {m m' : OptionMap}
    (h1 : 1 ≤ i) (h2 : i < argc) (h : Frame (fun a => a = argv.getD i "") m m') :
    Frame (Scanned argc argv) m m' :=
  h.mono (fun _ ha => ⟨i, h1, h2, ha.symm⟩)

/-- One iteration of the loop over the arguments, at a token that is not a
help flag: an exit taken at this token, or the state the next iteration starts from. -/
theorem token_cases (argc : Nat) (argv : List String) (i : Nat) (self : CommandLineParser)
    (h1 : 1 ≤ i) (hi : i < argc) (hh : ¬ isHelp (argv.getD i "")) :
    (∃ r, visitAll argc argv (argv.getD i "") (OptionMap.keys self.options_)
        { self := self, i := i, option_found := false } = .error r ∧
      Frame (Scanned argc argv) self.options_ r.self.options_ ∧
      r.self.required_options_ = self.required_options_ ∧
      r.self.programname_ = self.programname_ ∧ ExitAt argv r i) ∨
    (∃ s, visitAll argc argv (argv.getD i "") (OptionMap.keys self.options_)
        { self := self, i := i, option_found := false } = .ok s ∧
      ScanStep argc argv (fun a => a = argv.getD i "")
        { self := self, i := i, option_found := false } s ∧
      (s.option_found = true ↔
        ∃ k ∈ OptionMap.keys self.options_,
          argv.getD i "" ∈ (OptionMap.get self.options_ k).aliases) ∧
      (s.option_found = false →
        ExitAt argv { self := s.self, cout := s.self.PrintUsage,
                      cerr := invalidMessage (argv.getD i ""), control := .exited 1 } i)) := by
  obtain ⟨vok, verr⟩ := visitAll_spec argc argv (argv.getD i "")
    (OptionMap.keys self.options_) { self := self, i := i, option_found := false }
  cases hv : visitAll argc argv (argv.getD i "") (OptionMap.keys self.options_)
      { self := self, i := i, option_found := false } with
  | error r =>
    left
    obtain ⟨ex, _⟩ := verr r hv
    obtain ⟨x, hx1, hx2⟩ := ex.cerr
    exact ⟨r, rfl, Frame.of_token h1 hi ex.frame, ex.required, ex.programname, ex.cout,
      Or.inr (Or.inl ⟨ex.control, hh, x, hx1, hx2⟩)⟩
  | ok s =>
    right
    obtain ⟨st, _, hfound, _⟩ := vok s hv
    have hfound' : s.option_found = true ↔
        ∃ k ∈ OptionMap.keys self.options_,
          argv.getD i "" ∈ (OptionMap.get self.options_ k).aliases := by
      rw [hfound]; simp
    refine ⟨s, rfl, st, hfound', ?_⟩
    intro hnf
    refine ⟨rfl, Or.inr (Or.inr ⟨rfl, hh, rfl, ?_⟩)⟩
    intro k hk
    have hk' : argv.getD i "" ∈ (OptionMap.get self.options_ k).aliases := by
      rw [← st.frame.get_aliases]; exact hk
    have : s.option_found = true := by
      rw [hfound']
      refine ⟨k, ?_, hk'⟩
      rw [← find_isSome_iff]
      cases hfk : OptionMap.find self.options_ k with
      | none => simp [OptionMap.get, hfk] at hk'
      | some o => rfl
    rw [hnf] at this
    cases this

theorem argLoop_spec (argc : Nat) (argv : List String) :
    ∀ (fuel i : Nat) (self : CommandLineParser), OptionMap.Sorted self.options_ →
      1 ≤ i → argc ≤ i + fuel →
      ∃ res, argLoop argc argv fuel i self = some res ∧ ScanEnd argc argv i self res := by
  intro fuel
  induction fuel with
  | zero =>
    intro i self _ _ hf
    exact ⟨.ok self, argLoop_done _ _ _ _ _ (by omega), Frame.frame_refl _ _, rfl, rfl⟩
  | succ fuel ih =>
    intro i self hs h1 hf
    by_cases hi : i < argc
    · rw [argLoop_succ argc argv fuel i self hs hi]
      by_cases hh : isHelp (argv.getD i "")
      · simp only [hh, if_true]
        exact ⟨_, rfl, Frame.frame_refl _ _, rfl, rfl, i, le_refl _, hi, rfl,
          Or.inl ⟨rfl, rfl, hh⟩⟩
      · simp only [hh, if_false]
        rcases token_cases argc argv i self h1 hi hh with
          ⟨r, hv, fr, hreq, hprog, hex⟩ | ⟨s, hv, st, hfound, hinv⟩
        · rw [hv]
          exact ⟨_, rfl, fr, hreq, hprog, i, le_refl _, hi, hex⟩
        · rw [hv]
          simp only []
          have hfr := Frame.of_token h1 hi st.frame
          cases hf' : s.option_found with
          | true =>
            simp only [if_true]
            have hle : i ≤ s.i := st.skips.1
            obtain ⟨res, hres, hend⟩ := ih (s.i + 1) s.self (st.frame.sorted hs)
              (by omega) (by omega)
            refine ⟨res, hres, ?_⟩
            cases res with
            | ok p' =>
              obtain ⟨f, a, b⟩ := hend
              exact ⟨hfr.frame_trans f, a.trans st.required, b.trans st.programname⟩
            | error r =>
              obtain ⟨f, a, b, j, hj1, hj2, hj3⟩ := hend
              exact ⟨hfr.frame_trans f, a.trans st.required, b.trans st.programname,
                j, by omega, hj2, hj3⟩
          | false =>
            simp only [Bool.false_eq_true, if_false]
            exact ⟨_, rfl, hfr, st.required, st.programname, i, le_refl _, hi, hinv hf'⟩
    · exact ⟨.ok self, argLoop_done _ _ _ _ _ hi, Frame.frame_refl _ _, rfl, rfl⟩

/-! ## Registration -/

theorem find_assign (m : OptionMap) (k : String) (f : CliOption → CliOption) (k' : String) :
    OptionMap.find (OptionMap.assign m k f) k' =
      if k = k' then some (f (OptionMap.get m k)) else OptionMap.find m k' := by
  unfold OptionMap.assign
  simp only [find_modify, find_subscript]
  by_cases h : k = k'
  · subst h; simp
  · simp [h]

theorem get_assign_self (m : OptionMap) (k : String) (f : CliOption → CliOption) :
    OptionMap.get (OptionMap.assign m k f) k = f (OptionMap.get m k) := by
  simp [OptionMap.get, find_assign]

theorem sorted_assign {m : OptionMap} (k : String) (f : CliOption → CliOption)
    (hs : OptionMap.Sorted m) : OptionMap.Sorted (OptionMap.assign m k f) :=
  sorted_modify k f (sorted_subscript k hs)

theorem find_foldl_aliases (n : String) (al : List String) (m : OptionMap) (k : String)
    (hn : (OptionMap.find m n).isSome = true) :
    OptionMap.find (al.foldl (fun m a => OptionMap.assign m n
        (fun o => { o with aliases := o.aliases ++ [a] })) m) k =
      if n = k then
        some { OptionMap.get m n with aliases := (OptionMap.get m n).aliases ++ al }
      else OptionMap.find m k := by
  induction al generalizing m with
  | nil =>
    obtain ⟨o, ho⟩ := Option.isSome_iff_exists.1 hn
    by_cases h : n = k
    · subst h; simp [OptionMap.get, ho]
    · simp [h]
  | cons a rest ih =>
    simp only [List.foldl_cons]
    rw [ih _ (by simp [find_assign])]
    by_cases h : n = k
    · subst h; simp [get_assign_self]
    · simp [h, find_assign]

theorem sorted_foldl_aliases (n : String) (al : List String) {m : OptionMap}
    (hs : OptionMap.Sorted m) :
    OptionMap.Sorted (al.foldl (fun m a => OptionMap.assign m n
        (fun o => { o with aliases := o.aliases ++ [a] })) m) := by
  induction al generalizing m with
  | nil => exact hs
  | cons a rest ih => exact ih (sorted_assign _ _ hs)

theorem find_foldl_exclusives (n : String) (ex : List String) (m : OptionMap) (k : String)
    (hn : (OptionMap.find m n).isSome = true) :
    OptionMap.find (ex.foldl (fun m x =>
        OptionMap.assign
          (OptionMap.assign m n (fun o => { o with mutually_exclusive := true })) n
          (fun o => { o with
            mutually_exclusive_options := o.mutually_exclusive_options ++ [x] })) m) k =
      if n = k then
        some { OptionMap.get m n with
          mutually_exclusive := (OptionMap.get m n).mutually_exclusive || !ex.isEmpty
          mutually_exclusive_options := (OptionMap.get m n).mutually_exclusive_options ++ ex }
      else OptionMap.find m k := by
  induction ex generalizing m with
  | nil =>
    obtain ⟨o, ho⟩ := Option.isSome_iff_exists.1 hn
    by_cases h : n = k
    · subst h; simp [OptionMap.get, ho]
    · simp [h]
  | cons a rest ih =>
    simp only [List.foldl_cons]
    rw [ih _ (by simp [find_assign])]
    by_cases h : n = k
    · subst h; simp [get_assign_self]
    · simp [h, find_assign]

theorem sorted_foldl_exclusives (n : String) (ex : List String) {m : OptionMap}
    (hs : OptionMap.Sorted m) :
    OptionMap.Sorted (ex.foldl (fun m x =>
        OptionMap.assign
          (OptionMap.assign m n (fun o => { o with mutually_exclusive := true })) n
          (fun o => { o with
            mutually_exclusive_options := o.mutually_exclusive_options ++ [x] })) m) := by
  induction ex generalizing m with
  | nil => exact hs
  | cons a rest ih => exact ih (sorted_assign _ _ (sorted_assign _ _ hs))

theorem find_AddOption (p : CommandLineParser) (n d : String) (al : List String)
    (req : Bool) (ex : List String) (k : String) :
    OptionMap.find (p.AddOption n d al req ex).options_ k =
      if n = k then
        some
          { description := d
            aliases := (OptionMap.get p.options_ n).aliases ++ n :: al
            is_set := (OptionMap.get p.options_ n).is_set
            value := (OptionMap.get p.options_ n).value
            mutually_exclusive :=
              (OptionMap.get p.options_ n).mutually_exclusive || !ex.isEmpty
            mutually_exclusive_options :=
              (OptionMap.get p.options_ n).mutually_exclusive_options ++ ex }
      else OptionMap.find p.options_ k := by
  unfold CommandLineParser.AddOption
  simp only
  rw [find_foldl_exclusives _ _ _ _
    (by rw [find_foldl_aliases _ _ _ _ (by simp [find_assign])]; simp)]
  by_cases h : n = k
  · subst h
    simp [OptionMap.get, find_foldl_aliases, find_assign]
  · simp [h, find_foldl_aliases, find_assign]

theorem sorted_AddOption (p : CommandLineParser) (n d : String) (al : List String)
    (req : Bool) (ex : List String) (hs : OptionMap.Sorted p.options_) :
    OptionMap.Sorted (p.AddOption n d al req ex).options_ := by
  unfold CommandLineParser.AddOption
  exact sorted_foldl_exclusives _ _
    (sorted_foldl_aliases _ _ (sorted_assign _ _ (sorted_assign _ _ hs)))

theorem Registered.AddOption {p : CommandLineParser} (h : Registered p) (n d : String)
    (al : List String) (req : Bool) (ex : List String) :
    Registered (p.AddOption n d al req ex) := by
  refine ⟨sorted_AddOption p n d al req ex h.1, ?_⟩
  intro k o hk
  rw [find_AddOption] at hk
  by_cases hn : n = k
  · subst hn
    simp only [if_true, Option.some.injEq] at hk
    subst hk
    cases hf : OptionMap.find p.options_ n with
    | none =>
      simp only [OptionMap.get, hf, Option.getD_none]
      refine ⟨by simp, by simp, ?_, by simp⟩
      cases ex <;> simp
    | some o =>
      obtain ⟨a, b, c, d'⟩ := h.2 n o hf
      simp only [OptionMap.get, hf, Option.getD_some]
      refine ⟨a, b, ?_, by simp⟩
      cases ex with
      | nil => simpa using c
      | cons x rest => simp
  · simp only [hn, if_false] at hk
    exact h.2 k o hk

theorem Registered.base (prog : String) :
    Registered { options_ := [], required_options_ := [], programname_ := prog } :=
  ⟨List.Pairwise.nil, fun k o h => by simp [OptionMap.find] at h⟩

theorem Registered.addAll {p : CommandLineParser} (h : Registered p) (calls : List AddCall) :
    Registered (p.addAll calls) := by
  unfold CommandLineParser.addAll
  induction calls generalizing p with
  | nil => exact h
  | cons c rest ih => exact ih (h.AddOption _ _ _ _ _)

theorem Registered.new_addAll (calls : List AddCall) :
    Registered (CommandLineParser.new.addAll calls) :=
  (Registered.base _).addAll calls

theorem Registered.named_addAll (prog : String) (calls : List AddCall) :
    Registered ((CommandLineParser.named prog).addAll calls) :=
  (Registered.base _).addAll calls

theorem Registered.get {p : CommandLineParser} (h : Registered p) (k : String) :
    (OptionMap.get p.options_ k).is_set = false ∧ (OptionMap.get p.options_ k).value = "" := by
  cases hf : OptionMap.find p.options_ k with
  | none => simp [OptionMap.get, hf]
  | some o =>
    obtain ⟨a, b, _⟩ := h.2 k o hf
    simp [OptionMap.get, hf, a, b]

/-! ## Queries, the required check and reachable configurations -/

theorem HasOption_eq (p : CommandLineParser) (n : String) :
    p.HasOption n = .ok (OptionMap.get p.options_ n).is_set := by
  unfold CommandLineParser.HasOption OptionMap.at_ OptionMap.get
  cases OptionMap.find p.options_ n <;> rfl

theorem GetOptionValue_eq (p : CommandLineParser) (n : String) :
    p.GetOptionValue n =
      match OptionMap.find p.options_ n with
      | some o => .ok o.value
      | none => .error .out_of_range := by
  unfold CommandLineParser.GetOptionValue OptionMap.at_
  cases OptionMap.find p.options_ n <;> rfl

theorem GetOptionDescription_eq (p : CommandLineParser) (n : String) :
    p.GetOptionDescription n =
      match OptionMap.find p.options_ n with
      | some o => .ok o.description
      | none => .error .out_of_range := by
  unfold CommandLineParser.GetOptionDescription OptionMap.at_
  cases OptionMap.find p.options_ n <;> rfl

theorem requiredLoop_self (L : List String) (self : CommandLineParser) :
    (requiredLoop L self).self = self ∧ (requiredLoop L self).cout = "" := by
  induction L with
  | nil => exact ⟨rfl, rfl⟩
  | cons n rest ih =>
    simp only [requiredLoop, HasOption_eq]
    cases (OptionMap.get self.options_ n).is_set
    · exact ⟨rfl, rfl⟩
    · exact ih

theorem requiredLoop_returned (L : List String) (self : CommandLineParser) :
    (requiredLoop L self).control = .returned ↔
      ∀ n ∈ L, (OptionMap.get self.options_ n).is_set = true := by
  induction L with
  | nil => simp [requiredLoop]
  | cons n rest ih =>
    simp only [requiredLoop, HasOption_eq, List.mem_cons, forall_eq_or_imp]
    cases h : (OptionMap.get self.options_ n).is_set
    · simp
    · simpa using ih

theorem requiredLoop_control (L : List String) (self : CommandLineParser) :
    (requiredLoop L self).control = .returned ∨ (requiredLoop L self).control = .exited 1 := by
  induction L with
  | nil => exact Or.inl rfl
  | cons n rest ih =>
    simp only [requiredLoop, HasOption_eq]
    cases (OptionMap.get self.options_ n).is_set
    · exact Or.inr rfl
    · exact ih

theorem requiredLoop_first (pre : List String) (n : String) (post : List String)
    (self : CommandLineParser)
    (hpre : ∀ x ∈ pre, (OptionMap.get self.options_ x).is_set = true)
    (hn : (OptionMap.get self.options_ n).is_set = false) :
    requiredLoop (pre ++ n :: post) self =
      { self := self, cout := "", cerr := requiredMessage n, control := .exited 1 } := by
  induction pre with
  | nil => simp [requiredLoop, HasOption_eq, hn]
  | cons x rest ih =>
    simp only [List.cons_append, requiredLoop, HasOption_eq, hpre x (by simp)]
    exact ih (fun y hy => hpre y (List.mem_cons_of_mem _ hy))

theorem Parse_spec (p : CommandLineParser) (argc : Nat) (argv : List String)
    (hs : OptionMap.Sorted p.options_) :
    ∃ r, p.Parse argc argv = some r ∧
      Frame (Scanned argc argv) p.options_ r.self.options_ ∧
      r.self.required_options_ = p.required_options_ ∧
      r.self.programname_ = p.programname_ ∧
      (r.control = .returned ∨ r.control = .exited 0 ∨ r.control = .exited 1) := by
  obtain ⟨res, hres, hend⟩ := argLoop_spec argc argv argc 1 p hs (le_refl _) (by omega)
  unfold CommandLineParser.Parse
  rw [hres]
  cases res with
  | ok p' =>
    obtain ⟨f, a, b⟩ := hend
    refine ⟨_, rfl, ?_, ?_, ?_, ?_⟩
    · rw [(requiredLoop_self _ _).1]; exact f
    · rw [(requiredLoop_self _ _).1]; exact a
    · rw [(requiredLoop_self _ _).1]; exact b
    · rcases requiredLoop_control p'.required_options_ p' with h | h
      · exact Or.inl h
      · exact Or.inr (Or.inr h)
  | error r =>
    obtain ⟨f, a, b, j, _, _, _, hx⟩ := hend
    refine ⟨r, rfl, f, a, b, ?_⟩
    rcases hx with hx | hx | hx
    · exact Or.inr (Or.inl hx.1)
    · exact Or.inr (Or.inr hx.1)
    · exact Or.inr (Or.inr hx.1)

theorem Reaches.spec {p : CommandLineParser} {argc : Nat} {argv : List String}
    (hs : OptionMap.Sorted p.options_) {i : Nat} {self : CommandLineParser}
    (h : Reaches p argc argv i self) :
    1 ≤ i ∧ OptionMap.Sorted self.options_ ∧
    Frame (Scanned argc argv) p.options_ self.options_ ∧
    self.required_options_ = p.required_options_ ∧
    self.programname_ = p.programname_ ∧
    ∃ fuel, argc ≤ i + fuel ∧
      argLoop argc argv argc 1 p = argLoop argc argv fuel i self := by
  induction h with
  | start => exact ⟨le_refl _, hs, Frame.frame_refl _ _, rfl, rfl, argc, by omega, rfl⟩
  | @step i self s _ hi hh hopt hfound ih =>
    obtain ⟨h1, hs', fr, hreq, hprog, fuel, hfuel, heq⟩ := ih
    rw [optionLoop_begin argc argv _ { self := self, i := i, option_found := false } hs'] at hopt
    simp only [Option.some.injEq] at hopt
    obtain ⟨st, _⟩ := (visitAll_spec argc argv _ _ _).1 s hopt
    have hle : i ≤ s.i := st.skips.1
    refine ⟨by omega, st.frame.sorted hs', fr.frame_trans (Frame.of_token h1 hi st.frame),
      st.required.trans hreq, st.programname.trans hprog, ?_⟩
    cases fuel with
    | zero => omega
    | succ f =>
      refine ⟨f, by omega, ?_⟩
      rw [heq, argLoop_succ argc argv f i self hs' hi]
      simp only [hh, if_false, hopt, hfound, if_true]

theorem Reaches.next {p : CommandLineParser} {argc : Nat} {argv : List String}
    {i : Nat} {self : CommandLineParser} (hs : OptionMap.Sorted self.options_)
    (h : Reaches p argc argv i self) (hi : i < argc) (hh : ¬ isHelp (argv.getD i ""))
    {s : Scan}
    (hv : visitAll argc argv (argv.getD i "") (OptionMap.keys self.options_)
      { self := self, i := i, option_found := false } = .ok s)
    (hfound : s.option_found = true) : Reaches p argc argv (s.i + 1) s.self := by
  apply Reaches.step h hi hh _ hfound
  rw [optionLoop_begin argc argv _ { self := self, i := i, option_found := false } hs, hv]

/-- A token that begins with a dash is never skipped: the scan exits at an
earlier token or reaches it. -/
theorem argLoop_reach {p : CommandLineParser} {argc : Nat} {argv : List String}
    (hs : OptionMap.Sorted p.options_) {j : Nat} (hj : j < argc)
    (hdash : front (argv.getD j "") = '-') :
    ∀ (fuel i : Nat) (self : CommandLineParser), Reaches p argc argv i self → i ≤ j →
      argc ≤ i + fuel →
      (∃ r j', 1 ≤ j' ∧ j' < j ∧ argLoop argc argv fuel i self = some (.error r) ∧
        ExitAt argv r j') ∨
      (∃ fuel' self', Reaches p argc argv j self' ∧ argc ≤ j + fuel' ∧
        argLoop argc argv fuel i self = argLoop argc argv fuel' j self') := by
  intro fuel
  induction fuel with
  | zero => intro i self _ hij hf; omega
  | succ fuel ih =>
    intro i self hr hij hf
    by_cases hlt : i < j
    · obtain ⟨h1, hs', _⟩ := hr.spec hs
      have hi : i < argc := by omega
      rw [argLoop_succ argc argv fuel i self hs' hi]
      by_cases hh : isHelp (argv.getD i "")
      · left
        simp only [hh, if_true]
        exact ⟨_, i, h1, hlt, rfl, rfl, Or.inl ⟨rfl, rfl, hh⟩⟩
      · simp only [hh, if_false]
        rcases token_cases argc argv i self h1 hi hh with
          ⟨r, hv, _, _, _, hex⟩ | ⟨s, hv, st, _, hinv⟩
        · left
          rw [hv]
          exact ⟨r, i, h1, hlt, rfl, hex⟩
        · rw [hv]
          simp only []
          cases hf' : s.option_found with
          | true =>
            simp only [if_true]
            have hsj : s.i < j := by
              by_contra hc
              have := (st.skips.2 j hlt (by simpa using hc)).2
              exact this hdash
            rcases ih (s.i + 1) s.self (hr.next hs' hi hh hv hf') (by omega)
                (by have := st.skips.1; simp only at this; omega) with
              ⟨r, j', a, b, c, d⟩ | ⟨fuel', self', a, b, c⟩
            · exact Or.inl ⟨r, j', a, b, c, d⟩
            · exact Or.inr ⟨fuel', self', a, b, c⟩
          | false =>
            left
            simp only [Bool.false_eq_true, if_false]
            exact ⟨_, i, h1, hlt, rfl, hinv hf'⟩
    · have : i = j := by omega
      subst this
      exact Or.inr ⟨fuel + 1, self, hr, hf, rfl⟩

/-! ## Claims -/

theorem getD_cons_succ' (prog : String) (args : List String) (k : Nat) :
    (prog :: args).getD (k + 1) "" = args.getD k "" := by
  simp [List.getD]

theorem getD_mem {args : List String} {k : Nat} (h : k < args.length) :
    args.getD k "" ∈ args := by
  rw [List.getD_eq_getElem _ _ h]
  exact List.getElem_mem h

theorem scanned_mem {prog : String} {args : List String} {a : String}
    (h : Scanned (args.length + 1) (prog :: args) a) : a ∈ args := by
  obtain ⟨i, h1, h2, h3⟩ := h
  obtain ⟨k, rfl⟩ : ∃ k, i = k + 1 := ⟨i - 1, by omega⟩
  rw [getD_cons_succ'] at h3
  rw [← h3]
  exact getD_mem (by omega)

theorem mem_args_index {args : List String} {a : String} (h : a ∈ args) (prog : String) :
    ∃ j, 1 ≤ j ∧ j < args.length + 1 ∧ (prog :: args).getD j "" = a := by
  obtain ⟨k, hk, hka⟩ := List.getElem_of_mem h
  refine ⟨k + 1, by omega, by omega, ?_⟩
  rw [getD_cons_succ', List.getD_eq_getElem _ _ hk, hka]

theorem ParseArgs_spec (p : CommandLineParser) (args : List String)
    (hs : OptionMap.Sorted p.options_) :
    ∃ r, p.ParseArgs args = some r ∧
      Frame (fun a => a ∈ args) p.options_ r.self.options_ ∧
      r.self.required_options_ = p.required_options_ ∧
      r.self.programname_ = p.programname_ ∧
      (r.control = .returned ∨ r.control = .exited 0 ∨ r.control = .exited 1) := by
  obtain ⟨r, h1, h2, h3, h4, h5⟩ := Parse_spec p (args.length + 1) (p.programname_ :: args) hs
  exact ⟨r, h1, h2.mono (fun _ h => scanned_mem h), h3, h4, h5⟩

/-- C2: for a registry built by `AddOption` on a fresh parser (either
constructor) and an argument list on which `Parse` returns normally, every
registered option none of whose aliases occurs in the argument list has
`HasOption` false and `GetOptionValue` equal to the empty string. -/
theorem unreferenced_option_unset (prog : String) (calls : List AddCall)
    (args : List String) (r : ParseResult)
    (hparse : ((CommandLineParser.named prog).addAll calls).ParseArgs args = some r)
    (_hreturned : r.control = .returned)
    (e : String × CliOption)
    (he : e ∈ ((CommandLineParser.named prog).addAll calls).options_)
    (hno : ∀ a ∈ e.2.aliases, a ∉ args) :
    r.self.HasOption e.1 = .ok false ∧ r.self.GetOptionValue e.1 = .ok "" := by
  have hreg := Registered.named_addAll prog calls
  obtain ⟨r', hr', fr, _⟩ := ParseArgs_spec _ args hreg.1
  rw [hparse] at hr'
  simp only [Option.some.injEq] at hr'
  subst hr'
  have hfind : OptionMap.find ((CommandLineParser.named prog).addAll calls).options_ e.1
      = some e.2 := mem_find hreg.1 he
  obtain ⟨o', ho', _, _, _, _, _, hsame, _⟩ := fr.present e.1 e.2 hfind
  have heq : o' = e.2 := hsame hno
  rw [heq] at ho'
  obtain ⟨a, b, _⟩ := hreg.2 e.1 e.2 hfind
  rw [HasOption_eq, GetOptionValue_eq, ho']
  simp [OptionMap.get, ho', a, b]

/-- C2 at a concrete input: `--verbose` is registered and not referenced by
the arguments `--file out.txt`. -/
theorem unreferenced_option_unset_witness :
    (((CommandLineParser.named "prog").addAll
        [{ option_name := "--file" }, { option_name := "--verbose" }]).ParseArgs
        ["--file", "out.txt"]).map
      (fun r => (r.control, r.self.HasOption "--verbose", r.self.GetOptionValue "--verbose"))
      = some (.returned, .ok false, .ok "") := by
  cases hp : ((CommandLineParser.named "prog").addAll
      [{ option_name := "--file" }, { option_name := "--verbose" }]).ParseArgs
      ["--file", "out.txt"] with
  | none => exact absurd hp (by decide)
  | some r =>
    have hc : r.control = .returned := by
      have h : (((CommandLineParser.named "prog").addAll
          [{ option_name := "--file" }, { option_name := "--verbose" }]).ParseArgs
          ["--file", "out.txt"]).map (fun r => r.control) = some .returned := by decide
      rw [hp] at h
      simpa using h
    have h := unreferenced_option_unset "prog"
      [{ option_name := "--file" }, { option_name := "--verbose" }]
      ["--file", "out.txt"] r hp hc ("--verbose", { aliases := ["--verbose"] })
      (by decide) (by decide)
    simp [hc, h.1, h.2]

theorem addAll_cons (p : CommandLineParser) (c : AddCall) (calls : List AddCall) :
    p.addAll (c :: calls) =
      (p.AddOption c.option_name c.option_description c.aliases c.required
        c.mutually_exclusives).addAll calls := rfl

theorem programname_AddOption (p : CommandLineParser) (n d : String) (al : List String)
    (req : Bool) (ex : List String) :
    (p.AddOption n d al req ex).programname_ = p.programname_ := rfl

theorem required_AddOption (p : CommandLineParser) (n d : String) (al : List String)
    (req : Bool) (ex : List String) :
    (p.AddOption n d al req ex).required_options_ =
      if req then p.required_options_ ++ [n] else p.required_options_ := rfl

theorem programname_addAll (p : CommandLineParser) (calls : List AddCall) :
    (p.addAll calls).programname_ = p.programname_ := by
  induction calls generalizing p with
  | nil => rfl
  | cons c rest ih => rw [addAll_cons, ih, programname_AddOption]

theorem required_addAll (p : CommandLineParser) (calls : List AddCall) :
    (p.addAll calls).required_options_ =
      p.required_options_ ++
        (calls.filter (fun c => c.required)).map (fun c => c.option_name) := by
  induction calls generalizing p with
  | nil => simp [CommandLineParser.addAll]
  | cons c rest ih =>
    rw [addAll_cons, ih, required_AddOption]
    cases hc : c.required <;> simp [List.filter_cons, hc]

theorem find_addAll_none (p : CommandLineParser) (calls : List AddCall) (name : String)
    (hp : OptionMap.find p.options_ name = none)
    (hname : ∀ c ∈ calls, c.option_name ≠ name) :
    OptionMap.find (p.addAll calls).options_ name = none := by
  induction calls generalizing p with
  | nil => exact hp
  | cons c rest ih =>
    rw [addAll_cons]
    apply ih _ _ (fun x hx => hname x (List.mem_cons_of_mem _ hx))
    rw [find_AddOption]
    simp [hname c (by simp), hp]

theorem exclusive_addAll (p : CommandLineParser) (calls : List AddCall) (x : String)
    (hp : ∀ k o, OptionMap.find p.options_ k = some o → x ∉ o.mutually_exclusive_options)
    (hx : ∀ c ∈ calls, x ∉ c.mutually_exclusives) :
    ∀ k o, OptionMap.find (p.addAll calls).options_ k = some o →
      x ∉ o.mutually_exclusive_options := by
  induction calls generalizing p with
  | nil => exact hp
  | cons c rest ih =>
    rw [addAll_cons]
    apply ih _ _ (fun y hy => hx y (List.mem_cons_of_mem _ hy))
    intro k o hk
    rw [find_AddOption] at hk
    by_cases hn : c.option_name = k
    · simp only [hn, if_true, Option.some.injEq] at hk
      subst hk
      simp only [List.mem_append, not_or]
      refine ⟨?_, hx c (by simp)⟩
      cases hf : OptionMap.find p.options_ k with
      | none => simp [OptionMap.get, hf]
      | some o' => simpa [OptionMap.get, hf] using hp k o' hf
    · simp only [hn, if_false] at hk
      exact hp k o hk

theorem argLoop_help (argc : Nat) (argv : List String) (fuel i : Nat)
    (self : CommandLineParser) (hi : i < argc) (hh : isHelp (argv.getD i "")) :
    argLoop argc argv (fuel + 1) i self =
      some (.error
        { self := self, cout := self.PrintUsage, cerr := "", control := .exited 0 }) := by
  rw [argLoop]
  simp only [hi, if_true, hh]

theorem argLoop_invalid (argc : Nat) (argv : List String) (fuel i : Nat)
    (self : CommandLineParser) (hs : OptionMap.Sorted self.options_) (hi : i < argc)
    (hh : ¬ isHelp (argv.getD i ""))
    (hno : ∀ k, argv.getD i "" ∉ (OptionMap.get self.options_ k).aliases) :
    argLoop argc argv (fuel + 1) i self =
      some (.error
        { self := self, cout := self.PrintUsage, cerr := invalidMessage (argv.getD i ""),
          control := .exited 1 }) := by
  rw [argLoop_succ argc argv fuel i self hs hi, if_neg hh,
    visitAll_nomatch argc argv _ _ _ (fun k _ => hno k)]
  simp

theorem Parse_of_error {p : CommandLineParser} {argc : Nat} {argv : List String}
    {r : ParseResult} (h : argLoop argc argv argc 1 p = some (.error r)) :
    p.Parse argc argv = some r := by
  unfold CommandLineParser.Parse
  rw [h]

theorem ExitAt.control {argv : List String} {r : ParseResult} {j : Nat}
    (h : ExitAt argv r j) : r.control = .exited 0 ∨ r.control = .exited 1 := by
  rcases h.2 with h | h | h
  · exact Or.inl h.1
  · exact Or.inr h.1
  · exact Or.inr h.1

theorem no_alias_get {p : CommandLineParser} {u : String}
    (h : ∀ e ∈ p.options_, u ∉ e.2.aliases) (k : String) :
    u ∉ (OptionMap.get p.options_ k).aliases := by
  cases hf : OptionMap.find p.options_ k with
  | none => simp [OptionMap.get, hf]
  | some o =>
    simp only [OptionMap.get, hf, Option.getD_some]
    exact h (k, o) (find_mem hf)

/-- C4: for a registry built by `AddOption` and an argument list containing a
token that begins with a dash, is not a help flag and equals no alias of any
registered option, `Parse` does not return normally; when that token is the
first one, `Parse` prints the invalid-option diagnostic naming it and the
usage text, and exits with status 1. -/
theorem unknown_dash_token_rejected (prog : String) (calls : List AddCall)
    (args : List String) (u : String)
    (hu : u ∈ args) (hdash : front u = '-') (hhelp : ¬ isHelp u)
    (hnone : ∀ e ∈ ((CommandLineParser.named prog).addAll calls).options_,
      u ∉ e.2.aliases) :
    ∃ r, ((CommandLineParser.named prog).addAll calls).ParseArgs args = some r ∧
      r.control ≠ .returned ∧
      (args.head? = some u →
        r.control = .exited 1 ∧ r.cerr = invalidMessage u ∧ r.cout = r.self.PrintUsage) := by
  have hreg := Registered.named_addAll prog calls
  generalize hp : (CommandLineParser.named prog).addAll calls = p at hreg hnone ⊢
  have hinv : ∀ (fuel j : Nat) (self : CommandLineParser),
      Reaches p (args.length + 1) (p.programname_ :: args) j self →
      j < args.length + 1 → (p.programname_ :: args).getD j "" = u →
      argLoop (args.length + 1) (p.programname_ :: args) (fuel + 1) j self =
        some (.error { self := self, cout := self.PrintUsage, cerr := invalidMessage u,
                       control := .exited 1 }) := by
    intro fuel j self hr hj hju
    obtain ⟨_, hs', fr, _⟩ := hr.spec hreg.1
    have := argLoop_invalid (args.length + 1) (p.programname_ :: args) fuel j self hs' hj
      (by rw [hju]; exact hhelp)
      (by rw [hju]; intro k; rw [fr.get_aliases]; exact no_alias_get hnone k)
    rw [hju] at this
    exact this
  have hfirst : args.head? = some u →
      argLoop (args.length + 1) (p.programname_ :: args) (args.length + 1) 1 p =
        some (.error { self := p, cout := p.PrintUsage, cerr := invalidMessage u,
                       control := .exited 1 }) := by
    intro hhead
    cases args with
    | nil => simp at hhead
    | cons a rest =>
      simp only [List.head?_cons, Option.some.injEq] at hhead
      exact hinv _ 1 p Reaches.start (by simp) (by simp [List.getD, hhead])
  obtain ⟨j, hj1, hj2, hj3⟩ := mem_args_index hu p.programname_
  unfold CommandLineParser.ParseArgs
  rcases argLoop_reach hreg.1 hj2 (by rw [hj3]; exact hdash) (args.length + 1) 1 p
      Reaches.start hj1 (by omega) with ⟨r, j', _, hlt, hr, hex⟩ | ⟨fuel', self', hr, hf, heq⟩
  · refine ⟨r, Parse_of_error hr, ?_, ?_⟩
    · rcases hex.control with h | h <;> rw [h] <;> simp
    · intro hhead
      rw [hfirst hhead] at hr
      simp only [Option.some.injEq, Except.error.injEq] at hr
      subst hr
      exact ⟨rfl, rfl, rfl⟩
  · obtain ⟨f, rfl⟩ : ∃ f, fuel' = f + 1 := ⟨fuel' - 1, by omega⟩
    rw [hinv f j self' hr hj2 hj3] at heq
    exact ⟨_, Parse_of_error heq, by simp, fun _ => ⟨rfl, rfl, rfl⟩⟩

/-- C4 at a concrete input: the arguments `--unknown` against a registry that
holds only `--file`. -/
theorem unknown_dash_token_rejected_witness :
    ∃ r, ((CommandLineParser.named "prog").addAll [{ option_name := "--file" }]).ParseArgs
        ["--unknown"] = some r ∧
      r.control ≠ .returned ∧
      (["--unknown"].head? = some "--unknown" →
        r.control = .exited 1 ∧ r.cerr = invalidMessage "--unknown" ∧
        r.cout = r.self.PrintUsage) :=
  unknown_dash_token_rejected "prog" [{ option_name := "--file" }] ["--unknown"] "--unknown"
    (by decide) (by decide) (by decide) (by decide)

/-- C7: for a registry built by `AddOption`, whose required-options sequence
lists the names registered as required in registration order, `Parse` returns
normally only if every name of that sequence is set; and when the scan of the
arguments ends without an exit while some required name is unset, `Parse`
prints the required-option diagnostic naming the first unset name of the
sequence and exits with status 1. -/
theorem required_options_enforced (prog : String) (calls : List AddCall)
    (args : List String) :
    ((CommandLineParser.named prog).addAll calls).required_options_ =
      (calls.filter (fun c => c.required)).map (fun c => c.option_name) ∧
    (∀ r, ((CommandLineParser.named prog).addAll calls).ParseArgs args = some r →
      r.control = .returned →
      ∀ n ∈ ((CommandLineParser.named prog).addAll calls).required_options_,
        r.self.HasOption n = .ok true) ∧
    (∀ self1, argLoop (args.length + 1) (prog :: args) (args.length + 1) 1
        ((CommandLineParser.named prog).addAll calls) = some (.ok self1) →
      ∀ pre n post,
        ((CommandLineParser.named prog).addAll calls).required_options_ = pre ++ n :: post →
        (∀ x ∈ pre, self1.HasOption x = .ok true) → self1.HasOption n = .ok false →
        ((CommandLineParser.named prog).addAll calls).ParseArgs args =
          some { self := self1, cout := "", cerr := requiredMessage n, control := .exited 1 }) := by
  have hreg := Registered.named_addAll prog calls
  have hprog : ((CommandLineParser.named prog).addAll calls).programname_ = prog :=
    programname_addAll _ _
  generalize hp : (CommandLineParser.named prog).addAll calls = p at hreg hprog ⊢
  have hstatic : ∀ res, argLoop (args.length + 1) (prog :: args) (args.length + 1) 1 p
      = some (.ok res) → res.required_options_ = p.required_options_ := by
    intro res hres
    obtain ⟨res', hres', hend⟩ := argLoop_spec (args.length + 1) (prog :: args)
      (args.length + 1) 1 p hreg.1 (le_refl _) (by omega)
    rw [hres] at hres'
    simp only [Option.some.injEq] at hres'
    subst hres'
    exact hend.2.1
  refine ⟨?_, ?_, ?_⟩
  · rw [← hp, required_addAll]
    simp [CommandLineParser.named]
  · intro r hparse hret n hn
    unfold CommandLineParser.ParseArgs CommandLineParser.Parse at hparse
    rw [hprog] at hparse
    cases hloop : argLoop (args.length + 1) (prog :: args) (args.length + 1) 1 p with
    | none => rw [hloop] at hparse; cases hparse
    | some res =>
      rw [hloop] at hparse
      cases res with
      | error r' =>
        simp only [Option.some.injEq] at hparse
        subst hparse
        obtain ⟨res', hres', hend⟩ := argLoop_spec (args.length + 1) (prog :: args)
          (args.length + 1) 1 p hreg.1 (le_refl _) (by omega)
        rw [hloop] at hres'
        simp only [Option.some.injEq] at hres'
        subst hres'
        obtain ⟨_, _, _, j, _, _, hx⟩ := hend
        rcases hx.control with h | h <;> rw [h] at hret <;> cases hret
      | ok self1 =>
        simp only [Option.some.injEq] at hparse
        subst hparse
        rw [(requiredLoop_self _ _).1, HasOption_eq]
        rw [requiredLoop_returned] at hret
        rw [hret n (by rw [hstatic self1 hloop]; exact hn)]
  · intro self1 hloop pre n post hsplit hpre hn
    unfold CommandLineParser.ParseArgs CommandLineParser.Parse
    rw [hprog, hloop]
    simp only [Option.some.injEq]
    rw [hstatic self1 hloop, hsplit]
    apply requiredLoop_first
    · intro x hx
      have := hpre x hx
      rw [HasOption_eq] at this
      simpa using this
    · rw [HasOption_eq] at hn
      simpa using hn

/-- C7 at a concrete input: the option `--req` is required and the argument
list is empty. -/
theorem required_options_enforced_witness :
    ((CommandLineParser.named "prog").addAll
        [{ option_name := "--req", required := true }]).ParseArgs [] =
      some { self := (CommandLineParser.named "prog").addAll
               [{ option_name := "--req", required := true }]
             cout := ""
             cerr := requiredMessage "--req"
             control := .exited 1 } :=
  (required_options_enforced "prog" [{ option_name := "--req", required := true }] []).2.2
    ((CommandLineParser.named "prog").addAll [{ option_name := "--req", required := true }])
    (by decide) [] "--req" [] (by decide) (by decide) (by decide)

/-- C8 (as stated) fails: with an empty registry the arguments
`--unknown -h` contain a help flag, and `Parse` exits with status 1. -/
theorem help_after_invalid_token :
    isHelp "-h" ∧ "-h" ∈ ["--unknown", "-h"] ∧
    (CommandLineParser.new.ParseArgs ["--unknown", "-h"]).map
      (fun r => (r.control, r.cerr)) = some (.exited 1, invalidMessage "--unknown") := by
  decide

/-- C8 (amended): for a registry built by `AddOption` and an argument list
that contains a help flag, `Parse` never returns normally: it prints the usage
text and exits, with status 0 as the help outcome, unless the invalid-option
or mutual-exclusion error (status 1) is raised at a token that stands before
that help flag; in particular the help outcome is reached when the help flag
is the first token. -/
theorem help_token_exits (prog : String) (calls : List AddCall)
    (pre : List String) (h : String) (post : List String) (hh : isHelp h) :
    ∃ r, ((CommandLineParser.named prog).addAll calls).ParseArgs (pre ++ h :: post) = some r ∧
      r.cout = r.self.PrintUsage ∧
      ((r.control = .exited 0 ∧ r.cerr = "") ∨
       (r.control = .exited 1 ∧
          ∃ t ∈ pre, ¬ isHelp t ∧
            ((∃ x, r.cerr = exclusiveMessage x t) ∨ r.cerr = invalidMessage t))) := by
  have hreg := Registered.named_addAll prog calls
  generalize hp : (CommandLineParser.named prog).addAll calls = p at hreg ⊢
  have hj2 : pre.length + 1 < (pre ++ h :: post).length + 1 := by simp
  have hj3 : (p.programname_ :: (pre ++ h :: post)).getD (pre.length + 1) "" = h := by
    rw [getD_cons_succ', List.getD_eq_getElem _ _ (by simp)]
    exact List.getElem_of_append rfl rfl
  have hdash : front h = '-' := by
    rcases hh with hh | hh <;> rw [hh] <;> decide
  unfold CommandLineParser.ParseArgs
  rcases argLoop_reach hreg.1 hj2 (by rw [hj3]; exact hdash) ((pre ++ h :: post).length + 1) 1 p
      Reaches.start (by omega) (by omega) with
    ⟨r, j', h1, hlt, hr, hex⟩ | ⟨fuel', self', hr, hf, heq⟩
  · refine ⟨r, Parse_of_error hr, hex.1, ?_⟩
    obtain ⟨k, rfl⟩ : ∃ k, j' = k + 1 := ⟨j' - 1, by omega⟩
    have hk : k < pre.length := by omega
    have htok : (p.programname_ :: (pre ++ h :: post)).getD (k + 1) "" = pre.getD k "" := by
      rw [getD_cons_succ', List.getD_eq_getElem _ _ (by simp; omega),
        List.getD_eq_getElem _ _ hk, List.getElem_append_left hk]
    unfold ExitAt at hex
    rw [htok] at hex
    rcases hex.2 with hx | hx | hx
    · exact Or.inl ⟨hx.1, hx.2.1⟩
    · exact Or.inr ⟨hx.1, _, getD_mem hk, hx.2.1, Or.inl ⟨hx.2.2.choose, hx.2.2.choose_spec.2⟩⟩
    · exact Or.inr ⟨hx.1, _, getD_mem hk, hx.2.1, Or.inr hx.2.2.1⟩
  · obtain ⟨f, rfl⟩ : ∃ f, fuel' = f + 1 := ⟨fuel' - 1, by omega⟩
    rw [argLoop_help _ _ f _ self' hj2 (by rw [hj3]; exact hh)] at heq
    exact ⟨_, Parse_of_error heq, rfl, Or.inl ⟨rfl, rfl⟩⟩

/-- C8 (amended) at a concrete input: the help flag is the first token. -/
theorem help_token_exits_witness :
    ∃ r, ((CommandLineParser.named "prog").addAll [{ option_name := "--file" }]).ParseArgs
        ([] ++ "-h" :: ["--file"]) = some r ∧
      r.cout = r.self.PrintUsage ∧
      ((r.control = .exited 0 ∧ r.cerr = "") ∨
       (r.control = .exited 1 ∧
          ∃ t ∈ ([] : List String), ¬ isHelp t ∧
            ((∃ x, r.cerr = exclusiveMessage x t) ∨ r.cerr = invalidMessage t))) :=
  help_token_exits "prog" [{ option_name := "--file" }] [] "-h" ["--file"] (by decide)

/-- C9: `HasOption` never fails: in every state of the object it returns a
Boolean, which is false when the name is not a key of the registry and is the
`is_set` flag of the entry stored under the name otherwise. -/
theorem HasOption_total (p : CommandLineParser) (name : String) :
    (∃ b, p.HasOption name = .ok b) ∧
    (name ∉ OptionMap.keys p.options_ → p.HasOption name = .ok false) ∧
    (∀ o, OptionMap.find p.options_ name = some o → p.HasOption name = .ok o.is_set) ∧
    (∀ o, OptionMap.Sorted p.options_ → (name, o) ∈ p.options_ →
      p.HasOption name = .ok o.is_set) := by
  refine ⟨⟨_, HasOption_eq p name⟩, ?_, ?_, ?_⟩
  · intro h
    rw [HasOption_eq, get_of_find_none ((find_eq_none_iff _ _).2 h)]
  · intro o h
    rw [HasOption_eq, get_of_find h]
  · intro o hs h
    rw [HasOption_eq, get_of_find (mem_find hs h)]

/-- C9 at a concrete input: `HasOption` answers false for the unregistered
`--nope` and for the registered, unset `--file`. -/
theorem HasOption_total_witness :
    ((CommandLineParser.named "prog").addAll [{ option_name := "--file" }]).HasOption
        "--nope" = .ok false ∧
    ((CommandLineParser.named "prog").addAll [{ option_name := "--file" }]).HasOption
        "--file" = .ok false :=
  ⟨(HasOption_total _ "--nope").2.1 (by decide),
   (HasOption_total _ "--file").2.2.1 { aliases := ["--file"] } (by decide)⟩

/-- C10 (as stated) fails: `--ghost` is never passed to `AddOption` as an
option name, only named in the exclusivity list of `--a`; after `Parse` of
`--a` returns normally both lookups of `--ghost` return a string. -/
theorem lookup_of_exclusive_name_succeeds :
    (((CommandLineParser.named "prog").addAll
        [{ option_name := "--a", mutually_exclusives := ["--ghost"] }]).ParseArgs
        ["--a"]).map
      (fun r => (r.control, r.self.GetOptionValue "--ghost",
        r.self.GetOptionDescription "--ghost"))
      = some (.returned, .ok "", .ok "") := by
  decide

/-- C10 (amended): for a sequence of `AddOption` calls followed by a `Parse`
that returns normally, and a name that was never passed to `AddOption` as
option name and is not named in the exclusivity list of any call,
`GetOptionValue` and `GetOptionDescription` fail with `std::out_of_range`. -/
theorem unknown_lookup_fails (prog : String) (calls : List AddCall) (args : List String)
    (r : ParseResult) (name : String)
    (hparse : ((CommandLineParser.named prog).addAll calls).ParseArgs args = some r)
    (_hreturned : r.control = .returned)
    (hname : ∀ c ∈ calls, c.option_name ≠ name)
    (hexcl : ∀ c ∈ calls, name ∉ c.mutually_exclusives) :
    r.self.GetOptionValue name = .error .out_of_range ∧
    r.self.GetOptionDescription name = .error .out_of_range := by
  have hreg := Registered.named_addAll prog calls
  obtain ⟨r', hr', fr, _⟩ := ParseArgs_spec _ args hreg.1
  rw [hparse] at hr'
  simp only [Option.some.injEq] at hr'
  subst hr'
  have habs : OptionMap.find ((CommandLineParser.named prog).addAll calls).options_ name
      = none :=
    find_addAll_none _ calls name (by simp [CommandLineParser.named, OptionMap.find]) hname
  have hex := exclusive_addAll (CommandLineParser.named prog) calls name
    (by simp [CommandLineParser.named, OptionMap.find]) hexcl
  have hnone : OptionMap.find r.self.options_ name = none := by
    rcases fr.absent name habs with h | ⟨_, k0, o0, hk0, hmem, _⟩
    · exact h
    · exact absurd hmem (hex k0 o0 hk0)
  rw [GetOptionValue_eq, GetOptionDescription_eq, hnone]
  exact ⟨rfl, rfl⟩

/-- C10 (amended) at a concrete input: `--nope` is neither registered nor
named in an exclusivity list. -/
theorem unknown_lookup_fails_witness :
    (((CommandLineParser.named "prog").addAll
        [{ option_name := "--a", mutually_exclusives := ["--ghost"] }]).ParseArgs
        ["--a"]).map
      (fun r => (r.self.GetOptionValue "--nope", r.self.GetOptionDescription "--nope"))
      = some (.error .out_of_range, .error .out_of_range) := by
  cases hr : ((CommandLineParser.named "prog").addAll
        [{ option_name := "--a", mutually_exclusives := ["--ghost"] }]).ParseArgs
        ["--a"] with
  | none => exact absurd hr (by decide)
  | some r =>
    have hc : r.control = .returned := by
      have h : (((CommandLineParser.named "prog").addAll
          [{ option_name := "--a", mutually_exclusives := ["--ghost"] }]).ParseArgs
          ["--a"]).map (fun r => r.control) = some .returned := by decide
      rw [hr] at h
      simpa using h
    have h := unknown_lookup_fails "prog"
      [{ option_name := "--a", mutually_exclusives := ["--ghost"] }] ["--a"] r "--nope"
      hr hc (by decide) (by decide)
    simp [h.1, h.2]

theorem set_eq_self {o : CliOption} (h : o.is_set = true) :
    ({ o with is_set := true } : CliOption) = o := by
  cases o
  simp only at h
  subst h
  rfl

theorem exclusiveCheck_unset (arg key : String) (self : CommandLineParser)
    (h : ∀ x ∈ (OptionMap.get self.options_ key).mutually_exclusive_options,
      (OptionMap.get self.options_ x).is_set = false) :
    ∃ self1, exclusiveCheck arg key self = .ok self1 ∧
      Grow (OptionMap.get self.options_ key).mutually_exclusive_options
        self.options_ self1.options_ ∧
      self1.required_options_ = self.required_options_ ∧
      self1.programname_ = self.programname_ := by
  unfold exclusiveCheck
  simp only
  split
  · rcases exclusiveLoop_cases arg
        (OptionMap.get self.options_ key).mutually_exclusive_options self with
      ⟨self1, h1⟩ | ⟨r, h1⟩
    · obtain ⟨g, a, b, _⟩ := exclusiveLoop_ok h1
      exact ⟨self1, h1, g, a, b⟩
    · obtain ⟨_, _, _, _, _, x, hx, hset, _⟩ := exclusiveLoop_error h1
      rw [h x hx] at hset
      cases hset
  · exact ⟨self, rfl, Grow.grow_refl _ _, rfl, rfl⟩

/-- An alias loop that finds the entry already set, every option of its
exclusivity list unset and no further token to attach leaves the entries as
they are. -/
theorem aliasLoop_saturated (argc : Nat) (argv : List String) (arg key : String)
    (o : CliOption) (hset : o.is_set = true) :
    ∀ (L : List String) (s : Scan),
      OptionMap.find s.self.options_ key = some o → ¬ (s.i + 1 < argc) →
      s.option_found = true →
      (∀ x ∈ o.mutually_exclusive_options, (OptionMap.get s.self.options_ x).is_set = false) →
      ∃ s', aliasLoop argc argv arg key L s = .ok s' ∧ s'.i = s.i ∧
        s'.option_found = true ∧ OptionMap.find s'.self.options_ key = some o ∧
        (∀ k, OptionMap.get s'.self.options_ k = OptionMap.get s.self.options_ k) := by
  intro L
  induction L with
  | nil => intro s hf _ hfound _; exact ⟨s, rfl, rfl, hfound, hf, fun _ => rfl⟩
  | cons a rest ih =>
    intro s hf hend hfound hex
    by_cases harg : arg = a
    · subst harg
      simp only [aliasLoop, if_true]
      obtain ⟨self1, hc, g, _, _⟩ := exclusiveCheck_unset arg key s.self
        (by rw [get_of_find hf]; exact hex)
      rw [hc]
      simp only []
      have hf1 : OptionMap.find self1.options_ key = some o := g.find_some hf
      have hatt : attach argc argv key { self := self1, i := s.i, option_found := true } =
          { self := { self1 with
                options_ :=
                  OptionMap.modify key (fun o => { o with is_set := true }) self1.options_ },
            i := s.i, option_found := true } := by
        unfold attach
        simp only [hend, false_and, if_false]
      rw [hatt]
      have hf2 : OptionMap.find
          (OptionMap.modify key (fun o => { o with is_set := true }) self1.options_) key
          = some o := by
        rw [find_modify]
        simp [hf1, set_eq_self hset]
      have hget : ∀ k, OptionMap.get
          (OptionMap.modify key (fun o => { o with is_set := true }) self1.options_) k
          = OptionMap.get s.self.options_ k := by
        intro k
        rw [← g.get_eq k]
        by_cases hk : key = k
        · subst hk
          rw [get_of_find hf2, get_of_find hf1]
        · rw [get_modify]
          simp [hk]
      obtain ⟨s', h1, h2, h3, h4, h5⟩ := ih
        { self := { self1 with
              options_ :=
                OptionMap.modify key (fun o => { o with is_set := true }) self1.options_ },
          i := s.i, option_found := true } hf2 hend rfl
        (fun x hx => by rw [hget x]; exact hex x hx)
      exact ⟨s', h1, h2, h3, h4, fun k => (h5 k).trans (hget k)⟩
    · simp only [aliasLoop, harg, if_false]
      exact ih s hf hend hfound hex

/-- The alias loop of the one entry matching the token, in a registry where
nothing is set yet and exactly one further token stands behind the token. -/
theorem aliasLoop_value (argc : Nat) (argv : List String) (t n : String) (o : CliOption) :
    ∀ (L : List String) (s : Scan),
      OptionMap.find s.self.options_ n = some o → t ∈ L →
      (∀ k, (OptionMap.get s.self.options_ k).is_set = false) →
      s.i + 1 < argc → front (argv.getD (s.i + 1) "") ≠ '-' → ¬ (s.i + 2 < argc) →
      (n ∈ o.mutually_exclusive_options → L.count t = 1) →
      ∃ s', aliasLoop argc argv t n L s = .ok s' ∧ s'.i = s.i + 1 ∧
        s'.option_found = true ∧
        OptionMap.find s'.self.options_ n =
          some { o with is_set := true, value := argv.getD (s.i + 1) "" } := by
  intro L
  induction L with
  | nil => intro s _ ht; simp at ht
  | cons a rest ih =>
    intro s hf ht hall h1 h2 h3 hself
    by_cases harg : t = a
    · subst harg
      simp only [aliasLoop, if_true]
      obtain ⟨self1, hc, g, _, _⟩ := exclusiveCheck_unset t n s.self
        (fun x _ => hall x)
      rw [hc]
      simp only []
      have hf1 : OptionMap.find self1.options_ n = some o := g.find_some hf
      have hatt : attach argc argv n { self := self1, i := s.i, option_found := true } =
          { self := { self1 with
                options_ :=
                  OptionMap.modify n (fun o => { o with value := argv.getD (s.i + 1) "" })
                    (OptionMap.modify n (fun o => { o with is_set := true }) self1.options_) },
            i := s.i + 1, option_found := true } := by
        unfold attach
        simp only [h1, h2, ne_eq, not_false_eq_true, and_self, if_true]
      rw [hatt]
      have hf2 : OptionMap.find
          (OptionMap.modify n (fun o => { o with value := argv.getD (s.i + 1) "" })
            (OptionMap.modify n (fun o => { o with is_set := true }) self1.options_)) n
          = some { o with is_set := true, value := argv.getD (s.i + 1) "" } := by
        simp [find_modify, hf1]
      by_cases hrest : t ∈ rest
      · have hnself : n ∉ o.mutually_exclusive_options := by
          intro hc'
          have := hself hc'
          rw [List.count_cons_self] at this
          have hpos : 0 < rest.count t := List.count_pos_iff.2 hrest
          omega
        obtain ⟨s', a1, a2, a3, a4, _⟩ := aliasLoop_saturated argc argv t n
          { o with is_set := true, value := argv.getD (s.i + 1) "" } rfl rest
          { self := { self1 with
                options_ :=
                  OptionMap.modify n (fun o => { o with value := argv.getD (s.i + 1) "" })
                    (OptionMap.modify n (fun o => { o with is_set := true }) self1.options_) },
            i := s.i + 1, option_found := true } hf2 (by simpa using h3) rfl
          (by
            intro x hx
            have hxn : ¬ n = x := fun e => hnself (e ▸ hx)
            simp only [get_modify, hxn, false_and, if_false]
            rw [g.get_eq]
            exact hall x)
        exact ⟨s', a1, a2, a3, a4⟩
      · rw [aliasLoop_nomatch argc argv t n rest _ hrest]
        exact ⟨_, rfl, rfl, rfl, hf2⟩
    · simp only [aliasLoop, harg, if_false]
      have ht' : t ∈ rest := by
        rcases List.mem_cons.1 ht with h | h
        · exact absurd h harg
        · exact h
      apply ih s hf ht' hall h1 h2 h3
      intro hc
      have := hself hc
      rwa [List.count_cons_of_ne harg] at this

theorem visitAll_single (argc : Nat) (argv : List String) (arg n : String) :
    ∀ (ks : List String) (s : Scan), ks.Nodup → n ∈ ks →
      (∀ k ∈ ks, k ≠ n → arg ∉ (OptionMap.get s.self.options_ k).aliases) →
      visitAll argc argv arg ks s =
        aliasLoop argc argv arg n (OptionMap.get s.self.options_ n).aliases s := by
  intro ks
  induction ks with
  | nil => intro s _ hn; simp at hn
  | cons k rest ih =>
    intro s hnd hn hno
    rw [List.nodup_cons] at hnd
    simp only [visitAll]
    by_cases hk : k = n
    · subst hk
      cases hal : aliasLoop argc argv arg k (OptionMap.get s.self.options_ k).aliases s with
      | error r => rfl
      | ok s1 =>
        simp only []
        obtain ⟨_, hother, _⟩ := (aliasLoop_spec argc argv arg k _ s (fun _ h => h)).1 s1 hal
        apply visitAll_nomatch
        intro x hx
        have hxk : x ≠ k := fun e => hnd.1 (e ▸ hx)
        rw [hother x hxk]
        exact hno x (List.mem_cons_of_mem _ hx) hxk
    · rw [aliasLoop_nomatch argc argv arg k _ s (hno k (by simp) hk)]
      simp only []
      have hn' : n ∈ rest := by
        rcases List.mem_cons.1 hn with h | h
        · exact absurd h.symm hk
        · exact h
      exact ih s hnd.2 hn' (fun x hx => hno x (List.mem_cons_of_mem _ hx))

theorem keys_nodup {m : OptionMap} (hs : OptionMap.Sorted m) : (OptionMap.keys m).Nodup := by
  rw [sorted_iff_keys] at hs
  exact hs.imp (fun h => keyLess_ne h)

theorem mem_keys_of_find {m : OptionMap} {k : String} {o : CliOption}
    (h : OptionMap.find m k = some o) : k ∈ OptionMap.keys m := by
  rw [← find_isSome_iff, h]; rfl

/-- C1 (as stated) fails: `--file` is the only registered option and the
only one listing the token `--file`, which it lists twice while naming itself
in its exclusivity list, and no option is required; `Parse` of
`--file out.txt` exits with status 1 on the mutual-exclusion error. -/
theorem self_exclusive_option_rejected :
    (∀ e ∈ ((CommandLineParser.named "prog").addAll
        [{ option_name := "--file", aliases := ["--file"],
           mutually_exclusives := ["--file"] }]).options_,
      "--file" ∈ e.2.aliases → e.1 = "--file") ∧
    ((CommandLineParser.named "prog").addAll
        [{ option_name := "--file", aliases := ["--file"],
           mutually_exclusives := ["--file"] }]).required_options_ = [] ∧
    ¬ isHelp "--file" ∧ front "out.txt" ≠ '-' ∧
    (((CommandLineParser.named "prog").addAll
        [{ option_name := "--file", aliases := ["--file"],
           mutually_exclusives := ["--file"] }]).ParseArgs ["--file", "out.txt"]).map
      (fun r => (r.control, r.cerr))
      = some (.exited 1, exclusiveMessage "--file" "--file") := by
  decide

/-- C1 (amended): for a registry built by `AddOption` on a fresh parser, a
token `t` that is not a help flag and is an alias of the registered option `n`
and of no other option, and a value `v` that does not begin with a dash: if
every required option is `n`, and `n` either does not name itself in its
exclusivity list or lists `t` only once among its aliases, then `Parse` of
`[t, v]` returns normally and afterwards `HasOption(n)` is true and
`GetOptionValue(n)` is `v`. -/
theorem parse_option_value (prog : String) (calls : List AddCall) (n t v : String)
    (o : CliOption)
    (hn : (n, o) ∈ ((CommandLineParser.named prog).addAll calls).options_)
    (ht : t ∈ o.aliases)
    (huniq : ∀ e ∈ ((CommandLineParser.named prog).addAll calls).options_,
      t ∈ e.2.aliases → e.1 = n)
    (hhelp : ¬ isHelp t) (hv : front v ≠ '-')
    (hreq : ∀ x ∈ ((CommandLineParser.named prog).addAll calls).required_options_, x = n)
    (hself : n ∈ o.mutually_exclusive_options → o.aliases.count t = 1) :
    ∃ r, ((CommandLineParser.named prog).addAll calls).ParseArgs [t, v] = some r ∧
      r.control = .returned ∧ r.self.HasOption n = .ok true ∧
      r.self.GetOptionValue n = .ok v := by
  have hreg := Registered.named_addAll prog calls
  generalize hp : (CommandLineParser.named prog).addAll calls = p at hreg hn huniq hreq ⊢
  have hfind : OptionMap.find p.options_ n = some o := mem_find hreg.1 hn
  have hget : OptionMap.get p.options_ n = o := get_of_find hfind
  have hothers : ∀ k ∈ OptionMap.keys p.options_, k ≠ n →
      t ∉ (OptionMap.get p.options_ k).aliases := by
    intro k _ hk hmem
    cases hf : OptionMap.find p.options_ k with
    | none => simp [OptionMap.get, hf] at hmem
    | some o' =>
      rw [get_of_find hf] at hmem
      exact hk (huniq (k, o') (find_mem hf) hmem)
  have hvis := visitAll_single 3 (p.programname_ :: [t, v]) t n (OptionMap.keys p.options_)
    { self := p, i := 1, option_found := false } (keys_nodup hreg.1)
    (mem_keys_of_find hfind) hothers
  obtain ⟨s', hal, hi, hfound, hfind'⟩ := aliasLoop_value 3 (p.programname_ :: [t, v]) t n o
    o.aliases { self := p, i := 1, option_found := false } hfind ht
    (fun k => (hreg.get k).1) (by simp) hv (by simp) hself
  simp only [hget] at hvis
  rw [hal] at hvis
  obtain ⟨st, _⟩ := (visitAll_spec 3 (p.programname_ :: [t, v]) t _ _).1 s' hvis
  have hloop : argLoop 3 (p.programname_ :: [t, v]) 3 1 p = some (.ok s'.self) := by
    rw [argLoop_succ 3 _ 2 1 p hreg.1 (by decide)]
    have htok : (p.programname_ :: [t, v]).getD 1 "" = t := rfl
    rw [htok, if_neg hhelp, hvis]
    simp only [hfound, if_true]
    exact argLoop_done _ _ _ _ _ (by rw [hi]; simp)
  have hset : (OptionMap.get s'.self.options_ n).is_set = true := by
    rw [get_of_find hfind']
  refine ⟨requiredLoop s'.self.required_options_ s'.self, ?_, ?_, ?_, ?_⟩
  · unfold CommandLineParser.ParseArgs CommandLineParser.Parse
    simp only [List.length_cons, List.length_nil]
    rw [hloop]
  · rw [requiredLoop_returned]
    intro x hx
    have hxr : x ∈ p.required_options_ := by
      have := st.required
      simp only at this
      rw [← this]; exact hx
    rw [hreq x hxr]
    exact hset
  · rw [(requiredLoop_self _ _).1, HasOption_eq, hset]
  · rw [(requiredLoop_self _ _).1, GetOptionValue_eq, hfind']
    rfl

/-- C1 (amended) at a concrete input: `--file` and `--verbose` are registered
and the arguments are `--file out.txt`. -/
theorem parse_option_value_witness :
    ∃ r, ((CommandLineParser.named "prog").addAll
        [{ option_name := "--file" }, { option_name := "--verbose" }]).ParseArgs
        ["--file", "out.txt"] = some r ∧
      r.control = .returned ∧ r.self.HasOption "--file" = .ok true ∧
      r.self.GetOptionValue "--file" = .ok "out.txt" :=
  parse_option_value "prog" [{ option_name := "--file" }, { option_name := "--verbose" }]
    "--file" "--file" "out.txt" { aliases := ["--file"] }
    (by decide) (by decide) (by decide) (by decide) (by decide) (by decide) (by decide)

theorem get_aliases_present {m : OptionMap} {k a : String}
    (h : a ∈ (OptionMap.get m k).aliases) : (OptionMap.find m k).isSome = true := by
  cases hf : OptionMap.find m k with
  | none => simp [OptionMap.get, hf] at h
  | some o => rfl

theorem get_modify_exclusive (key : String) (f : CliOption → CliOption)
    (hf : ∀ o, (f o).mutually_exclusive = o.mutually_exclusive) (m : OptionMap) (k : String) :
    (OptionMap.get (OptionMap.modify key f m) k).mutually_exclusive =
      (OptionMap.get m k).mutually_exclusive := by
  rw [get_modify]
  split
  · rename_i h
    rw [hf, h.1]
  · rfl

theorem attach_exclusive (argc : Nat) (argv : List String) (key : String) (s : Scan)
    (k : String) :
    (OptionMap.get (attach argc argv key s).self.options_ k).mutually_exclusive =
      (OptionMap.get s.self.options_ k).mutually_exclusive := by
  unfold attach
  simp only
  split
  · simp only
    rw [get_modify_exclusive key (fun o => { o with value := argv.getD (s.i + 1) "" })
        (fun _ => rfl),
      get_modify_exclusive key (fun o => { o with is_set := true }) (fun _ => rfl)]
  · simp only
    rw [get_modify_exclusive key (fun o => { o with is_set := true }) (fun _ => rfl)]

theorem aliasLoop_no_exclusive (argc : Nat) (argv : List String) (arg key : String) :
    ∀ (L : List String) (s : Scan),
      (OptionMap.get s.self.options_ key).mutually_exclusive = false →
      ∃ s', aliasLoop argc argv arg key L s = .ok s' := by
  intro L
  induction L with
  | nil => intro s _; exact ⟨s, rfl⟩
  | cons a rest ih =>
    intro s hflag
    by_cases harg : arg = a
    · subst harg
      have hc : exclusiveCheck arg key s.self = .ok s.self := by
        unfold exclusiveCheck
        simp [hflag]
      simp only [aliasLoop, if_true, hc]
      apply ih
      rw [attach_exclusive]
      exact hflag
    · simp only [aliasLoop, harg, if_false]
      exact ih s hflag

theorem visitAll_no_exclusive (argc : Nat) (argv : List String) (arg : String) :
    ∀ (ks : List String) (s : Scan),
      (∀ k, (OptionMap.get s.self.options_ k).mutually_exclusive = false) →
      ∃ s', visitAll argc argv arg ks s = .ok s' := by
  intro ks
  induction ks with
  | nil => intro s _; exact ⟨s, rfl⟩
  | cons k rest ih =>
    intro s hflag
    obtain ⟨s1, h1⟩ := aliasLoop_no_exclusive argc argv arg k
      (OptionMap.get s.self.options_ k).aliases s (hflag k)
    simp only [visitAll, h1]
    obtain ⟨st, _⟩ := (aliasLoop_spec argc argv arg k _ s (fun _ h => h)).1 s1 h1
    apply ih
    intro x
    rw [(st.frame.get_exclusive x).1]
    exact hflag x

/-! ## A dash token is not taken as a value -/

theorem noClash_of_static {a b : String} {m m' : OptionMap}
    (h : ∀ k, (OptionMap.get m' k).aliases = (OptionMap.get m k).aliases ∧
      (OptionMap.get m' k).mutually_exclusive_options =
        (OptionMap.get m k).mutually_exclusive_options)
    (hc : NoClash a b m) : NoClash a b m' := by
  intro k hk y hy
  unfold ListsEither at hk ⊢
  rw [(h k).1] at hk
  rw [(h k).2] at hy
  rw [(h y).1]
  exact hc k hk y hy

theorem NoClash.noClash_of_frame {T : String → Prop} {a b : String} {m m' : OptionMap}
    (fr : Frame T m m') (hc : NoClash a b m) : NoClash a b m' :=
  noClash_of_static (fun k => ⟨fr.get_aliases k, (fr.get_exclusive k).2⟩) hc

/-- The alias loop at a token `a` or `b` in a state where the options that
list one of the two exclude none of them and only such options are set: the
exclusivity check passes at every match. -/
theorem aliasLoop_noClash (argc : Nat) (argv : List String) (a b arg key : String)
    (harg : arg = a ∨ arg = b) :
    ∀ (L : List String) (s : Scan),
      (∀ x ∈ L, x ∈ (OptionMap.get s.self.options_ key).aliases) →
      NoClash a b s.self.options_ → SetAmong a b s.self.options_ →
      ∃ s', aliasLoop argc argv arg key L s = .ok s' ∧ SetAmong a b s'.self.options_ := by
  intro L
  induction L with
  | nil => intro s _ _ hset; exact ⟨s, rfl, hset⟩
  | cons x rest ih =>
    intro s hL hc hset
    by_cases hx : arg = x
    · subst hx
      have hmem : arg ∈ (OptionMap.get s.self.options_ key).aliases := hL arg (by simp)
      have hlists : ListsEither a b (OptionMap.get s.self.options_ key) := by
        rcases harg with h | h
        · exact Or.inl (h ▸ hmem)
        · exact Or.inr (h ▸ hmem)
      obtain ⟨self1, hchk, g, _, _⟩ := exclusiveCheck_unset arg key s.self (by
        intro y hy
        cases hy' : (OptionMap.get s.self.options_ y).is_set with
        | false => rfl
        | true => exact absurd (hset y hy') (hc key hlists y hy))
      obtain ⟨o, ho⟩ := Option.isSome_iff_exists.1 (get_aliases_present hmem)
      have ho1 : OptionMap.find self1.options_ key = some o := g.find_some ho
      have hoa : arg ∈ o.aliases := by rw [get_of_find ho] at hmem; exact hmem
      obtain ⟨st, hother, _, _⟩ := attach_spec argc argv arg key
        { self := self1, i := s.i, option_found := true } ho1 hoa
      simp only [aliasLoop, if_true, hchk]
      have hal : ∀ k, (OptionMap.get (attach argc argv key
          { self := self1, i := s.i, option_found := true }).self.options_ k).aliases =
          (OptionMap.get s.self.options_ k).aliases := by
        intro k
        rw [st.frame.get_aliases, g.get_eq]
      have hex : ∀ k, (OptionMap.get (attach argc argv key
          { self := self1, i := s.i, option_found := true }).self.options_ k).mutually_exclusive_options =
          (OptionMap.get s.self.options_ k).mutually_exclusive_options := by
        intro k
        rw [(st.frame.get_exclusive k).2, g.get_eq]
      apply ih
      · intro y hy
        rw [hal]
        exact hL y (List.mem_cons_of_mem _ hy)
      · exact noClash_of_static (fun k => ⟨hal k, hex k⟩) hc
      · intro k hk
        unfold ListsEither
        rw [hal]
        by_cases hkk : k = key
        · subst hkk; exact hlists
        · rw [hother k hkk, g.get_eq] at hk
          exact hset k hk
    · simp only [aliasLoop, hx, if_false]
      exact ih s (fun y hy => hL y (List.mem_cons_of_mem _ hy)) hc hset

theorem visitAll_noClash (argc : Nat) (argv : List String) (a b arg : String)
    (harg : arg = a ∨ arg = b) :
    ∀ (ks : List String) (s : Scan),
      NoClash a b s.self.options_ → SetAmong a b s.self.options_ →
      ∃ s', visitAll argc argv arg ks s = .ok s' ∧ SetAmong a b s'.self.options_ := by
  intro ks
  induction ks with
  | nil => intro s _ hset; exact ⟨s, rfl, hset⟩
  | cons k rest ih =>
    intro s hc hset
    obtain ⟨s1, h1, hset1⟩ := aliasLoop_noClash argc argv a b arg k harg
      (OptionMap.get s.self.options_ k).aliases s (fun _ h => h) hc hset
    simp only [visitAll, h1]
    obtain ⟨st, _⟩ := (aliasLoop_spec argc argv arg k _ s (fun _ h => h)).1 s1 h1
    exact ih s1 (hc.noClash_of_frame st.frame) hset1

/-- One iteration of the loop over the arguments at a token `a` or `b` that is
an alias of some entry, in a state where the options that list one of the two
exclude none of them and only such options are set. -/
theorem token_noClash (argc : Nat) (argv : List String) (a b : String) (i : Nat)
    (self : CommandLineParser)
    (harg : argv.getD i "" = a ∨ argv.getD i "" = b)
    (hc : NoClash a b self.options_) (hset : SetAmong a b self.options_)
    (key : String) (hkey : argv.getD i "" ∈ (OptionMap.get self.options_ key).aliases) :
    ∃ s, visitAll argc argv (argv.getD i "") (OptionMap.keys self.options_)
        { self := self, i := i, option_found := false } = .ok s ∧
      ScanStep argc argv (fun t => t = argv.getD i "")
        { self := self, i := i, option_found := false } s ∧
      s.option_found = true ∧
      (OptionMap.get s.self.options_ key).is_set = true ∧
      NoClash a b s.self.options_ ∧ SetAmong a b s.self.options_ := by
  obtain ⟨s, hv, hset'⟩ := visitAll_noClash argc argv a b (argv.getD i "") harg
    (OptionMap.keys self.options_) { self := self, i := i, option_found := false } hc hset
  obtain ⟨st, _, hfound, hset1⟩ := (visitAll_spec argc argv _ _ _).1 s hv
  have hmem : key ∈ OptionMap.keys self.options_ := by
    rw [← find_isSome_iff]; exact get_aliases_present hkey
  exact ⟨s, hv, st, hfound.2 (Or.inr ⟨key, hmem, hkey⟩), hset1 key hmem hkey,
    hc.noClash_of_frame st.frame, hset'⟩

/-- Counterexamples to C3 as stated, both with two registered options `a` and
`b` that have disjoint alias lists, no exclusivity list and are not required,
where the name of `b` begins with a dash.
With `--file` and `-h`, `Parse` of `--file -h` takes the help exit and leaves
`-h` unset.
With `--file` and `--verbose`, and with `--aux` and `--other` both registered
with the alias `--file` and `--other` exclusive with `--aux`, `Parse` of
`--file --verbose` sets `--aux` and `--file` at the first token, stops with the
mutual-exclusion error when `--other` matches it, and leaves `--verbose`
unset. -/
theorem second_option_left_unset :
    (((CommandLineParser.named "prog").addAll
        [{ option_name := "--file" }, { option_name := "-h" }]).options_ =
      [("--file", { aliases := ["--file"] }), ("-h", { aliases := ["-h"] })] ∧
    front "-h" = '-' ∧
    (((CommandLineParser.named "prog").addAll
        [{ option_name := "--file" }, { option_name := "-h" }]).ParseArgs
        ["--file", "-h"]).map
      (fun r => (r.control, r.self.HasOption "--file", r.self.HasOption "-h"))
      = some (.exited 0, .ok true, .ok false)) ∧
    (((CommandLineParser.named "prog").addAll
        [{ option_name := "--file" }, { option_name := "--verbose" },
         { option_name := "--aux", aliases := ["--file"] },
         { option_name := "--other", aliases := ["--file"],
           mutually_exclusives := ["--aux"] }]).options_ =
      [("--aux", { aliases := ["--aux", "--file"] }),
       ("--file", { aliases := ["--file"] }),
       ("--other", { aliases := ["--other", "--file"], mutually_exclusive := true,
                     mutually_exclusive_options := ["--aux"] }),
       ("--verbose", { aliases := ["--verbose"] })] ∧
    ((CommandLineParser.named "prog").addAll
        [{ option_name := "--file" }, { option_name := "--verbose" },
         { option_name := "--aux", aliases := ["--file"] },
         { option_name := "--other", aliases := ["--file"],
           mutually_exclusives := ["--aux"] }]).required_options_ = [] ∧
    front "--verbose" = '-' ∧
    (((CommandLineParser.named "prog").addAll
        [{ option_name := "--file" }, { option_name := "--verbose" },
         { option_name := "--aux", aliases := ["--file"] },
         { option_name := "--other", aliases := ["--file"],
           mutually_exclusives := ["--aux"] }]).ParseArgs
        ["--file", "--verbose"]).map
      (fun r => (r.control, r.cerr, r.self.HasOption "--file", r.self.HasOption "--verbose"))
      = some (.exited 1, exclusiveMessage "--aux" "--file", .ok true, .ok false)) := by
  decide

/-- C3 (amended): for a registry built by `AddOption` on a fresh parser and
every argument list, `Parse` stops and no option's stored value begins with a
dash afterwards; and for two registered options `a` and `b` with disjoint
alias lists whose names are not help flags, where the name of `b` begins with
a dash, such that no option that lists `a` or `b` among its aliases names in
its exclusivity list an option that lists `a` or `b` among its aliases (as
when `a` and `b` have no exclusivity list and no other option lists `a` or
`b`), `Parse` of `[a, b]` leaves `a` set with an empty value and `b` set (and
returns normally when no option is required). -/
theorem dash_token_not_a_value (prog : String) (calls : List AddCall) :
    (∀ args, ∃ r, ((CommandLineParser.named prog).addAll calls).ParseArgs args = some r ∧
      ∀ e ∈ r.self.options_, front e.2.value ≠ '-') ∧
    (∀ (a b : String) (oa ob : CliOption),
      (a, oa) ∈ ((CommandLineParser.named prog).addAll calls).options_ →
      (b, ob) ∈ ((CommandLineParser.named prog).addAll calls).options_ →
      (∀ x ∈ oa.aliases, x ∉ ob.aliases) →
      (∀ e ∈ ((CommandLineParser.named prog).addAll calls).options_,
        (a ∈ e.2.aliases ∨ b ∈ e.2.aliases) →
        ∀ e' ∈ ((CommandLineParser.named prog).addAll calls).options_,
          e'.1 ∈ e.2.mutually_exclusive_options →
          a ∉ e'.2.aliases ∧ b ∉ e'.2.aliases) →
      front b = '-' → ¬ isHelp a → ¬ isHelp b →
      ∃ r, ((CommandLineParser.named prog).addAll calls).ParseArgs [a, b] = some r ∧
        r.self.HasOption a = .ok true ∧ r.self.GetOptionValue a = .ok "" ∧
        r.self.HasOption b = .ok true ∧
        (((CommandLineParser.named prog).addAll calls).required_options_ = [] →
          r.control = .returned)) := by
  have hreg := Registered.named_addAll prog calls
  generalize hp : (CommandLineParser.named prog).addAll calls = p at hreg ⊢
  constructor
  · intro args
    obtain ⟨r, hr, fr, _⟩ := ParseArgs_spec p args hreg.1
    refine ⟨r, hr, ?_⟩
    intro e he
    have hf : OptionMap.find r.self.options_ e.1 = some e.2 :=
      mem_find (fr.sorted hreg.1) he
    cases hfp : OptionMap.find p.options_ e.1 with
    | none =>
      rcases fr.absent e.1 hfp with h | ⟨h, _⟩
      · rw [h] at hf; cases hf
      · rw [h] at hf
        simp only [Option.some.injEq] at hf
        rw [← hf]
        decide
    | some o =>
      obtain ⟨o', ho', _, _, _, _, _, _, hval⟩ := fr.present e.1 o hfp
      rw [ho'] at hf
      simp only [Option.some.injEq] at hf
      subst hf
      rcases hval with h | h
      · rw [h, (hreg.2 e.1 o hfp).2.1]
        decide
      · exact h.2
  · intro a b oa ob ha hb _ hno hdash hha hhb
    have hfa : OptionMap.find p.options_ a = some oa := mem_find hreg.1 ha
    have hfb : OptionMap.find p.options_ b = some ob := mem_find hreg.1 hb
    have hclash : NoClash a b p.options_ := by
      intro k hk y hy hy'
      have hkp : (OptionMap.find p.options_ k).isSome = true := by
        rcases hk with h | h <;> exact get_aliases_present h
      have hyp : (OptionMap.find p.options_ y).isSome = true := by
        rcases hy' with h | h <;> exact get_aliases_present h
      obtain ⟨o, ho⟩ := Option.isSome_iff_exists.1 hkp
      obtain ⟨o', ho'⟩ := Option.isSome_iff_exists.1 hyp
      unfold ListsEither at hk hy'
      rw [get_of_find ho] at hk hy
      rw [get_of_find ho'] at hy'
      have := hno (k, o) (find_mem ho) hk (y, o') (find_mem ho') hy
      rcases hy' with h | h
      · exact this.1 h
      · exact this.2 h
    have hamong : SetAmong a b p.options_ := by
      intro k hk
      rw [(hreg.get k).1] at hk
      cases hk
    have htok1 : (p.programname_ :: [a, b]).getD 1 "" = a := rfl
    have htok2 : (p.programname_ :: [a, b]).getD 2 "" = b := rfl
    -- the token `a`
    obtain ⟨s1, hv1, st1, hfound1, hset1, hclash1, hamong1⟩ := token_noClash 3
      (p.programname_ :: [a, b]) a b 1 p (Or.inl htok1) hclash hamong a
      (by rw [htok1, get_of_find hfa]; exact (hreg.2 a oa hfa).2.2.2)
    have hi1 : s1.i = 1 := by
      have h1 := st1.skips.1
      simp only at h1
      by_contra hne
      have := (st1.skips.2 2 (by simp) (by omega)).2
      rw [htok2] at this
      exact this hdash
    have hval1 : (OptionMap.get s1.self.options_ a).value = "" := by
      rw [st1.values (by rw [hi1]) a]
      exact (hreg.get a).2
    -- the token `b`
    have hkb : (p.programname_ :: [a, b]).getD 2 "" ∈
        (OptionMap.get s1.self.options_ b).aliases := by
      rw [htok2, st1.frame.get_aliases, get_of_find hfb]
      exact (hreg.2 b ob hfb).2.2.2
    obtain ⟨s2, hv2, st2, hfound2, hset2, _⟩ := token_noClash 3
      (p.programname_ :: [a, b]) a b 2 s1.self (Or.inr htok2) hclash1 hamong1 b hkb
    have hi2 : s2.i = 2 := by
      have h1 := st2.skips.1
      simp only at h1
      by_contra hne
      have := (st2.skips.2 3 (by simp) (by omega)).1
      omega
    have hloop : argLoop 3 (p.programname_ :: [a, b]) 3 1 p = some (.ok s2.self) := by
      rw [argLoop_succ 3 _ 2 1 p hreg.1 (by simp), htok1, if_neg hha]
      rw [htok1] at hv1
      rw [hv1]
      simp only [hfound1, if_true, hi1]
      rw [argLoop_succ 3 _ 1 2 s1.self (st1.frame.sorted hreg.1) (by simp), htok2, if_neg hhb]
      rw [htok2] at hv2
      rw [hv2]
      simp only [hfound2, if_true]
      exact argLoop_done _ _ _ _ _ (by rw [hi2]; simp)
    have hseta : (OptionMap.get s2.self.options_ a).is_set = true :=
      st2.frame.get_is_set hset1
    have hvala : (OptionMap.get s2.self.options_ a).value = "" := by
      rw [st2.values (by rw [hi2]) a]
      exact hval1
    have hpa : (OptionMap.find s2.self.options_ a).isSome = true := by
      rw [find_isSome_iff]
      exact st2.frame.mem_keys (st1.frame.mem_keys (mem_keys_of_find hfa))
    refine ⟨requiredLoop s2.self.required_options_ s2.self, ?_, ?_, ?_, ?_, ?_⟩
    · unfold CommandLineParser.ParseArgs CommandLineParser.Parse
      simp only [List.length_cons, List.length_nil]
      rw [hloop]
    · rw [(requiredLoop_self _ _).1, HasOption_eq, hseta]
    · rw [(requiredLoop_self _ _).1, GetOptionValue_eq]
      obtain ⟨o', ho'⟩ := Option.isSome_iff_exists.1 hpa
      rw [ho']
      rw [get_of_find ho'] at hvala
      simp only [hvala]
    · rw [(requiredLoop_self _ _).1, HasOption_eq, hset2]
    · intro hnoreq
      have h1 := st1.required
      have h2 := st2.required
      simp only at h1 h2
      rw [h2, h1, hnoreq]
      rfl

/-- C3 (amended) at a concrete input: `--file` and `--verbose` are registered
next to `--level`, which is exclusive with `--quiet`, and the arguments are
`--file --verbose`. -/
theorem dash_token_not_a_value_witness :
    ∃ r, ((CommandLineParser.named "prog").addAll
        [{ option_name := "--file" }, { option_name := "--verbose" },
         { option_name := "--level", mutually_exclusives := ["--quiet"] }]).ParseArgs
        ["--file", "--verbose"] = some r ∧
      r.self.HasOption "--file" = .ok true ∧ r.self.GetOptionValue "--file" = .ok "" ∧
      r.self.HasOption "--verbose" = .ok true ∧
      (((CommandLineParser.named "prog").addAll
        [{ option_name := "--file" }, { option_name := "--verbose" },
         { option_name := "--level", mutually_exclusives := ["--quiet"] }]).required_options_
          = [] →
        r.control = .returned) :=
  (dash_token_not_a_value "prog"
    [{ option_name := "--file" }, { option_name := "--verbose" },
     { option_name := "--level", mutually_exclusives := ["--quiet"] }]).2
    "--file" "--verbose" { aliases := ["--file"] } { aliases := ["--verbose"] }
    (by decide) (by decide) (by decide) (by decide) (by decide) (by decide) (by decide)

theorem aliasLoop_exclusive (argc : Nat) (argv : List String) (arg key Y : String) :
    ∀ (L : List String) (s : Scan), arg ∈ L →
      arg ∈ (OptionMap.get s.self.options_ key).aliases →
      (OptionMap.get s.self.options_ key).mutually_exclusive = true →
      Y ∈ (OptionMap.get s.self.options_ key).mutually_exclusive_options →
      (OptionMap.get s.self.options_ Y).is_set = true →
      ∃ r, aliasLoop argc argv arg key L s = .error r ∧
        ExclusiveExit (fun a => a = arg) arg s.self r ∧
        ∀ k, OptionMap.get r.self.options_ k = OptionMap.get s.self.options_ k := by
  intro L
  induction L with
  | nil => intro s h; simp at h
  | cons a rest ih =>
    intro s hmem hal hflag hY hset
    by_cases harg : arg = a
    · subst harg
      simp only [aliasLoop, if_true]
      cases hc : exclusiveCheck arg key s.self with
      | ok self1 =>
        unfold exclusiveCheck at hc
        simp only [hflag, if_true] at hc
        have := (exclusiveLoop_ok hc).2.2.2 Y hY
        rw [hset] at this
        cases this
      | error r =>
        obtain ⟨g, ex⟩ := exclusiveCheck_error (T := fun a => a = arg)
          (get_aliases_present hal) ⟨arg, hal, rfl⟩ hc
        exact ⟨r, rfl, ex, fun k => g.get_eq k⟩
    · simp only [aliasLoop, harg, if_false]
      apply ih s _ hal hflag hY hset
      rcases List.mem_cons.1 hmem with h | h
      · exact absurd h harg
      · exact h

theorem visitAll_exclusive (argc : Nat) (argv : List String) (arg X Y : String) :
    ∀ (ks : List String) (s : Scan), X ∈ ks →
      arg ∈ (OptionMap.get s.self.options_ X).aliases →
      (OptionMap.get s.self.options_ X).mutually_exclusive = true →
      Y ∈ (OptionMap.get s.self.options_ X).mutually_exclusive_options →
      (OptionMap.get s.self.options_ Y).is_set = true →
      ∃ r, visitAll argc argv arg ks s = .error r ∧
        ExclusiveExit (fun a => a = arg) arg s.self r ∧
        OptionMap.get r.self.options_ X = OptionMap.get s.self.options_ X := by
  intro ks
  induction ks with
  | nil => intro s h; simp at h
  | cons k rest ih =>
    intro s hX hal hflag hY hset
    obtain ⟨aok, aerr⟩ := aliasLoop_spec argc argv arg k
      (OptionMap.get s.self.options_ k).aliases s (fun _ h => h)
    simp only [visitAll]
    by_cases hk : k = X
    · subst hk
      obtain ⟨r, hr, ex, hget⟩ := aliasLoop_exclusive argc argv arg k Y _ s hal hal hflag hY hset
      rw [hr]
      exact ⟨r, rfl, ex, hget k⟩
    · have hX' : X ∈ rest := by
        rcases List.mem_cons.1 hX with h | h
        · exact absurd h.symm hk
        · exact h
      cases hal' : aliasLoop argc argv arg k (OptionMap.get s.self.options_ k).aliases s with
      | error r =>
        obtain ⟨ex, ho⟩ := aerr r hal'
        exact ⟨r, rfl, ex, ho X (fun e => hk e.symm)⟩
      | ok s1 =>
        simp only []
        obtain ⟨st, ho, _⟩ := aok s1 hal'
        have hgX := ho X (fun e => hk e.symm)
        obtain ⟨r, hr, ex, hget⟩ := ih s1 hX' (by rw [hgX]; exact hal)
          (by rw [hgX]; exact hflag) (by rw [hgX]; exact hY) (st.frame.get_is_set hset)
        exact ⟨r, hr, ⟨st.frame.frame_trans ex.frame, ex.required.trans st.required,
          ex.programname.trans st.programname, ex.control, ex.cout, ex.cerr⟩,
          hget.trans hgX⟩

/-- C5 (as stated) fails: `-h` is registered as exclusive with `--a`; the
scan of `--a -h` reaches the token `-h`, an alias of the option `-h`, while
`--a` is set, and `Parse` takes the help exit with status 0. -/
theorem help_alias_skips_exclusion :
    ((CommandLineParser.named "prog").addAll
        [{ option_name := "--a" },
         { option_name := "-h", mutually_exclusives := ["--a"] }]).options_ =
      [("--a", { aliases := ["--a"] }),
       ("-h", { aliases := ["-h"], mutually_exclusive := true,
                mutually_exclusive_options := ["--a"] })] ∧
    Reaches ((CommandLineParser.named "prog").addAll
        [{ option_name := "--a" },
         { option_name := "-h", mutually_exclusives := ["--a"] }]) 3
      ["prog", "--a", "-h"] 2
      { options_ :=
          [("--a", { aliases := ["--a"], is_set := true }),
           ("-h", { aliases := ["-h"], mutually_exclusive := true,
                    mutually_exclusive_options := ["--a"] })]
        required_options_ := []
        programname_ := "prog" } ∧
    (((CommandLineParser.named "prog").addAll
        [{ option_name := "--a" },
         { option_name := "-h", mutually_exclusives := ["--a"] }]).ParseArgs
        ["--a", "-h"]).map
      (fun r => (r.control, r.cerr, r.self.HasOption "-h"))
      = some (.exited 0, "", .ok false) :=
  ⟨by decide,
   Reaches.step
      (s := { self :=
                { options_ :=
                    [("--a", { aliases := ["--a"], is_set := true }),
                     ("-h", { aliases := ["-h"], mutually_exclusive := true,
                              mutually_exclusive_options := ["--a"] })]
                  required_options_ := []
                  programname_ := "prog" }
              i := 1
              option_found := true })
      Reaches.start (by decide) (by decide) (by decide) (by decide),
   by decide⟩

/-- C5 (amended): for a registry built by `AddOption`, whenever the scan
reaches a token that is not a help flag and equals an alias of an option `X`
while an option `Y` named in the exclusivity list of `X` is set, `Parse`
prints the mutual-exclusion diagnostic for that token and the usage text and
exits with status 1, and the `is_set` flag of `X` is what it was when the
token was reached. -/
theorem exclusive_option_rejected (prog : String) (calls : List AddCall)
    (args : List String) (i : Nat) (self : CommandLineParser) (X Y : String)
    (oX : CliOption)
    (hreach : Reaches ((CommandLineParser.named prog).addAll calls) (args.length + 1)
      (prog :: args) i self)
    (hi : i < args.length + 1)
    (hhelp : ¬ isHelp ((prog :: args).getD i ""))
    (hX : OptionMap.find self.options_ X = some oX)
    (halias : (prog :: args).getD i "" ∈ oX.aliases)
    (hY : Y ∈ oX.mutually_exclusive_options)
    (hset : self.HasOption Y = .ok true) :
    ∃ r, ((CommandLineParser.named prog).addAll calls).ParseArgs args = some r ∧
      r.control = .exited 1 ∧ r.cout = r.self.PrintUsage ∧
      (∃ x, r.self.HasOption x = .ok true ∧
        r.cerr = exclusiveMessage x ((prog :: args).getD i "")) ∧
      r.self.HasOption X = self.HasOption X := by
  have hreg := Registered.named_addAll prog calls
  have hprog : ((CommandLineParser.named prog).addAll calls).programname_ = prog :=
    programname_addAll _ _
  generalize hp : (CommandLineParser.named prog).addAll calls = p at hreg hprog hreach ⊢
  obtain ⟨h1, hs, fr, _, _, fuel, hfuel, heq⟩ := hreach.spec hreg.1
  have hsetY : (OptionMap.get self.options_ Y).is_set = true := by
    rw [HasOption_eq] at hset
    simpa using hset
  have hgX : OptionMap.get self.options_ X = oX := get_of_find hX
  have hflag : oX.mutually_exclusive = true := by
    cases hfp : OptionMap.find p.options_ X with
    | none =>
      rcases fr.absent X hfp with h | ⟨h, _⟩
      · rw [h] at hX; cases hX
      · rw [h] at hX
        simp only [Option.some.injEq] at hX
        subst hX
        simp at halias
    | some o =>
      obtain ⟨o', ho', _, _, a3, a4, _⟩ := fr.present X o hfp
      rw [ho'] at hX
      simp only [Option.some.injEq] at hX
      subst hX
      rw [a3, (hreg.2 X o hfp).2.2.1, ← a4]
      exact List.ne_nil_of_mem hY
  obtain ⟨r, hr, ex, hget⟩ := visitAll_exclusive (args.length + 1) (prog :: args)
    ((prog :: args).getD i "") X Y (OptionMap.keys self.options_)
    { self := self, i := i, option_found := false } (mem_keys_of_find hX)
    (by rw [hgX]; exact halias) (by rw [hgX]; exact hflag) (by rw [hgX]; exact hY) hsetY
  obtain ⟨f, rfl⟩ : ∃ f, fuel = f + 1 := ⟨fuel - 1, by omega⟩
  rw [argLoop_succ _ _ f i self hs hi, if_neg hhelp, hr] at heq
  obtain ⟨x, hx1, hx2⟩ := ex.cerr
  refine ⟨r, ?_, ex.control, ex.cout, ⟨x, by rw [HasOption_eq, hx1], hx2⟩, ?_⟩
  · unfold CommandLineParser.ParseArgs
    rw [hprog]
    exact Parse_of_error heq
  · rw [HasOption_eq, HasOption_eq, hget]

/-- C5 (amended) at a concrete input: `--b` is registered as exclusive with
`--a`; the scan of `--a --b` reaches `--b` with `--a` set, `Parse` exits with
status 1 on the mutual-exclusion error and `--b` stays unset. -/
theorem exclusive_option_rejected_witness :
    ∃ r, ((CommandLineParser.named "prog").addAll
        [{ option_name := "--a" },
         { option_name := "--b", mutually_exclusives := ["--a"] }]).ParseArgs
        ["--a", "--b"] = some r ∧
      r.control = .exited 1 ∧ r.cout = r.self.PrintUsage ∧
      (∃ x, r.self.HasOption x = .ok true ∧ r.cerr = exclusiveMessage x "--b") ∧
      r.self.HasOption "--b" = .ok false :=
  exclusive_option_rejected "prog"
    [{ option_name := "--a" }, { option_name := "--b", mutually_exclusives := ["--a"] }]
    ["--a", "--b"] 2
    { options_ :=
        [("--a", { aliases := ["--a"], is_set := true }),
         ("--b", { aliases := ["--b"], mutually_exclusive := true,
                   mutually_exclusive_options := ["--a"] })]
      required_options_ := []
      programname_ := "prog" }
    "--b" "--a"
    { aliases := ["--b"], mutually_exclusive := true, mutually_exclusive_options := ["--a"] }
    (Reaches.step
      (s := { self :=
                { options_ :=
                    [("--a", { aliases := ["--a"], is_set := true }),
                     ("--b", { aliases := ["--b"], mutually_exclusive := true,
                               mutually_exclusive_options := ["--a"] })]
                  required_options_ := []
                  programname_ := "prog" }
              i := 1
              option_found := true })
      Reaches.start (by decide) (by decide) (by decide) (by decide))
    (by decide) (by decide) (by decide) (by decide) (by decide) (by decide)

/-- C6: the code evaluated at the failing input. `--b` is registered with
`--a` in its exclusivity list; `Parse` of `--b --a` returns normally and
leaves both options set. -/
theorem exclusive_pair_both_set :
    (((CommandLineParser.named "prog").addAll
        [{ option_name := "--a" },
         { option_name := "--b", mutually_exclusives := ["--a"] }]).ParseArgs
        ["--b", "--a"]).map
      (fun r => (r.control, r.self.HasOption "--b", r.self.HasOption "--a"))
      = some (.returned, .ok true, .ok true) ∧
    (((CommandLineParser.named "prog").addAll
        [{ option_name := "--a" },
         { option_name := "--b", mutually_exclusives := ["--a"] }]).ParseArgs
        ["--a", "--b"]).map (fun r => r.control) = some (.exited 1) := by
  decide

theorem CommandLineParser.new_eq_named :
    CommandLineParser.new = CommandLineParser.named "[program]" := rfl

/-! ## Registration claims -/

/-- C11: for a name `n` that is not a key of the registry,
`AddOption(n, d, aliases, required, excl)` stores under `n` an unset entry
with empty value, description `d`, alias list `n` followed by `aliases` in
the order given and exclusivity list `excl` (flagged exclusive exactly when
`excl` is not empty); `n` is appended to the required-options sequence when
`required` is true and the sequence is unchanged otherwise; every other entry
and the program name are unchanged. -/
theorem AddOption_fresh_name (p : CommandLineParser) (n d : String) (al : List String)
    (req : Bool) (ex : List String) (hn : OptionMap.find p.options_ n = none) :
    OptionMap.find (p.AddOption n d al req ex).options_ n =
      some { description := d, aliases := n :: al, is_set := false, value := "",
             mutually_exclusive := !ex.isEmpty, mutually_exclusive_options := ex } ∧
    (p.AddOption n d al req ex).required_options_ =
      (if req then p.required_options_ ++ [n] else p.required_options_) ∧
    (∀ k, k ≠ n →
      OptionMap.find (p.AddOption n d al req ex).options_ k = OptionMap.find p.options_ k) ∧
    (p.AddOption n d al req ex).programname_ = p.programname_ := by
  refine ⟨?_, rfl, ?_, rfl⟩
  · rw [find_AddOption]
    simp [OptionMap.get, hn]
  · intro k hk
    rw [find_AddOption, if_neg (fun e : n = k => hk e.symm)]

/-- C11 at a concrete input: `--file` with the alias `-f`, required and
exclusive with `--dir`, is added to a registry that holds `--verbose`. -/
theorem AddOption_fresh_name_witness :
    OptionMap.find
      (((CommandLineParser.named "prog").addAll [{ option_name := "--verbose" }]).AddOption
        "--file" "the file" ["-f"] true ["--dir"]).options_ "--file" =
      some { description := "the file", aliases := ["--file", "-f"], is_set := false,
             value := "", mutually_exclusive := true,
             mutually_exclusive_options := ["--dir"] } :=
  (AddOption_fresh_name ((CommandLineParser.named "prog").addAll [{ option_name := "--verbose" }])
    "--file" "the file" ["-f"] true ["--dir"] (by decide)).1

/-- C12 (as stated) fails: after `--f` is registered twice on a fresh parser
its description is that of the second call, and its alias list is
`--f, --f`, not the list `--f` that the second call alone leaves. -/
theorem reregistered_aliases_accumulate :
    (OptionMap.find
      ((CommandLineParser.new.AddOption "--f" "one" [] false []).AddOption
        "--f" "two" [] false []).options_ "--f").map
        (fun o => (o.description, o.aliases)) = some ("two", ["--f", "--f"]) ∧
    (OptionMap.find
      (CommandLineParser.new.AddOption "--f" "two" [] false []).options_ "--f").map
        (fun o => (o.description, o.aliases)) = some ("two", ["--f"]) := by
  decide

/-- C12 (amended): re-registering a name overwrites the description and
extends the lists: after `AddOption(n, d1, al1)` followed by
`AddOption(n, d2, al2)` the entry stored under `n` has description `d2`, and
its alias list is the list it had before the two calls followed by `n`,
`al1`, `n` and `al2`; its exclusivity list is extended by the lists of both
calls, and `is_set` and `value` are kept. -/
theorem AddOption_twice (p : CommandLineParser) (n d1 d2 : String) (al1 al2 : List String)
    (req1 req2 : Bool) (ex1 ex2 : List String) :
    OptionMap.find
      ((p.AddOption n d1 al1 req1 ex1).AddOption n d2 al2 req2 ex2).options_ n =
      some { description := d2
             aliases := (OptionMap.get p.options_ n).aliases ++ n :: al1 ++ n :: al2
             is_set := (OptionMap.get p.options_ n).is_set
             value := (OptionMap.get p.options_ n).value
             mutually_exclusive :=
               (OptionMap.get p.options_ n).mutually_exclusive || !ex1.isEmpty || !ex2.isEmpty
             mutually_exclusive_options :=
               (OptionMap.get p.options_ n).mutually_exclusive_options ++ ex1 ++ ex2 } := by
  rw [find_AddOption]
  simp [OptionMap.get, find_AddOption]

/-! ## Help and overlapping aliases -/

theorem ParseArgs_help_first (p : CommandLineParser) (h : String) (rest : List String)
    (hh : isHelp h) :
    p.ParseArgs (h :: rest) =
      some { self := p, cout := p.PrintUsage, cerr := "", control := .exited 0 } := by
  unfold CommandLineParser.ParseArgs
  apply Parse_of_error
  simp only [List.length_cons]
  exact argLoop_help _ _ _ 1 p (by omega) (by simpa [List.getD] using hh)

/-- C17: for a registry built by `AddOption`, whatever names and aliases it
holds (the help flags included, required or exclusive), and an argument list
whose first token is a help flag, `Parse` prints the usage text and exits with
status 0, the object is what it was before the call, and no option is set. -/
theorem help_precedes_matching (prog : String) (calls : List AddCall) (h : String)
    (rest : List String) (hh : isHelp h) :
    ((CommandLineParser.named prog).addAll calls).ParseArgs (h :: rest) =
      some { self := (CommandLineParser.named prog).addAll calls
             cout := ((CommandLineParser.named prog).addAll calls).PrintUsage
             cerr := ""
             control := .exited 0 } ∧
    ∀ name, ((CommandLineParser.named prog).addAll calls).HasOption name = .ok false := by
  refine ⟨ParseArgs_help_first _ h rest hh, fun name => ?_⟩
  rw [HasOption_eq, ((Registered.named_addAll prog calls).get name).1]

/-- C17 at a concrete input: `-h` is registered as a required option with the
alias `--help`, exclusive with `--x`, and the arguments are `-h --x`. -/
theorem help_precedes_matching_witness :
    (((CommandLineParser.named "prog").addAll
        [{ option_name := "--x" },
         { option_name := "-h", aliases := ["--help"], required := true,
           mutually_exclusives := ["--x"] }]).ParseArgs ["-h", "--x"]).map
      (fun r => (r.control, r.self.HasOption "-h", r.self.HasOption "--x"))
      = some (.exited 0, .ok false, .ok false) := by
  have h := help_precedes_matching "prog"
    [{ option_name := "--x" },
     { option_name := "-h", aliases := ["--help"], required := true,
       mutually_exclusives := ["--x"] }] "-h" ["--x"] (by decide)
  rw [h.1]
  simp [h.2]

theorem Registered.no_exclusive {p : CommandLineParser} (h : Registered p)
    (hnoex : ∀ e ∈ p.options_, e.2.mutually_exclusive_options = []) :
    ∀ k, (OptionMap.get p.options_ k).mutually_exclusive = false := by
  intro k
  cases hf : OptionMap.find p.options_ k with
  | none => simp [OptionMap.get, hf]
  | some o =>
    rw [get_of_find hf]
    have h1 := (h.2 k o hf).2.2.1
    have h2 := hnoex (k, o) (find_mem hf)
    simp only at h2
    cases hm : o.mutually_exclusive with
    | false => rfl
    | true => exact absurd h2 (h1.1 hm)

/-- C16: for a registry built by `AddOption` without exclusivity constraints
and without required options, and a token `t` that is not a help flag and
equals an alias of at least one option, `Parse` of `[t]` returns normally and
afterwards `HasOption(o)` is true for exactly the registered options `o`
whose alias list contains `t`. -/
theorem overlapping_aliases_all_set (prog : String) (calls : List AddCall) (t : String)
    (hnoex : ∀ e ∈ ((CommandLineParser.named prog).addAll calls).options_,
      e.2.mutually_exclusive_options = [])
    (hnoreq : ((CommandLineParser.named prog).addAll calls).required_options_ = [])
    (hhelp : ¬ isHelp t)
    (hex : ∃ e ∈ ((CommandLineParser.named prog).addAll calls).options_, t ∈ e.2.aliases) :
    ∃ r, ((CommandLineParser.named prog).addAll calls).ParseArgs [t] = some r ∧
      r.control = .returned ∧
      ∀ e ∈ ((CommandLineParser.named prog).addAll calls).options_,
        (r.self.HasOption e.1 = .ok true ↔ t ∈ e.2.aliases) := by
  have hreg := Registered.named_addAll prog calls
  generalize hp : (CommandLineParser.named prog).addAll calls = p at hreg hnoex hnoreq hex ⊢
  have hflag := hreg.no_exclusive hnoex
  have htok : (p.programname_ :: [t]).getD 1 "" = t := rfl
  obtain ⟨s, hv⟩ := visitAll_no_exclusive 2 (p.programname_ :: [t]) t
    (OptionMap.keys p.options_) { self := p, i := 1, option_found := false } hflag
  obtain ⟨st, _, hfound, hset⟩ := (visitAll_spec 2 (p.programname_ :: [t]) t _ _).1 s hv
  have hgetmem : ∀ e ∈ p.options_, e.1 ∈ OptionMap.keys p.options_ ∧
      OptionMap.get p.options_ e.1 = e.2 := by
    intro e he
    have hf := mem_find hreg.1 he
    exact ⟨mem_keys_of_find hf, get_of_find hf⟩
  have hf : s.option_found = true := by
    rw [hfound]
    obtain ⟨e, he, hte⟩ := hex
    exact Or.inr ⟨e.1, (hgetmem e he).1, by rw [(hgetmem e he).2]; exact hte⟩
  have hi : s.i = 1 := by
    have h1 := st.skips.1
    simp only at h1
    by_contra hne
    have := (st.skips.2 2 (by simp) (by omega)).1
    omega
  have hloop : argLoop 2 (p.programname_ :: [t]) 2 1 p = some (.ok s.self) := by
    rw [argLoop_succ 2 _ 1 1 p hreg.1 (by simp), htok, if_neg hhelp, hv]
    simp only [hf, if_true]
    exact argLoop_done _ _ _ _ _ (by rw [hi]; simp)
  refine ⟨requiredLoop s.self.required_options_ s.self, ?_, ?_, ?_⟩
  · unfold CommandLineParser.ParseArgs CommandLineParser.Parse
    simp only [List.length_cons, List.length_nil]
    rw [hloop]
  · have h1 := st.required
    simp only at h1
    rw [h1, hnoreq]
    rfl
  · intro e he
    obtain ⟨hk, hg⟩ := hgetmem e he
    rw [(requiredLoop_self _ _).1, HasOption_eq]
    by_cases hte : t ∈ e.2.aliases
    · have := hset e.1 hk (by simp only; rw [hg]; exact hte)
      simp [this, hte]
    · have hsame : OptionMap.get s.self.options_ e.1 = OptionMap.get p.options_ e.1 :=
        st.frame.get_same (by
          simp only
          rw [hg]
          intro a ha hat
          exact hte (hat ▸ ha))
      rw [hsame, (hreg.get e.1).1]
      simp [hte]

/-- C16 at a concrete input: `--a` and `--b` both list the alias `-x`,
`--c` does not; the argument list is `-x`. -/
theorem overlapping_aliases_all_set_witness :
    ∃ r, ((CommandLineParser.named "prog").addAll
        [{ option_name := "--a", aliases := ["-x"] },
         { option_name := "--b", aliases := ["-x"] },
         { option_name := "--c" }]).ParseArgs ["-x"] = some r ∧
      r.control = .returned ∧
      ∀ e ∈ ((CommandLineParser.named "prog").addAll
        [{ option_name := "--a", aliases := ["-x"] },
         { option_name := "--b", aliases := ["-x"] },
         { option_name := "--c" }]).options_,
        (r.self.HasOption e.1 = .ok true ↔ "-x" ∈ e.2.aliases) :=
  overlapping_aliases_all_set "prog"
    [{ option_name := "--a", aliases := ["-x"] },
     { option_name := "--b", aliases := ["-x"] },
     { option_name := "--c" }] "-x" (by decide) (by decide) (by decide) (by decide)

/-! ## What every step of the scan keeps -/

theorem Advance.adv_refl (m : OptionMap) : Advance m m :=
  fun _ => ⟨id, Or.inl rfl⟩

theorem Advance.adv_trans {m m' m'' : OptionMap} (h1 : Advance m m') (h2 : Advance m' m'') :
    Advance m m'' := by
  intro k
  refine ⟨fun h => (h2 k).1 ((h1 k).1 h), ?_⟩
  rcases (h2 k).2 with h | h
  · rcases (h1 k).2 with h' | h'
    · exact Or.inl (h.trans h')
    · exact Or.inr ((h2 k).1 h')
  · exact Or.inr h

theorem advance_of_get_eq {m m' : OptionMap}
    (h : ∀ k, OptionMap.get m' k = OptionMap.get m k) : Advance m m' :=
  fun k => ⟨fun hs => by rw [h k]; exact hs, Or.inl (by rw [h k])⟩

theorem advance_of_grow {L : List String} {m m' : OptionMap} (h : Grow L m m') :
    Advance m m' :=
  advance_of_get_eq h.get_eq

theorem advance_mark (key : String) (m : OptionMap) :
    Advance m (OptionMap.modify key (fun o => { o with is_set := true }) m) := by
  intro k
  rw [get_modify]
  split
  · rename_i h
    rw [h.1]
    exact ⟨fun _ => rfl, Or.inl rfl⟩
  · exact ⟨id, Or.inl rfl⟩

theorem advance_store (key v : String) (m : OptionMap)
    (h : (OptionMap.find m key).isSome = true → (OptionMap.get m key).is_set = true) :
    Advance m (OptionMap.modify key (fun o => { o with value := v }) m) := by
  intro k
  rw [get_modify]
  split
  · rename_i hk
    rw [← hk.1]
    exact ⟨id, Or.inr (h hk.2)⟩
  · exact ⟨id, Or.inl rfl⟩

theorem advance_attach (argc : Nat) (argv : List String) (key : String) (s : Scan) :
    Advance s.self.options_ (attach argc argv key s).self.options_ := by
  have hset : (OptionMap.find (OptionMap.modify key (fun o => { o with is_set := true })
        s.self.options_) key).isSome = true →
      (OptionMap.get (OptionMap.modify key (fun o => { o with is_set := true })
        s.self.options_) key).is_set = true := by
    intro h
    rw [find_modify] at h
    simp only [if_true, Option.isSome_map'] at h
    rw [get_modify]
    simp [h]
  unfold attach
  simp only
  split
  · exact (advance_mark key _).adv_trans (advance_store key _ _ hset)
  · exact advance_mark key _

theorem advance_exclusiveLoop (arg : String) (L : List String) (self : CommandLineParser) :
    Advance self.options_ (loopSelf (exclusiveLoop arg L self)).options_ := by
  cases h : exclusiveLoop arg L self with
  | ok self1 => exact advance_of_grow (exclusiveLoop_ok h).1
  | error r => exact advance_of_grow (exclusiveLoop_error h).1

theorem advance_exclusiveCheck (arg key : String) (self : CommandLineParser) :
    Advance self.options_ (loopSelf (exclusiveCheck arg key self)).options_ := by
  unfold exclusiveCheck
  simp only
  split
  · exact advance_exclusiveLoop _ _ _
  · exact Advance.adv_refl _

theorem advance_aliasLoop (argc : Nat) (argv : List String) (arg key : String) :
    ∀ (L : List String) (s : Scan),
      Advance s.self.options_ (scanSelf (aliasLoop argc argv arg key L s)).options_ := by
  intro L
  induction L with
  | nil => intro s; exact Advance.adv_refl _
  | cons a rest ih =>
    intro s
    by_cases harg : arg = a
    · subst harg
      simp only [aliasLoop, if_true]
      have hc := advance_exclusiveCheck arg key s.self
      cases hx : exclusiveCheck arg key s.self with
      | error r =>
        rw [hx] at hc
        exact hc
      | ok self1 =>
        rw [hx] at hc
        simp only []
        exact (hc.adv_trans (advance_attach argc argv key
          { self := self1, i := s.i, option_found := true })).adv_trans (ih _)
    · simp only [aliasLoop, harg, if_false]
      exact ih s

theorem advance_optionLoop (argc : Nat) (argv : List String) (arg : String) :
    ∀ (fuel : Nat) (it : Option String) (s : Scan) (res : Except ParseResult Scan),
      optionLoop argc argv arg fuel it s = some res →
      Advance s.self.options_ (scanSelf res).options_ := by
  intro fuel
  induction fuel with
  | zero =>
    intro it s res h
    cases it with
    | none =>
      simp only [optionLoop, Option.some.injEq] at h
      subst h
      exact Advance.adv_refl _
    | some k => simp [optionLoop] at h
  | succ fuel ih =>
    intro it s res h
    cases it with
    | none =>
      simp only [optionLoop, Option.some.injEq] at h
      subst h
      exact Advance.adv_refl _
    | some k =>
      simp only [optionLoop] at h
      have ha := advance_aliasLoop argc argv arg k (OptionMap.get s.self.options_ k).aliases s
      cases hal : aliasLoop argc argv arg k (OptionMap.get s.self.options_ k).aliases s with
      | error r =>
        rw [hal] at h ha
        simp only [Option.some.injEq] at h
        subst h
        exact ha
      | ok s1 =>
        rw [hal] at h ha
        exact ha.adv_trans (ih _ s1 res h)

theorem advance_argLoop (argc : Nat) (argv : List String) :
    ∀ (fuel i : Nat) (self : CommandLineParser)
      (res : Except ParseResult CommandLineParser),
      argLoop argc argv fuel i self = some res →
      Advance self.options_ (loopSelf res).options_ := by
  intro fuel
  induction fuel with
  | zero =>
    intro i self res h
    rw [argLoop] at h
    split at h
    · cases h
    · simp only [Option.some.injEq] at h
      subst h
      exact Advance.adv_refl _
  | succ fuel ih =>
    intro i self res h
    rw [argLoop] at h
    split at h
    · simp only at h
      split at h
      · simp only [Option.some.injEq] at h
        subst h
        exact Advance.adv_refl _
      · cases ho : optionLoop argc argv (argv.getD i "") (optionFuel self.options_)
            (OptionMap.begin self.options_)
            { self := self, i := i, option_found := false } with
        | none => rw [ho] at h; cases h
        | some r1 =>
          have hadv := advance_optionLoop argc argv _ _ _ _ r1 ho
          rw [ho] at h
          cases r1 with
          | error r =>
            simp only [Option.some.injEq] at h
            subst h
            exact hadv
          | ok s =>
            simp only at h
            split at h
            · exact hadv.adv_trans (ih _ _ res h)
            · simp only [Option.some.injEq] at h
              subst h
              exact hadv
    · simp only [Option.some.injEq] at h
      subst h
      exact Advance.adv_refl _

theorem advance_Parse (self : CommandLineParser) (argc : Nat) (argv : List String)
    (r : ParseResult) (h : self.Parse argc argv = some r) :
    Advance self.options_ r.self.options_ := by
  unfold CommandLineParser.Parse at h
  cases hl : argLoop argc argv argc 1 self with
  | none => rw [hl] at h; cases h
  | some res =>
    have hadv := advance_argLoop argc argv argc 1 self res hl
    rw [hl] at h
    cases res with
    | error r' =>
      simp only [Option.some.injEq] at h
      subst h
      exact hadv
    | ok self1 =>
      simp only [Option.some.injEq] at h
      subst h
      rw [(requiredLoop_self _ _).1]
      exact hadv

theorem advance_later {argc : Nat} {argv : List String} {i j : Nat}
    {self self' : CommandLineParser} (h : Later argc argv i self j self') :
    Advance self.options_ self'.options_ := by
  induction h with
  | here => exact Advance.adv_refl _
  | step _ _ _ hopt _ ih => exact ih.adv_trans (advance_optionLoop _ _ _ _ _ _ _ hopt)

theorem advance_staysSet {p p' : CommandLineParser} (h : Advance p.options_ p'.options_) :
    StaysSet p p' := by
  intro k hk
  rw [HasOption_eq] at hk ⊢
  simp only [Except.ok.injEq] at hk
  rw [(h k).1 hk]

theorem advance_valuesOfSetOnly {p p' : CommandLineParser}
    (h : Advance p.options_ p'.options_) (hp : ValuesOfSetOnly p) : ValuesOfSetOnly p' := by
  intro k o' ho' hval
  have hg' : OptionMap.get p'.options_ k = o' := get_of_find ho'
  rcases (h k).2 with hv | hs
  · rw [hg'] at hv
    cases hf : OptionMap.find p.options_ k with
    | none =>
      rw [get_of_find_none hf] at hv
      exact absurd hv hval
    | some o =>
      rw [get_of_find hf] at hv
      have hso : o.is_set = true := hp k o hf (by rw [← hv]; exact hval)
      have := (h k).1 (by rw [get_of_find hf]; exact hso)
      rw [hg'] at this
      exact this
  · rw [hg'] at hs
    exact hs

theorem Reaches.later {p : CommandLineParser} {argc : Nat} {argv : List String} {i : Nat}
    {self : CommandLineParser} (h : Reaches p argc argv i self) :
    Later argc argv 1 p i self := by
  induction h with
  | start => exact Later.here
  | step _ hi hh hopt hfound ih => exact Later.step ih hi hh hopt hfound

theorem Later.result {argc : Nat} {argv : List String} {i j : Nat}
    {self self' : CommandLineParser} (h : Later argc argv i self j self')
    (hs : OptionMap.Sorted self.options_) (h1 : 1 ≤ i) :
    1 ≤ j ∧ OptionMap.Sorted self'.options_ ∧
    ∀ fuel, argc ≤ i + fuel → ∃ fuel', argc ≤ j + fuel' ∧
      argLoop argc argv fuel i self = argLoop argc argv fuel' j self' := by
  induction h with
  | here => exact ⟨h1, hs, fun fuel hf => ⟨fuel, hf, rfl⟩⟩
  | @step j self' s _ hj hh hopt hfound ih =>
    obtain ⟨hj1, hs', hfuel⟩ := ih
    rw [optionLoop_begin argc argv _ { self := self', i := j, option_found := false } hs']
      at hopt
    simp only [Option.some.injEq] at hopt
    obtain ⟨st, _⟩ := (visitAll_spec argc argv _ _ _).1 s hopt
    have hle : j ≤ s.i := st.skips.1
    refine ⟨by omega, st.frame.sorted hs', ?_⟩
    intro fuel hf
    obtain ⟨fuel', hf', heq⟩ := hfuel fuel hf
    cases fuel' with
    | zero => omega
    | succ f =>
      refine ⟨f, by omega, ?_⟩
      rw [heq, argLoop_succ argc argv f j self' hs' hj]
      simp only [hh, if_false, hopt, hfound, if_true]

theorem Parse_loopSelf {self : CommandLineParser} {argc : Nat} {argv : List String}
    {r : ParseResult} (h : self.Parse argc argv = some r) :
    ∃ res, argLoop argc argv argc 1 self = some res ∧ r.self = loopSelf res := by
  unfold CommandLineParser.Parse at h
  cases hl : argLoop argc argv argc 1 self with
  | none => rw [hl] at h; cases h
  | some res =>
    rw [hl] at h
    refine ⟨res, rfl, ?_⟩
    cases res with
    | error r' =>
      simp only [Option.some.injEq] at h
      subst h
      rfl
    | ok self1 =>
      simp only [Option.some.injEq] at h
      subst h
      exact (requiredLoop_self _ _).1

theorem get_AddOption_kept (p : CommandLineParser) (n d : String) (al : List String)
    (req : Bool) (ex : List String) (k : String) :
    (OptionMap.get (p.AddOption n d al req ex).options_ k).is_set =
      (OptionMap.get p.options_ k).is_set ∧
    (OptionMap.get (p.AddOption n d al req ex).options_ k).value =
      (OptionMap.get p.options_ k).value := by
  unfold OptionMap.get
  rw [find_AddOption]
  by_cases h : n = k
  · subst h
    simp [OptionMap.get]
  · simp [h]

theorem advance_AddOption (p : CommandLineParser) (n d : String) (al : List String)
    (req : Bool) (ex : List String) :
    Advance p.options_ (p.AddOption n d al req ex).options_ := by
  intro k
  obtain ⟨h1, h2⟩ := get_AddOption_kept p n d al req ex k
  exact ⟨fun h => by rw [h1]; exact h, Or.inl h2⟩

theorem Later.to_result {p : CommandLineParser} {argc : Nat} {argv : List String}
    (hs : OptionMap.Sorted p.options_) {i j : Nat} {self self' : CommandLineParser}
    (hr : Reaches p argc argv i self) (hl : Later argc argv i self j self')
    {r : ParseResult} (hp : p.Parse argc argv = some r) :
    Advance self'.options_ r.self.options_ := by
  obtain ⟨h1, hs', _, _, _, fuel, hfuel, heq⟩ := hr.spec hs
  obtain ⟨_, _, hres⟩ := hl.result hs' h1
  obtain ⟨fuel', _, heq'⟩ := hres fuel hfuel
  obtain ⟨res, hres', hself⟩ := Parse_loopSelf hp
  rw [heq, heq'] at hres'
  rw [hself]
  exact advance_argLoop argc argv fuel' j self' res hres'

/-- C13: the transition of an option from unset to set is one-way. No
`AddOption` call and no step of `Parse` (the exclusivity check, the write of
`is_set` and of the value, the loops over the aliases, the options and the
arguments, whether they run to their end or take an exit) turns an option that
`HasOption` reports as set into one that it does not; hence an option set at
some configuration of the scan is set at every later configuration and in the
state `Parse` leaves behind. -/
theorem is_set_one_way :
    (∀ (p : CommandLineParser) (n d : String) (al : List String) (req : Bool)
      (ex : List String), StaysSet p (p.AddOption n d al req ex)) ∧
    (∀ (arg : String) (L : List String) (self : CommandLineParser),
      StaysSet self (loopSelf (exclusiveLoop arg L self))) ∧
    (∀ (argc : Nat) (argv : List String) (key : String) (s : Scan),
      StaysSet s.self (attach argc argv key s).self) ∧
    (∀ (argc : Nat) (argv : List String) (arg key : String) (L : List String) (s : Scan),
      StaysSet s.self (scanSelf (aliasLoop argc argv arg key L s))) ∧
    (∀ (argc : Nat) (argv : List String) (arg : String) (fuel : Nat) (it : Option String)
      (s : Scan) (res : Except ParseResult Scan),
      optionLoop argc argv arg fuel it s = some res → StaysSet s.self (scanSelf res)) ∧
    (∀ (argc : Nat) (argv : List String) (fuel i : Nat) (self : CommandLineParser)
      (res : Except ParseResult CommandLineParser),
      argLoop argc argv fuel i self = some res → StaysSet self (loopSelf res)) ∧
    (∀ (self : CommandLineParser) (argc : Nat) (argv : List String) (r : ParseResult),
      self.Parse argc argv = some r → StaysSet self r.self) ∧
    (∀ (prog : String) (calls : List AddCall) (args : List String) (i j : Nat)
      (self self' : CommandLineParser) (r : ParseResult),
      Reaches ((CommandLineParser.named prog).addAll calls) (args.length + 1)
        (prog :: args) i self →
      Later (args.length + 1) (prog :: args) i self j self' →
      ((CommandLineParser.named prog).addAll calls).ParseArgs args = some r →
      StaysSet self self' ∧ StaysSet self' r.self) := by
  refine ⟨?_, ?_, ?_, ?_, ?_, ?_, ?_, ?_⟩
  · intro p n d al req ex
    exact advance_staysSet (advance_AddOption p n d al req ex)
  · intro arg L self
    exact advance_staysSet (advance_exclusiveLoop arg L self)
  · intro argc argv key s
    exact advance_staysSet (advance_attach argc argv key s)
  · intro argc argv arg key L s
    exact advance_staysSet (advance_aliasLoop argc argv arg key L s)
  · intro argc argv arg fuel it s res h
    exact advance_staysSet (advance_optionLoop argc argv arg fuel it s res h)
  · intro argc argv fuel i self res h
    exact advance_staysSet (advance_argLoop argc argv fuel i self res h)
  · intro self argc argv r h
    exact advance_staysSet (advance_Parse self argc argv r h)
  · intro prog calls args i j self self' r hr hl hp
    have hreg := Registered.named_addAll prog calls
    have hprog : ((CommandLineParser.named prog).addAll calls).programname_ = prog :=
      programname_addAll _ _
    unfold CommandLineParser.ParseArgs at hp
    rw [hprog] at hp
    exact ⟨advance_staysSet (advance_later hl),
      advance_staysSet (Later.to_result hreg.1 hr hl hp)⟩

/-- C13 at a concrete input: `--a` is set when `Parse` of `--b` starts and is
still set when it has returned. -/
theorem is_set_one_way_witness :
    StaysSet
      { options_ := [("--a", { aliases := ["--a"], is_set := true }),
                     ("--b", { aliases := ["--b"] })]
        required_options_ := []
        programname_ := "prog" }
      { options_ := [("--a", { aliases := ["--a"], is_set := true }),
                     ("--b", { aliases := ["--b"], is_set := true })]
        required_options_ := []
        programname_ := "prog" } :=
  is_set_one_way.2.2.2.2.2.2.1
    { options_ := [("--a", { aliases := ["--a"], is_set := true }),
                   ("--b", { aliases := ["--b"] })]
      required_options_ := []
      programname_ := "prog" }
    2 ["prog", "--b"]
    { self :=
        { options_ := [("--a", { aliases := ["--a"], is_set := true }),
                       ("--b", { aliases := ["--b"], is_set := true })]
          required_options_ := []
          programname_ := "prog" }
      cout := ""
      cerr := ""
      control := .returned }
    (by decide)

/-- C20: in every state reached from a fresh parser by `AddOption` calls
followed by a scan of `Parse`, every option with a non-empty value is set.
The property holds after the `AddOption` calls and is kept by a further
`AddOption` call and by every step of `Parse`: the exclusivity check, the
write of `is_set`, the write of the value after it, and the loops over the
aliases, the options and the arguments, whether they run to their end or take
an exit. -/
theorem value_implies_set :
    (∀ (prog : String) (calls : List AddCall),
      ValuesOfSetOnly ((CommandLineParser.named prog).addAll calls)) ∧
    (∀ (p : CommandLineParser) (n d : String) (al : List String) (req : Bool)
      (ex : List String), ValuesOfSetOnly p → ValuesOfSetOnly (p.AddOption n d al req ex)) ∧
    (∀ (arg : String) (L : List String) (self : CommandLineParser),
      ValuesOfSetOnly self → ValuesOfSetOnly (loopSelf (exclusiveLoop arg L self))) ∧
    (∀ (argc : Nat) (argv : List String) (key : String) (s : Scan),
      ValuesOfSetOnly s.self →
      ValuesOfSetOnly { s.self with
        options_ := OptionMap.modify key (fun o => { o with is_set := true })
          s.self.options_ } ∧
      ValuesOfSetOnly (attach argc argv key s).self) ∧
    (∀ (argc : Nat) (argv : List String) (arg key : String) (L : List String) (s : Scan),
      ValuesOfSetOnly s.self →
      ValuesOfSetOnly (scanSelf (aliasLoop argc argv arg key L s))) ∧
    (∀ (argc : Nat) (argv : List String) (arg : String) (fuel : Nat) (it : Option String)
      (s : Scan) (res : Except ParseResult Scan),
      optionLoop argc argv arg fuel it s = some res → ValuesOfSetOnly s.self →
      ValuesOfSetOnly (scanSelf res)) ∧
    (∀ (argc : Nat) (argv : List String) (fuel i : Nat) (self : CommandLineParser)
      (res : Except ParseResult CommandLineParser),
      argLoop argc argv fuel i self = some res → ValuesOfSetOnly self →
      ValuesOfSetOnly (loopSelf res)) ∧
    (∀ (prog : String) (calls : List AddCall) (args : List String) (i : Nat)
      (self : CommandLineParser),
      Reaches ((CommandLineParser.named prog).addAll calls) (args.length + 1)
        (prog :: args) i self → ValuesOfSetOnly self) ∧
    (∀ (prog : String) (calls : List AddCall) (args : List String) (r : ParseResult),
      ((CommandLineParser.named prog).addAll calls).ParseArgs args = some r →
      ValuesOfSetOnly r.self) := by
  have hbuilt : ∀ (prog : String) (calls : List AddCall),
      ValuesOfSetOnly ((CommandLineParser.named prog).addAll calls) := by
    intro prog calls k o hk hval
    exact absurd ((Registered.named_addAll prog calls).2 k o hk).2.1 hval
  refine ⟨hbuilt, ?_, ?_, ?_, ?_, ?_, ?_, ?_, ?_⟩
  · intro p n d al req ex h
    exact advance_valuesOfSetOnly (advance_AddOption p n d al req ex) h
  · intro arg L self h
    exact advance_valuesOfSetOnly (advance_exclusiveLoop arg L self) h
  · intro argc argv key s h
    refine ⟨?_, advance_valuesOfSetOnly (advance_attach argc argv key s) h⟩
    exact advance_valuesOfSetOnly (advance_mark key s.self.options_) h
  · intro argc argv arg key L s h
    exact advance_valuesOfSetOnly (advance_aliasLoop argc argv arg key L s) h
  · intro argc argv arg fuel it s res hres h
    exact advance_valuesOfSetOnly (advance_optionLoop argc argv arg fuel it s res hres) h
  · intro argc argv fuel i self res hres h
    exact advance_valuesOfSetOnly (advance_argLoop argc argv fuel i self res hres) h
  · intro prog calls args i self hr
    exact advance_valuesOfSetOnly (advance_later hr.later) (hbuilt prog calls)
  · intro prog calls args r hp
    exact advance_valuesOfSetOnly (advance_Parse _ _ _ r hp) (hbuilt prog calls)

/-- C20 at a concrete input: after `Parse` of `--file out.txt` the option
`--file` carries the value and is set. -/
theorem value_implies_set_witness :
    ValuesOfSetOnly
      { options_ := [("--file", { aliases := ["--file"], is_set := true, value := "out.txt" })]
        required_options_ := []
        programname_ := "prog" } :=
  value_implies_set.2.2.2.2.2.2.2.2 "prog" [{ option_name := "--file" }]
    ["--file", "out.txt"]
    { self :=
        { options_ :=
            [("--file", { aliases := ["--file"], is_set := true, value := "out.txt" })]
          required_options_ := []
          programname_ := "prog" }
      cout := ""
      cerr := ""
      control := .returned }
    (by decide)

/-! ## The usage text -/

theorem PrintUsage_eq_usageText (p : CommandLineParser)
    (h : ∀ e ∈ p.options_, (e.2.mutually_exclusive = true ↔
      e.2.mutually_exclusive_options ≠ [])) :
    p.PrintUsage = usageText p.programname_ p.options_ := by
  unfold CommandLineParser.PrintUsage usageText
  have hmap : (p.options_.map fun pair =>
      "  " ++ String.join (pair.2.aliases.map fun alias_ => alias_ ++ ", ") ++
      endl ++ "      " ++ pair.2.description ++ endl ++
      (if pair.2.mutually_exclusive then
        "      Mutually exclusive with:" ++
        String.join (pair.2.mutually_exclusive_options.map fun mutually_exclusive_option =>
          " " ++ mutually_exclusive_option) ++ endl
      else "")) = p.options_.map fun e => usageEntry e.2 := by
    apply List.map_congr_left
    intro e he
    unfold usageEntry usageLine endl
    have hflag := h e he
    by_cases hm : e.2.mutually_exclusive = true
    · simp only [hm, if_true, hflag.1 hm, ne_eq, not_false_eq_true, String.append_assoc]
    · have hn : ¬ e.2.mutually_exclusive_options ≠ [] := fun hc => hm (hflag.2 hc)
      simp only [hm, hn, if_false, String.append_assoc, Bool.false_eq_true]
  rw [hmap]
  unfold usageLine endl
  simp only [String.append_assoc]

theorem get_AddOption_exclusive (p : CommandLineParser) (n d : String) (al : List String)
    (req : Bool) (ex : List String) (k : String) :
    (OptionMap.get (p.AddOption n d al req ex).options_ k).mutually_exclusive_options =
      (OptionMap.get p.options_ k).mutually_exclusive_options ++
        (if n = k then ex else []) := by
  unfold OptionMap.get
  rw [find_AddOption]
  by_cases h : n = k
  · subst h
    simp [OptionMap.get]
  · simp [h]

theorem get_addAll_exclusive (p : CommandLineParser) (calls : List AddCall) (k : String) :
    (OptionMap.get (p.addAll calls).options_ k).mutually_exclusive_options =
      (OptionMap.get p.options_ k).mutually_exclusive_options ++
        ((calls.filter fun c => c.option_name = k).map
          fun c => c.mutually_exclusives).flatten := by
  induction calls generalizing p with
  | nil => simp [CommandLineParser.addAll]
  | cons c rest ih =>
    rw [addAll_cons, ih, get_AddOption_exclusive]
    by_cases h : c.option_name = k
    · simp [List.filter_cons, h]
    · simp [List.filter_cons, h]

theorem Frame.exclusive_flag {T : String → Prop} {p : CommandLineParser} {m' : OptionMap}
    (hreg : Registered p) (fr : Frame T p.options_ m') :
    ∀ e ∈ m', (e.2.mutually_exclusive = true ↔ e.2.mutually_exclusive_options ≠ []) := by
  intro e he
  have hf : OptionMap.find m' e.1 = some e.2 := mem_find (fr.sorted hreg.1) he
  cases hfp : OptionMap.find p.options_ e.1 with
  | none =>
    rcases fr.absent e.1 hfp with h | ⟨h, _⟩
    · rw [h] at hf; cases hf
    · rw [h] at hf
      simp only [Option.some.injEq] at hf
      rw [← hf]
      simp
  | some o =>
    obtain ⟨o', ho', _, _, a3, a4, _⟩ := fr.present e.1 o hfp
    rw [ho'] at hf
    simp only [Option.some.injEq] at hf
    subst hf
    rw [a3, a4]
    exact (hreg.2 e.1 o hfp).2.2.1

/-- C14: for a registry built by `AddOption`, before `Parse` and in the state
`Parse` leaves behind, the text that `PrintUsage` writes is the line
`Usage: <programname> [options]` and the line `Options:` followed, for each
registry entry in ascending key order, by a line of two spaces and each alias
followed by a comma and a space, a line of six spaces and the description,
and, exactly when the exclusivity list of the entry is not empty, which is
when a registration of the entry passed a non-empty list, a line
`      Mutually exclusive with:` followed by a space and the name for each
name of the list; the program name of a default-constructed parser is
`[program]`. -/
theorem usage_text_format (prog : String) (calls : List AddCall) :
    ((CommandLineParser.named prog).addAll calls).PrintUsage =
      usageText prog ((CommandLineParser.named prog).addAll calls).options_ ∧
    OptionMap.Sorted ((CommandLineParser.named prog).addAll calls).options_ ∧
    (∀ e ∈ ((CommandLineParser.named prog).addAll calls).options_,
      (e.2.mutually_exclusive_options ≠ [] ↔
        ∃ c ∈ calls, c.option_name = e.1 ∧ c.mutually_exclusives ≠ [])) ∧
    (∀ args r, ((CommandLineParser.named prog).addAll calls).ParseArgs args = some r →
      r.self.PrintUsage = usageText prog r.self.options_ ∧
      OptionMap.Sorted r.self.options_) ∧
    CommandLineParser.new = CommandLineParser.named "[program]" ∧
    CommandLineParser.new.programname_ = "[program]" := by
  have hreg := Registered.named_addAll prog calls
  have hprog : ((CommandLineParser.named prog).addAll calls).programname_ = prog :=
    programname_addAll _ _
  refine ⟨?_, hreg.1, ?_, ?_, rfl, rfl⟩
  · rw [PrintUsage_eq_usageText _
      ((Frame.frame_refl (fun _ => False) _).exclusive_flag hreg), hprog]
  · intro e he
    have hg := get_of_find (mem_find hreg.1 he)
    have hx := get_addAll_exclusive (CommandLineParser.named prog) calls e.1
    rw [hg] at hx
    rw [hx]
    simp only [CommandLineParser.named, OptionMap.get, OptionMap.find, Option.getD_none,
      List.nil_append, ne_eq, List.flatten_eq_nil_iff, List.mem_map, List.mem_filter,
      decide_eq_true_eq, not_forall]
    constructor
    · rintro ⟨l, ⟨c, ⟨hc, hn⟩, rfl⟩, hne⟩
      exact ⟨c, hc, hn, hne⟩
    · rintro ⟨c, hc, hn, hne⟩
      exact ⟨_, ⟨c, ⟨hc, hn⟩, rfl⟩, hne⟩
  · intro args r hp
    obtain ⟨r', hr', fr, _, hpn, _⟩ := ParseArgs_spec _ args hreg.1
    rw [hp] at hr'
    simp only [Option.some.injEq] at hr'
    subst hr'
    rw [PrintUsage_eq_usageText _ (fr.exclusive_flag hreg), hpn, hprog]
    exact ⟨rfl, fr.sorted hreg.1⟩

/-- C14 at a concrete input: the usage text of a registry with the options
`--b`, exclusive with `--a`, and `--a` with the alias `-a`. -/
theorem usage_text_format_witness :
    ((CommandLineParser.named "prog").addAll
        [{ option_name := "--b", option_description := "second",
           mutually_exclusives := ["--a"] },
         { option_name := "--a", option_description := "first", aliases := ["-a"] }]).PrintUsage
      = "Usage: prog [options]\nOptions:\n  --a, -a, \n      first\n  --b, \n      second\n      Mutually exclusive with: --a\n" := by
  rw [(usage_text_format "prog"
    [{ option_name := "--b", option_description := "second",
       mutually_exclusives := ["--a"] },
     { option_name := "--a", option_description := "first", aliases := ["-a"] }]).1]
  decide

/-! ## Reads of the argument vector -/

theorem readArg_ok {argv : List String} {i : Nat} (h : i < argv.length) :
    readArg argv i = .ok (argv.getD i "") := by
  unfold readArg
  rw [List.getD_eq_getElem _ _ h, List.getElem?_eq_getElem h]

theorem attachChecked_eq (argc : Nat) (argv : List String) (key : String) (s : Scan)
    (hlen : argc ≤ argv.length) :
    attachChecked argc argv key s = .ok (attach argc argv key s) := by
  unfold attachChecked attach
  simp only
  by_cases h1 : s.i + 1 < argc
  · rw [readArg_ok (by omega)]
    by_cases h2 : front (argv.getD (s.i + 1) "") ≠ '-'
    · simp only [h1, h2, if_true, and_self, ne_eq, not_false_eq_true]
    · simp only [h1, h2, if_true, if_false, and_false]
  · simp only [h1, if_false, false_and]

theorem aliasLoopChecked_eq (argc : Nat) (argv : List String) (arg key : String)
    (hlen : argc ≤ argv.length) :
    ∀ (L : List String) (s : Scan),
      aliasLoopChecked argc argv arg key L s = .ok (aliasLoop argc argv arg key L s) := by
  intro L
  induction L with
  | nil => intro s; rfl
  | cons a rest ih =>
    intro s
    by_cases harg : arg = a
    · subst harg
      simp only [aliasLoopChecked, aliasLoop, if_true]
      cases exclusiveCheck arg key s.self with
      | error r => rfl
      | ok self1 =>
        simp only [attachChecked_eq argc argv key _ hlen]
        exact ih _
    · simp only [aliasLoopChecked, aliasLoop, harg, if_false]
      exact ih s

theorem optionLoopChecked_eq (argc : Nat) (argv : List String) (arg : String)
    (hlen : argc ≤ argv.length) :
    ∀ (fuel : Nat) (it : Option String) (s : Scan),
      optionLoopChecked argc argv arg fuel it s = .ok (optionLoop argc argv arg fuel it s) := by
  intro fuel
  induction fuel with
  | zero =>
    intro it s
    cases it <;> rfl
  | succ fuel ih =>
    intro it s
    cases it with
    | none => rfl
    | some key =>
      simp only [optionLoopChecked, optionLoop, aliasLoopChecked_eq argc argv arg key hlen]
      cases aliasLoop argc argv arg key (OptionMap.get s.self.options_ key).aliases s with
      | error r => rfl
      | ok s1 => exact ih _ _

theorem argLoopChecked_eq (argc : Nat) (argv : List String) (hlen : argc ≤ argv.length) :
    ∀ (fuel i : Nat) (self : CommandLineParser),
      argLoopChecked argc argv fuel i self = .ok (argLoop argc argv fuel i self) := by
  intro fuel
  induction fuel with
  | zero =>
    intro i self
    rw [argLoopChecked, argLoop]
    split <;> rfl
  | succ fuel ih =>
    intro i self
    rw [argLoopChecked, argLoop]
    by_cases hi : i < argc
    · simp only [hi, if_true, readArg_ok (Nat.lt_of_lt_of_le hi hlen)]
      by_cases hh : isHelp (argv.getD i "")
      · simp only [hh, if_true]
      · simp only [hh, if_false, optionLoopChecked_eq argc argv _ hlen]
        cases optionLoop argc argv (argv.getD i "") (optionFuel self.options_)
            (OptionMap.begin self.options_)
            { self := self, i := i, option_found := false } with
        | none => rfl
        | some res =>
          cases res with
          | error r => rfl
          | ok s =>
            simp only
            split
            · exact ih _ _
            · rfl
    · simp only [hi, if_false]

theorem ParseChecked_eq (self : CommandLineParser) (argc : Nat) (argv : List String)
    (hlen : argc ≤ argv.length) :
    self.ParseChecked argc argv = .ok (self.Parse argc argv) := by
  unfold CommandLineParser.ParseChecked CommandLineParser.Parse
  rw [argLoopChecked_eq argc argv hlen]
  cases argLoop argc argv argc 1 self with
  | none => rfl
  | some res => cases res <;> rfl

/-- C18: for a registry built by `AddOption` and every argument vector, the
scan of `Parse` stops, and it never reads outside the argument vector: the
scan in which every read `argv[i]` and `argv[i + 1]` fails when its index is
not below `argc` yields, without such a failure, the result of `Parse`.
Duplicate aliases of one option and aliases shared by several options, which
advance the scan index more than once within one iteration, are included. -/
theorem parse_terminates_in_bounds (prog : String) (calls : List AddCall)
    (args : List String) :
    ∃ r, ((CommandLineParser.named prog).addAll calls).ParseArgs args = some r ∧
      ((CommandLineParser.named prog).addAll calls).ParseChecked (args.length + 1)
        (prog :: args) = .ok (some r) := by
  have hreg := Registered.named_addAll prog calls
  have hprog : ((CommandLineParser.named prog).addAll calls).programname_ = prog :=
    programname_addAll _ _
  obtain ⟨r, hr, _⟩ := ParseArgs_spec _ args hreg.1
  refine ⟨r, hr, ?_⟩
  rw [ParseChecked_eq _ _ _ (by simp)]
  unfold CommandLineParser.ParseArgs at hr
  rw [hprog] at hr
  rw [hr]

/-! ## What `Parse` leaves unchanged -/

theorem ParseChecked_detects :
    CommandLineParser.new.ParseChecked 2 ["prog"] = .error .out_of_bounds := by
  decide

theorem argLoop_visited {p : CommandLineParser} {argc : Nat} {argv : List String}
    (hs : OptionMap.Sorted p.options_) :
    ∀ (fuel i : Nat) (self : CommandLineParser), Reaches p argc argv i self →
      argc ≤ i + fuel →
      ∃ res, argLoop argc argv fuel i self = some res ∧
        Frame (Visited p argc argv) self.options_ (loopSelf res).options_ := by
  intro fuel
  induction fuel with
  | zero =>
    intro i self _ hf
    exact ⟨.ok self, argLoop_done _ _ _ _ _ (by omega), Frame.frame_refl _ _⟩
  | succ fuel ih =>
    intro i self hr hf
    obtain ⟨h1, hs', _⟩ := hr.spec hs
    by_cases hi : i < argc
    · have hvis : ∀ a, a = argv.getD i "" → Visited p argc argv a :=
        fun a ha => ⟨i, self, hr, hi, ha.symm⟩
      rw [argLoop_succ argc argv fuel i self hs' hi]
      by_cases hh : isHelp (argv.getD i "")
      · simp only [hh, if_true]
        exact ⟨_, rfl, Frame.frame_refl _ _⟩
      · simp only [hh, if_false]
        obtain ⟨vok, verr⟩ := visitAll_spec argc argv (argv.getD i "")
          (OptionMap.keys self.options_) { self := self, i := i, option_found := false }
        cases hv : visitAll argc argv (argv.getD i "") (OptionMap.keys self.options_)
            { self := self, i := i, option_found := false } with
        | error r =>
          exact ⟨_, rfl, ((verr r hv).1.frame).mono hvis⟩
        | ok s =>
          obtain ⟨st, _⟩ := vok s hv
          simp only []
          cases hf' : s.option_found with
          | true =>
            simp only [if_true]
            have hle : i ≤ s.i := st.skips.1
            obtain ⟨res, hres, hfr⟩ := ih (s.i + 1) s.self (hr.next hs' hi hh hv hf')
              (by omega)
            exact ⟨res, hres, (st.frame.mono hvis).frame_trans hfr⟩
          | false =>
            simp only [Bool.false_eq_true, if_false]
            exact ⟨_, rfl, st.frame.mono hvis⟩
    · exact ⟨.ok self, argLoop_done _ _ _ _ _ hi, Frame.frame_refl _ _⟩

/-- C19: `Parse` changes only `is_set` and `value`. For a registry built by
`AddOption` and every argument list, in the state `Parse` leaves behind every
entry present before the call is present with the same description, alias
list, exclusivity flag and exclusivity list, the required-options sequence
and the program name are the same, and a key that was absent before is absent
or holds a default entry and is named in the exclusivity list of an option one
of whose aliases was scanned. -/
theorem parse_changes_only_state (prog : String) (calls : List AddCall)
    (args : List String) (r : ParseResult)
    (hparse : ((CommandLineParser.named prog).addAll calls).ParseArgs args = some r) :
    (∀ e ∈ ((CommandLineParser.named prog).addAll calls).options_,
      ∃ o', OptionMap.find r.self.options_ e.1 = some o' ∧
        o'.description = e.2.description ∧ o'.aliases = e.2.aliases ∧
        o'.mutually_exclusive = e.2.mutually_exclusive ∧
        o'.mutually_exclusive_options = e.2.mutually_exclusive_options) ∧
    r.self.required_options_ =
      ((CommandLineParser.named prog).addAll calls).required_options_ ∧
    r.self.programname_ = prog ∧
    (∀ k, k ∉ OptionMap.keys ((CommandLineParser.named prog).addAll calls).options_ →
      OptionMap.find r.self.options_ k = none ∨
      (OptionMap.find r.self.options_ k = some {} ∧
        ∃ e ∈ ((CommandLineParser.named prog).addAll calls).options_,
          k ∈ e.2.mutually_exclusive_options ∧
          ∃ a ∈ e.2.aliases,
            Visited ((CommandLineParser.named prog).addAll calls) (args.length + 1)
              (prog :: args) a)) := by
  have hreg := Registered.named_addAll prog calls
  have hprog : ((CommandLineParser.named prog).addAll calls).programname_ = prog :=
    programname_addAll _ _
  generalize hp : (CommandLineParser.named prog).addAll calls = p at hreg hprog hparse ⊢
  obtain ⟨r', hr', fr0, hreq, hpn, _⟩ := ParseArgs_spec p args hreg.1
  rw [hparse] at hr'
  simp only [Option.some.injEq] at hr'
  subst hr'
  unfold CommandLineParser.ParseArgs at hparse
  rw [hprog] at hparse
  obtain ⟨res, hres, hself⟩ := Parse_loopSelf hparse
  obtain ⟨res', hres', fr⟩ := argLoop_visited hreg.1 (args.length + 1) 1 p
    (Reaches.start : Reaches p (args.length + 1) (prog :: args) 1 p) (by omega)
  rw [hres] at hres'
  simp only [Option.some.injEq] at hres'
  subst hres'
  rw [← hself] at fr
  refine ⟨?_, hreq, hpn.trans hprog, ?_⟩
  · intro e he
    obtain ⟨o', ho', a1, a2, a3, a4, _⟩ := fr0.present e.1 e.2 (mem_find hreg.1 he)
    exact ⟨o', ho', a1, a2, a3, a4⟩
  · intro k hk
    rcases fr.absent k ((find_eq_none_iff _ _).2 hk) with h | ⟨h, k0, o0, hk0, hmem, a, ha, hva⟩
    · exact Or.inl h
    · exact Or.inr ⟨h, (k0, o0), find_mem hk0, hmem, a, ha, hva⟩

/-- C19 at a concrete input: `--a` is registered as exclusive with the
unregistered name `--ghost`; `Parse` of `--a` keeps the entry of `--a` but
for `is_set` and leaves the required-options sequence as it was. -/
theorem parse_changes_only_state_witness :
    (((CommandLineParser.named "prog").addAll
        [{ option_name := "--a", option_description := "first", required := true,
           mutually_exclusives := ["--ghost"] }]).ParseArgs ["--a"]).map
      (fun r => (r.self.required_options_, r.self.programname_,
        r.self.GetOptionDescription "--a"))
      = some (["--a"], "prog", .ok "first") := by
  cases hr : ((CommandLineParser.named "prog").addAll
        [{ option_name := "--a", option_description := "first", required := true,
           mutually_exclusives := ["--ghost"] }]).ParseArgs ["--a"] with
  | none => exact absurd hr (by decide)
  | some r =>
    have h := parse_changes_only_state "prog"
      [{ option_name := "--a", option_description := "first", required := true,
         mutually_exclusives := ["--ghost"] }] ["--a"] r hr
    obtain ⟨o', ho', hd, _⟩ := h.1
      ("--a", { description := "first", aliases := ["--a"], mutually_exclusive := true,
                mutually_exclusive_options := ["--ghost"] }) (by decide)
    have hreq : r.self.required_options_ = ["--a"] := h.2.1.trans (by decide)
    have hpn := h.2.2.1
    simp only at hd
    simp only [Option.map_some', GetOptionDescription_eq, ho', hd, hreq, hpn]

/-! ## One token of lookahead -/

theorem aliasLoop_once (argc : Nat) (argv : List String) (arg key : String) :
    ∀ (L : List String) (s : Scan), L.count arg ≤ 1 → arg ∈ L →
      aliasLoop argc argv arg key L s =
        match exclusiveCheck arg key s.self with
        | .error r => .error r
        | .ok self1 =>
          .ok (attach argc argv key { self := self1, i := s.i, option_found := true }) := by
  intro L
  induction L with
  | nil => intro s _ h; simp at h
  | cons a rest ih =>
    intro s hc hm
    by_cases harg : arg = a
    · subst harg
      have hrest : arg ∉ rest := by
        intro hin
        rw [List.count_cons_self] at hc
        have := List.count_pos_iff.2 hin
        omega
      simp only [aliasLoop, if_true]
      cases exclusiveCheck arg key s.self with
      | error r => rfl
      | ok self1 =>
        simp only []
        exact aliasLoop_nomatch argc argv arg key rest _ hrest
    · simp only [aliasLoop, harg, if_false]
      apply ih s
      · rwa [List.count_cons_of_ne harg] at hc
      · rcases List.mem_cons.1 hm with h | h
        · exact absurd h harg
        · exact h

theorem ListedOnce.of_frame {T : String → Prop} {m m' : OptionMap} {t : String}
    (fr : Frame T m m') (h : ListedOnce m t) : ListedOnce m' t := by
  refine ⟨fun k => ?_, fun k1 k2 h1 h2 => ?_⟩
  · rw [fr.get_aliases]; exact h.1 k
  · rw [fr.get_aliases] at h1 h2
    exact h.2 k1 k2 h1 h2

theorem attach_get (argc : Nat) (argv : List String) (key : String) (s : Scan)
    {o : CliOption} (ho : OptionMap.find s.self.options_ key = some o) :
    (attach argc argv key s).i ≤ s.i + 1 ∧
    (∀ k, k ≠ key → OptionMap.get (attach argc argv key s).self.options_ k =
      OptionMap.get s.self.options_ k) ∧
    (OptionMap.get (attach argc argv key s).self.options_ key = { o with is_set := true } ∨
      (s.i + 1 < argc ∧
        OptionMap.get (attach argc argv key s).self.options_ key =
          { o with is_set := true, value := argv.getD (s.i + 1) "" })) := by
  have ho2 : OptionMap.find
      (OptionMap.modify key (fun o => { o with is_set := true }) s.self.options_) key
      = some { o with is_set := true } := by
    rw [find_modify]; simp [ho]
  unfold attach
  simp only
  split
  · rename_i hval
    refine ⟨le_refl _, ?_, Or.inr ⟨hval.1, ?_⟩⟩
    · intro k hk
      have hk' : ¬ key = k := fun e => hk e.symm
      simp only [get_modify, hk', false_and, if_false]
    · simp only [get_modify]
      simp [ho2, ho, OptionMap.get]
  · refine ⟨Nat.le_succ _, ?_, Or.inl ?_⟩
    · intro k hk
      have hk' : ¬ key = k := fun e => hk e.symm
      simp only [get_modify, hk', false_and, if_false]
    · simp only [OptionMap.get, ho2, Option.getD_some]

/-- One iteration of the loop over the arguments at a token listed at most
once: the index moves over at most one further token, and every value is
still empty or the token right after an alias. -/
theorem token_attached (argc : Nat) (argv : List String) (i : Nat)
    (self : CommandLineParser) (hs : OptionMap.Sorted self.options_) (h1 : 1 ≤ i)
    (hu : ListedOnce self.options_ (argv.getD i ""))
    (hatt : ∀ k, Attached argc argv (OptionMap.get self.options_ k))
    (s : Scan)
    (hv : visitAll argc argv (argv.getD i "") (OptionMap.keys self.options_)
      { self := self, i := i, option_found := false } = .ok s) :
    s.i ≤ i + 1 ∧ ∀ k, Attached argc argv (OptionMap.get s.self.options_ k) := by
  by_cases hex : ∃ n ∈ OptionMap.keys self.options_,
      argv.getD i "" ∈ (OptionMap.get self.options_ n).aliases
  · obtain ⟨n, hn, hal⟩ := hex
    rw [visitAll_single argc argv (argv.getD i "") n (OptionMap.keys self.options_)
      { self := self, i := i, option_found := false } (keys_nodup hs) hn
      (fun k _ hk hmem => hk (hu.2 k n hmem hal)),
      aliasLoop_once argc argv (argv.getD i "") n _ _ (hu.1 n) hal] at hv
    obtain ⟨o, ho⟩ := Option.isSome_iff_exists.1 (get_aliases_present hal)
    cases hc : exclusiveCheck (argv.getD i "") n self with
    | error r => rw [hc] at hv; cases hv
    | ok self1 =>
      rw [hc] at hv
      simp only [Except.ok.injEq] at hv
      obtain ⟨g, _⟩ := exclusiveCheck_ok (T := fun a => a = argv.getD i "")
        (get_aliases_present hal) ⟨_, hal, rfl⟩ hc
      have ho1 : OptionMap.find self1.options_ n = some o := g.find_some ho
      obtain ⟨hi, hother, hkey⟩ := attach_get argc argv n
        { self := self1, i := i, option_found := true } ho1
      rw [hv] at hi hother hkey
      refine ⟨hi, fun k => ?_⟩
      by_cases hk : k = n
      · subst hk
        have hbefore := hatt k
        rw [get_of_find ho] at hbefore hal
        rcases hkey with hkey | ⟨hlt, hkey⟩
        · rw [hkey]
          exact hbefore
        · rw [hkey]
          exact Or.inr ⟨i, h1, hlt, hal, rfl⟩
      · rw [hother k hk, g.get_eq]
        exact hatt k
  · rw [visitAll_nomatch argc argv _ _ _ (fun k hk hmem => hex ⟨k, hk, hmem⟩)] at hv
    simp only [Except.ok.injEq] at hv
    subst hv
    exact ⟨Nat.le_succ _, hatt⟩

theorem argLoop_attached (argc : Nat) (argv : List String) :
    ∀ (fuel i : Nat) (self : CommandLineParser), OptionMap.Sorted self.options_ → 1 ≤ i →
      (∀ t, Scanned argc argv t → ListedOnce self.options_ t) →
      (∀ k, Attached argc argv (OptionMap.get self.options_ k)) →
      ∀ self', argLoop argc argv fuel i self = some (.ok self') →
        ∀ k, Attached argc argv (OptionMap.get self'.options_ k) := by
  intro fuel
  induction fuel with
  | zero =>
    intro i self _ _ _ hatt self' h
    rw [argLoop] at h
    split at h
    · cases h
    · simp only [Option.some.injEq, Except.ok.injEq] at h
      subst h
      exact hatt
  | succ fuel ih =>
    intro i self hs h1 hu hatt self' h
    by_cases hi : i < argc
    · rw [argLoop_succ argc argv fuel i self hs hi] at h
      split at h
      · cases h
      · cases hv : visitAll argc argv (argv.getD i "") (OptionMap.keys self.options_)
            { self := self, i := i, option_found := false } with
        | error r => rw [hv] at h; cases h
        | ok s =>
          rw [hv] at h
          simp only at h
          obtain ⟨st, _⟩ := (visitAll_spec argc argv _ _ _).1 s hv
          obtain ⟨_, hatt'⟩ := token_attached argc argv i self hs h1
            (hu _ ⟨i, h1, hi, rfl⟩) hatt s hv
          split at h
          · have hle : i ≤ s.i := st.skips.1
            exact ih (s.i + 1) s.self (st.frame.sorted hs) (by omega)
              (fun t ht => (hu t ht).of_frame st.frame) hatt' self' h
          · cases h
    · rw [argLoop_done _ _ _ _ _ hi] at h
      simp only [Option.some.injEq, Except.ok.injEq] at h
      subst h
      exact hatt

/-- Counterexample to C15 as stated: `--f` is registered with itself as an
alias, so that its alias list names `--f` twice. `Parse` of `--f a b` returns
normally, the one option token has consumed both `a` and `b`, and the value
of `--f` is `b`, which stands after `a` and after no occurrence of `--f`. -/
theorem repeated_alias_consumes_two :
    (((CommandLineParser.named "prog").addAll
        [{ option_name := "--f", aliases := ["--f"] }]).ParseArgs ["--f", "a", "b"]).map
      (fun r => (r.control, r.self.GetOptionValue "--f",
        (OptionMap.get r.self.options_ "--f").aliases))
      = some (.returned, .ok "b", ["--f", "--f"]) ∧
    (∀ j < 2, ["--f", "a", "b"].getD j "" ∈ ["--f", "--f"] →
      ["--f", "a", "b"].getD (j + 1) "" ≠ "b") ∧
    (optionLoop 4 ["prog", "--f", "a", "b"] "--f"
        (optionFuel ((CommandLineParser.named "prog").addAll
          [{ option_name := "--f", aliases := ["--f"] }]).options_)
        (OptionMap.begin ((CommandLineParser.named "prog").addAll
          [{ option_name := "--f", aliases := ["--f"] }]).options_)
        { self := (CommandLineParser.named "prog").addAll
            [{ option_name := "--f", aliases := ["--f"] }],
          i := 1, option_found := false }).map
      (fun res => match res with
        | .ok s => some s.i
        | .error _ => none)
      = some (some 3) := by
  decide

theorem listedOnce_of_entries {p : CommandLineParser} {t : String}
    (h1 : ∀ e ∈ p.options_, e.2.aliases.count t ≤ 1)
    (h2 : ∀ e1 ∈ p.options_, ∀ e2 ∈ p.options_,
      t ∈ e1.2.aliases → t ∈ e2.2.aliases → e1.1 = e2.1) :
    ListedOnce p.options_ t := by
  refine ⟨fun k => ?_, fun k1 k2 m1 m2 => ?_⟩
  · cases hf : OptionMap.find p.options_ k with
    | none => simp [OptionMap.get, hf]
    | some o =>
      rw [get_of_find hf]
      exact h1 (k, o) (find_mem hf)
  · obtain ⟨o1, ho1⟩ := Option.isSome_iff_exists.1 (get_aliases_present m1)
    obtain ⟨o2, ho2⟩ := Option.isSome_iff_exists.1 (get_aliases_present m2)
    rw [get_of_find ho1] at m1
    rw [get_of_find ho2] at m2
    exact h2 (k1, o1) (find_mem ho1) (k2, o2) (find_mem ho2) m1 m2

theorem reaches_attached {p : CommandLineParser} {argc : Nat} {argv : List String}
    (hs : OptionMap.Sorted p.options_)
    (hu : ∀ t, Scanned argc argv t → ListedOnce p.options_ t)
    (hatt : ∀ k, Attached argc argv (OptionMap.get p.options_ k))
    {i : Nat} {self : CommandLineParser} (h : Reaches p argc argv i self) :
    ∀ k, Attached argc argv (OptionMap.get self.options_ k) := by
  induction h with
  | start => exact hatt
  | @step i self s hr hi _ hopt _ ih =>
    obtain ⟨h1, hs', fr, _⟩ := hr.spec hs
    rw [optionLoop_begin argc argv _ { self := self, i := i, option_found := false } hs'] at hopt
    simp only [Option.some.injEq] at hopt
    exact (token_attached argc argv i self hs' h1
      ((hu _ ⟨i, h1, hi, rfl⟩).of_frame fr) ih s hopt).2

/-- C15, amended: value attachment uses one token of lookahead when no token
of the argument list is listed twice. For a registry built by `AddOption` in
which every token of the argument list occurs at most once in the alias list
of each option and in the alias list of at most one option, and an argument
list on which `Parse` returns normally: every entry whose value is not empty
holds the token that stands in the argument list right after an occurrence of
one of its aliases, and every iteration of the loop over the arguments that
finishes its scan of the options leaves the index at most one token further. -/
theorem value_follows_alias (prog : String) (calls : List AddCall)
    (args : List String) (r : ParseResult)
    (honce : ∀ t ∈ args, ∀ e ∈ ((CommandLineParser.named prog).addAll calls).options_,
      e.2.aliases.count t ≤ 1)
    (hone : ∀ t ∈ args, ∀ e1 ∈ ((CommandLineParser.named prog).addAll calls).options_,
      ∀ e2 ∈ ((CommandLineParser.named prog).addAll calls).options_,
      t ∈ e1.2.aliases → t ∈ e2.2.aliases → e1.1 = e2.1)
    (hparse : ((CommandLineParser.named prog).addAll calls).ParseArgs args = some r)
    (hreturned : r.control = .returned) :
    (∀ e ∈ r.self.options_, e.2.value ≠ "" →
      ∃ j, j + 1 < args.length ∧ args.getD j "" ∈ e.2.aliases ∧
        e.2.value = args.getD (j + 1) "") ∧
    (∀ i self s,
      Reaches ((CommandLineParser.named prog).addAll calls) (args.length + 1)
        (prog :: args) i self →
      i < args.length + 1 → ¬ isHelp ((prog :: args).getD i "") →
      optionLoop (args.length + 1) (prog :: args) ((prog :: args).getD i "")
        (optionFuel self.options_) (OptionMap.begin self.options_)
        { self := self, i := i, option_found := false } = some (.ok s) →
      s.i ≤ i + 1) := by
  have hreg := Registered.named_addAll prog calls
  have hprog : ((CommandLineParser.named prog).addAll calls).programname_ = prog :=
    programname_addAll _ _
  generalize hp : (CommandLineParser.named prog).addAll calls = p
    at hreg hprog hparse honce hone ⊢
  have hu : ∀ t, Scanned (args.length + 1) (prog :: args) t → ListedOnce p.options_ t :=
    fun t ht => listedOnce_of_entries (honce t (scanned_mem ht))
      (hone t (scanned_mem ht))
  have hatt0 : ∀ k, Attached (args.length + 1) (prog :: args) (OptionMap.get p.options_ k) := by
    intro k
    cases hf : OptionMap.find p.options_ k with
    | none => left; simp [OptionMap.get, hf]
    | some o =>
      rw [get_of_find hf]
      exact Or.inl (hreg.2 k o hf).2.1
  refine ⟨?_, ?_⟩
  · unfold CommandLineParser.ParseArgs at hparse
    rw [hprog] at hparse
    obtain ⟨res, hres, hend⟩ := argLoop_spec (args.length + 1) (prog :: args)
      (args.length + 1) 1 p hreg.1 (le_refl _) (by omega)
    unfold CommandLineParser.Parse at hparse
    rw [hres] at hparse
    cases res with
    | error r' =>
      simp only [Option.some.injEq] at hparse
      subst hparse
      obtain ⟨_, _, _, j, _, _, _, hx⟩ := hend
      rcases hx with ⟨hc, _⟩ | ⟨hc, _⟩ | ⟨hc, _⟩ <;> rw [hc] at hreturned <;> cases hreturned
    | ok self1 =>
      simp only [Option.some.injEq] at hparse
      subst hparse
      have hatt := argLoop_attached (args.length + 1) (prog :: args) (args.length + 1) 1 p
        hreg.1 (le_refl _) hu hatt0 self1 hres
      have hs1 : OptionMap.Sorted self1.options_ := hend.1.sorted hreg.1
      intro e he hval
      rw [(requiredLoop_self _ _).1] at he
      have hk := hatt e.1
      rw [get_of_find (mem_find hs1 he)] at hk
      rcases hk with hk | ⟨j, h1, hlt, hal, hv⟩
      · exact absurd hk hval
      · obtain ⟨k, rfl⟩ : ∃ k, j = k + 1 := ⟨j - 1, by omega⟩
        rw [getD_cons_succ'] at hal hv
        exact ⟨k, by omega, hal, hv⟩
  · intro i self s hr hi _ hopt
    obtain ⟨h1, hs', fr, _⟩ := hr.spec hreg.1
    rw [optionLoop_begin _ _ _ { self := self, i := i, option_found := false } hs'] at hopt
    simp only [Option.some.injEq] at hopt
    have hatt := reaches_attached hreg.1 hu hatt0 hr
    exact (token_attached _ _ i self hs' h1
      ((hu _ ⟨i, h1, hi, rfl⟩).of_frame fr) hatt s hopt).1

/-- C15 at a concrete input: `--file` is registered with the alias `-f`;
after `Parse` of `-f out.txt` the value of `--file` is `out.txt`, the token
right after the alias `-f`. -/
theorem value_follows_alias_witness :
    ∃ r, ((CommandLineParser.named "prog").addAll
        [{ option_name := "--file", aliases := ["-f"] }]).ParseArgs ["-f", "out.txt"] = some r ∧
      r.control = .returned ∧
      ∀ e ∈ r.self.options_, e.2.value ≠ "" →
        ∃ j, j + 1 < 2 ∧ ["-f", "out.txt"].getD j "" ∈ e.2.aliases ∧
          e.2.value = ["-f", "out.txt"].getD (j + 1) "" := by
  cases hr : ((CommandLineParser.named "prog").addAll
        [{ option_name := "--file", aliases := ["-f"] }]).ParseArgs ["-f", "out.txt"] with
  | none => exact absurd hr (by decide)
  | some r =>
    have hc : r.control = .returned := by
      have : (((CommandLineParser.named "prog").addAll
          [{ option_name := "--file", aliases := ["-f"] }]).ParseArgs
          ["-f", "out.txt"]).map (fun r => r.control) = some .returned := by decide
      rw [hr] at this
      simpa using this
    exact ⟨r, rfl, hc,
      (value_follows_alias "prog" [{ option_name := "--file", aliases := ["-f"] }]
        ["-f", "out.txt"] r (by decide) (by decide) hr hc).1⟩
